import Mathlib

/-!
# Verification of CLIProxyAPIPlus core components

A shallow embedding of two subsystems of the CLIProxyAPIPlus repository:

* the OpenAI → Gemini-CLI (Antigravity) request translator
  (`internal/translator/antigravity/openai/chat-completions/antigravity_openai_request.go`),
* the SQLite usage-persistence pipeline (`internal/usage`, the SQLite store,
  the async persistence plugin, and `EnablePersistence`/`DisablePersistence`).

JSON documents are modelled as trees (`Json`); raw JSON byte strings in the Go
code correspond to the canonical rendering (`Json.render`) of such trees.
`gjson` lookups are modelled by structural accessors with `gjson`'s result
semantics, and `sjson` mutations by structural updates with `sjson`'s
replace-or-append semantics.  Helper functions that live outside the provided
sources (`internal/util`, `internal/misc`, the statistics aggregator) are
modelled from the specification and marked as such in their doc comments.
-/

set_option maxRecDepth 10000

namespace CLIProxy

/-! ## JSON model

A mutual inductive so that all recursion over documents is structural
(`JsonList`/`JsonObj` replace `List Json` / `List (String × Json)`).
`Json.raw` mirrors `sjson.SetRawBytes`: a pre-rendered fragment spliced
verbatim into the output. -/

mutual

inductive Json where
  | null : Json
  | bool (b : Bool) : Json
  | num (n : Int) : Json
  | str (s : String) : Json
  | arr (items : JsonList) : Json
  | obj (entries : JsonObj) : Json
  | raw (s : String) : Json
deriving DecidableEq, Repr

inductive JsonList where
  | nil : JsonList
  | cons (hd : Json) (tl : JsonList) : JsonList
deriving DecidableEq, Repr

inductive JsonObj where
  | nil : JsonObj
  | cons (key : String) (val : Json) (tl : JsonObj) : JsonObj
deriving DecidableEq, Repr

end

namespace JsonList

def append : JsonList → JsonList → JsonList
  | .nil, ys => ys
  | .cons x xs, ys => .cons x (append xs ys)

def length : JsonList → Nat
  | .nil => 0
  | .cons _ xs => length xs + 1

def toList : JsonList → List Json
  | .nil => []
  | .cons x xs => x :: toList xs

def ofList : List Json → JsonList
  | [] => .nil
  | x :: xs => .cons x (ofList xs)

end JsonList

namespace JsonObj

def append : JsonObj → JsonObj → JsonObj
  | .nil, ys => ys
  | .cons k v xs, ys => .cons k v (append xs ys)

/-- First-match field lookup (gjson returns the first matching member). -/
def find? : JsonObj → String → Option Json
  | .nil, _ => none
  | .cons k v tl, key => if k = key then some v else find? tl key

/-- `sjson` set semantics: replace the first member with this key in place,
otherwise append a new member at the end. -/
def set : JsonObj → String → Json → JsonObj
  | .nil, key, v => .cons key v .nil
  | .cons k w tl, key, v =>
    if k = key then .cons k v tl else .cons k w (set tl key v)

/-- `sjson` delete semantics: remove the first member with this key. -/
def del : JsonObj → String → JsonObj
  | .nil, _ => .nil
  | .cons k w tl, key =>
    if k = key then tl else .cons k w (del tl key)

end JsonObj


/-- `strings.ToLower` restricted to ASCII (the inputs compared here are ASCII
keywords and model names). -/
def asciiToLower (c : Char) : Char :=
  if 'A' ≤ c && c ≤ 'Z' then Char.ofNat (c.toNat + 32) else c

def strToLower (s : String) : String := ⟨s.data.map asciiToLower⟩

def isSpaceChar (c : Char) : Bool := c = ' ' || c = '\t' || c = '\n' || c = '\r'

/-- `strings.TrimSpace` (ASCII whitespace). -/
def strTrim (s : String) : String :=
  ⟨((s.data.dropWhile isSpaceChar).reverse.dropWhile isSpaceChar).reverse⟩

def isDigitChar (c : Char) : Bool := '0' ≤ c && c ≤ '9'

def digitVal (c : Char) : Nat := c.toNat - '0'.toNat

/-- Value of a digit list read as a decimal number. -/
def digitsVal (ds : List Char) : Nat :=
  ds.foldl (fun acc c => acc * 10 + digitVal c) 0

/-- A decimal integer, or 0 when the string is not one (`strconv.ParseInt`
with failures mapped to 0, as `gjson.Result.Int` behaves on strings). -/
def parseIntStr (s : String) : Int :=
  match s.data with
  | '-' :: ds => if ds ≠ [] && ds.all isDigitChar then -(digitsVal ds : Int) else 0
  | ds => if ds ≠ [] && ds.all isDigitChar then (digitsVal ds : Int) else 0

/-- `strings.Split` on a one-character separator. -/
def splitAll (sep : Char) : List Char → List (List Char)
  | [] => [[]]
  | c :: cs =>
    match splitAll sep cs with
    | hd :: tl => if c = sep then [] :: hd :: tl else (c :: hd) :: tl
    | [] => [[c]]

namespace Json

/-- gjson `Result.Exists()` / `Get` composition: field lookup on an object. -/
def get? : Json → String → Option Json
  | .obj es, key => es.find? key
  | _, _ => none

def isObject : Json → Bool
  | .obj _ => true
  | _ => false

def isArray : Json → Bool
  | .arr _ => true
  | _ => false

/-- Escape a string as a JSON string literal body (the characters between the
quotes), following the encoding used when Go serialises JSON values. -/
def escapeChar (c : Char) : List Char :=
  if c = '"' then ['\\', '"']
  else if c = '\\' then ['\\', '\\']
  else if c = '\n' then ['\\', 'n']
  else if c = '\t' then ['\\', 't']
  else if c = '\r' then ['\\', 'r']
  else [c]

def escapeString (s : String) : String :=
  ⟨s.data.flatMap escapeChar⟩

end Json

mutual

/-- Canonical rendering of a document; models the raw bytes (`gjson.Result.Raw`
and the `sjson`-built output) of the corresponding JSON value. -/
def Json.render : Json → String
  | .null => "null"
  | .bool true => "true"
  | .bool false => "false"
  | .num n => toString n
  | .str s => "\"" ++ Json.escapeString s ++ "\""
  | .arr items => "[" ++ JsonList.render items ++ "]"
  | .obj entries => "\x7b" ++ JsonObj.render entries ++ "\x7d"
  | .raw s => s

def JsonList.render : JsonList → String
  | .nil => ""
  | .cons x .nil => Json.render x
  | .cons x (.cons y tl) => Json.render x ++ "," ++ JsonList.render (.cons y tl)

def JsonObj.render : JsonObj → String
  | .nil => ""
  | .cons k v .nil => "\"" ++ Json.escapeString k ++ "\":" ++ Json.render v
  | .cons k v (.cons k' v' tl) =>
      "\"" ++ Json.escapeString k ++ "\":" ++ Json.render v ++ "," ++
        JsonObj.render (.cons k' v' tl)

end

namespace Json

/-- gjson `Result.String()`: strings yield their content, numbers and booleans
their decimal/keyword form, null and missing yield `""`, and objects/arrays
yield the raw JSON. -/
def goString : Option Json → String
  | none => ""
  | some .null => "null"
  | some (.bool true) => "true"
  | some (.bool false) => "false"
  | some (.num n) => toString n
  | some (.str s) => s
  | some (.arr items) => Json.render (.arr items)
  | some (.obj entries) => Json.render (.obj entries)
  | some (.raw s) => s

/-- gjson `Result.Int()` on the values relevant here: numbers truncate to
int64, strings are parsed as a decimal integer (0 on failure), anything else
yields 0. -/
def goInt : Option Json → Int
  | some (.num n) => n
  | some (.str s) => parseIntStr s
  | _ => 0

/-- Set a top-level key on an object (`sjson.Set` with a one-step path); on a
non-object the callers below are never reached, the value is kept unchanged. -/
def oset (j : Json) (key : String) (v : Json) : Json :=
  match j with
  | .obj es => .obj (es.set key v)
  | _ => j

/-- Set a two-step path `a.b` (`sjson.Set`): an existing object at `a` is
updated, any other value at `a` is replaced by a fresh object. -/
def oset2 (j : Json) (a b : String) (v : Json) : Json :=
  match j.get? a with
  | some (.obj es) => j.oset a (.obj (es.set b v))
  | _ => j.oset a (.obj (.cons b v .nil))

/-- Delete a top-level key (`sjson.Delete` with a one-step path). -/
def odel (j : Json) (key : String) : Json :=
  match j with
  | .obj es => .obj (es.del key)
  | _ => j

/-- Delete a two-step path `a.b` (`sjson.Delete`). -/
def odel2 (j : Json) (a b : String) : Json :=
  match j.get? a with
  | some (.obj es) => j.oset a (.obj (es.del b))
  | _ => j

end Json

end CLIProxy

namespace CLIProxy

/-! ## Usage pipeline (`internal/usage`)

The SQLite store is modelled as an in-memory table of rows; `database/sql`
plus the `modernc.org/sqlite` driver are modelled by list operations with
SQLite's documented semantics (`ORDER BY` on a TEXT column compares bytes
with the default BINARY collation).  Timestamps are modelled by `GoTime`,
Go's `time.Time` restricted to non-negative years and whole-minute zone
offsets; `Format(time.RFC3339Nano)` and `Parse(time.RFC3339Nano)` are
modelled faithfully (the parser follows Go's strict RFC 3339 fast path). -/

structure GoTime where
  year : Nat
  month : Nat
  day : Nat
  hour : Nat
  minute : Nat
  second : Nat
  nanos : Nat
  /-- zone offset east of UTC, in minutes -/
  offsetMin : Int
deriving DecidableEq, Repr

def isLeapYear (y : Nat) : Bool := y % 4 = 0 && (y % 100 ≠ 0 || y % 400 = 0)

/-- Days in a month, as in Go's `daysIn`. -/
def daysInMonth (m y : Nat) : Nat :=
  if m = 2 then (if isLeapYear y then 29 else 28)
  else if m = 4 || m = 6 || m = 9 || m = 11 then 30
  else 31

/-- Zero-pad a number to the given width; wider numbers keep all their digits
(Go's `appendInt` used by `Time.Format`). -/
def padNum (w : Nat) (n : Nat) : String :=
  let s := toString n
  if s.length < w then ⟨List.replicate (w - s.length) '0'⟩ ++ s else s

def dropTrailingZeros (cs : List Char) : List Char :=
  (cs.reverse.dropWhile (· = '0')).reverse

/-- The fractional-second part of `Format(time.RFC3339Nano)`: omitted when the
nanoseconds are zero, otherwise a dot followed by nine zero-padded digits with
trailing zeros removed. -/
def fracString (nanos : Nat) : String :=
  if nanos = 0 then "" else "." ++ (⟨dropTrailingZeros (padNum 9 nanos).data⟩ : String)

/-- The zone part of `Format` for layout `Z07:00`: `Z` for offset zero,
otherwise a signed `hh:mm`. -/
def offsetString (off : Int) : String :=
  if off = 0 then "Z"
  else (if off < 0 then "-" else "+") ++
    padNum 2 (off.natAbs / 60) ++ ":" ++ padNum 2 (off.natAbs % 60)

/-- `t.Format(time.RFC3339Nano)` (layout `2006-01-02T15:04:05.999999999Z07:00`). -/
def GoTime.formatRFC3339Nano (t : GoTime) : String :=
  padNum 4 t.year ++ "-" ++ padNum 2 t.month ++ "-" ++ padNum 2 t.day ++ "T" ++
    padNum 2 t.hour ++ ":" ++ padNum 2 t.minute ++ ":" ++ padNum 2 t.second ++
    fracString t.nanos ++ offsetString t.offsetMin

/-- Go's `parseNanoseconds`: at most the first nine fractional digits count,
fewer digits are scaled up to nanoseconds. -/
def nanosOfDigits (ds : List Char) : Nat :=
  let kept := ds.take 9
  digitsVal kept * 10 ^ (9 - kept.length)

/-- Parse the zone suffix: `Z`, or a signed `hh:mm` with `hh ≤ 23`, `mm ≤ 59`. -/
def parseZone : List Char → Option Int
  | ['Z'] => some 0
  | [c, a1, a2, ':', b1, b2] =>
    if (c = '+' || c = '-') && isDigitChar a1 && isDigitChar a2 &&
        isDigitChar b1 && isDigitChar b2 then
      let hr := digitVal a1 * 10 + digitVal a2
      let mm := digitVal b1 * 10 + digitVal b2
      if hr ≤ 23 && mm ≤ 59 then
        some (if c = '-' then -((hr * 60 + mm : Nat) : Int) else ((hr * 60 + mm : Nat) : Int))
      else none
    else none
  | _ => none

/-- `time.Parse(time.RFC3339Nano, s)`, following Go's strict `parseRFC3339`
fast path: fixed-width zero-padded fields, `T` separator, an optional dot-led
fraction, and `Z` or a signed `hh:mm` zone. -/
def parseRFC3339Nano (s : String) : Option GoTime :=
  match s.data with
  | y1 :: y2 :: y3 :: y4 :: '-' :: o1 :: o2 :: '-' :: a1 :: a2 :: 'T' ::
      h1 :: h2 :: ':' :: i1 :: i2 :: ':' :: c1 :: c2 :: rest =>
    if isDigitChar y1 && isDigitChar y2 && isDigitChar y3 && isDigitChar y4 &&
        isDigitChar o1 && isDigitChar o2 && isDigitChar a1 && isDigitChar a2 &&
        isDigitChar h1 && isDigitChar h2 && isDigitChar i1 && isDigitChar i2 &&
        isDigitChar c1 && isDigitChar c2 then
      let year := digitsVal [y1, y2, y3, y4]
      let month := digitVal o1 * 10 + digitVal o2
      let day := digitVal a1 * 10 + digitVal a2
      let hour := digitVal h1 * 10 + digitVal h2
      let minute := digitVal i1 * 10 + digitVal i2
      let second := digitVal c1 * 10 + digitVal c2
      if 1 ≤ month && month ≤ 12 && 1 ≤ day && day ≤ daysInMonth month year &&
          hour ≤ 23 && minute ≤ 59 && second ≤ 59 then
        let fracRest :=
          match rest with
          | '.' :: c :: cs =>
            if isDigitChar c then
              (nanosOfDigits (c :: cs.takeWhile isDigitChar), cs.dropWhile isDigitChar)
            else (0, rest)
          | _ => (0, rest)
        match parseZone fracRest.2 with
        | some off =>
          some ⟨year, month, day, hour, minute, second, fracRest.1, off⟩
        | none => none
      else none
    else none
  | _ => none

/-- Days since 1970-01-01 of a civil date (the standard days-from-civil
computation, using floor division). -/
def daysFromCivil (y m d : Int) : Int :=
  let y' := if m ≤ 2 then y - 1 else y
  let era := Int.fdiv y' 400
  let yoe := y' - era * 400
  let mp := Int.fmod (m + 9) 12
  let doy := Int.fdiv (153 * mp + 2) 5 + d - 1
  let doe := yoe * 365 + Int.fdiv yoe 4 - Int.fdiv yoe 100 + doy
  era * 146097 + doe - 719468

/-- The absolute instant of a `GoTime` in nanoseconds since the Unix epoch
(used to state chronological order). -/
def GoTime.instantNanos (t : GoTime) : Int :=
  ((daysFromCivil t.year t.month t.day) * 86400 +
    (t.hour : Int) * 3600 + (t.minute : Int) * 60 + (t.second : Int) -
    t.offsetMin * 60) * 1000000000 + (t.nanos : Int)

end CLIProxy

namespace CLIProxy

/-- `TokenStats` from `internal/usage` (int64 fields). -/
structure TokenStats where
  inputTokens : Int := 0
  outputTokens : Int := 0
  reasoningTokens : Int := 0
  cachedTokens : Int := 0
  totalTokens : Int := 0
deriving DecidableEq, Repr

/-- `RequestDetail` from `internal/usage`. -/
structure RequestDetail where
  timestamp : GoTime
  source : String := ""
  authIndex : String := ""
  tokens : TokenStats := {}
  failed : Bool := false
deriving DecidableEq, Repr

/-- One row of the `usage_records` table (`id` is implicit as the position in
the table list; `failed` is stored as an integer). -/
structure UsageRow where
  apiName : String
  modelName : String
  timestamp : String
  source : String
  authIndex : String
  inputTokens : Int
  outputTokens : Int
  reasoningTokens : Int
  cachedTokens : Int
  totalTokens : Int
  failed : Int
deriving DecidableEq, Repr

def boolToInt (b : Bool) : Int := if b then 1 else 0

/-- The row written for one record: the `timestamp` column holds
`detail.Timestamp.Format(time.RFC3339Nano)`. -/
def mkRow (apiName modelName : String) (detail : RequestDetail) : UsageRow :=
  { apiName := apiName, modelName := modelName,
    timestamp := detail.timestamp.formatRFC3339Nano,
    source := detail.source, authIndex := detail.authIndex,
    inputTokens := detail.tokens.inputTokens,
    outputTokens := detail.tokens.outputTokens,
    reasoningTokens := detail.tokens.reasoningTokens,
    cachedTokens := detail.tokens.cachedTokens,
    totalTokens := detail.tokens.totalTokens,
    failed := boolToInt detail.failed }

/-- `SQLiteStore.InsertRecord`: append the row for this record. -/
def insertRecord (tbl : List UsageRow) (apiName modelName : String)
    (detail : RequestDetail) : List UsageRow :=
  tbl ++ [mkRow apiName modelName detail]

/-- Byte order on the stored timestamp strings: SQLite's default BINARY
collation compares the UTF-8 bytes, which coincides with comparing the
code points. -/
def tsKey (r : UsageRow) : List Nat := r.timestamp.data.map Char.toNat

def tsLe (r1 r2 : UsageRow) : Prop := tsKey r1 ≤ tsKey r2

instance : DecidableRel tsLe := fun r1 r2 => inferInstanceAs (Decidable (tsKey r1 ≤ tsKey r2))

instance : IsTotal UsageRow tsLe := ⟨fun a b => le_total (tsKey a) (tsKey b)⟩

instance : IsTrans UsageRow tsLe := ⟨fun _ _ _ h1 h2 => le_trans h1 h2⟩

/-- `ORDER BY timestamp` on the table. -/
def sortByTs (tbl : List UsageRow) : List UsageRow := List.insertionSort tsLe tbl

/-- The scan/parse step of `LoadAll`: a row becomes a `RequestDetail` when its
timestamp parses as RFC 3339; otherwise the row is skipped (with a warning). -/
def rowToDetail (r : UsageRow) : Option RequestDetail :=
  match parseRFC3339Nano r.timestamp with
  | some t =>
    some { timestamp := t, source := r.source, authIndex := r.authIndex,
           tokens := { inputTokens := r.inputTokens, outputTokens := r.outputTokens,
                       reasoningTokens := r.reasoningTokens,
                       cachedTokens := r.cachedTokens,
                       totalTokens := r.totalTokens },
           failed := r.failed != 0 }
  | none => none

/-- The grouped result of `LoadAll` (`map[string]map[string][]RequestDetail`),
modelled as nested association lists in first-seen key order. -/
abbrev Grouped := List (String × List (String × List RequestDetail))

/-- Append a detail to the inner list for `(api, model)`, creating missing keys
(mirrors `result[apiName][modelName] = append(...)`). -/
def addToInner (inner : List (String × List RequestDetail)) (modelName : String)
    (d : RequestDetail) : List (String × List RequestDetail) :=
  match inner with
  | [] => [(modelName, [d])]
  | (k, ds) :: tl =>
    if k = modelName then (k, ds ++ [d]) :: tl
    else (k, ds) :: addToInner tl modelName d

def addToGroups (gs : Grouped) (apiName modelName : String) (d : RequestDetail) :
    Grouped :=
  match gs with
  | [] => [(apiName, [(modelName, [d])])]
  | (k, inner) :: tl =>
    if k = apiName then (k, addToInner inner modelName d) :: tl
    else (k, inner) :: addToGroups tl apiName modelName d

/-- `SQLiteStore.LoadAll`: rows in `ORDER BY timestamp` order, rows with
unparseable timestamps skipped, the rest grouped by API and model. -/
def loadAll (tbl : List UsageRow) : Grouped :=
  (sortByTs tbl).foldl
    (fun gs r =>
      match rowToDetail r with
      | some d => addToGroups gs r.apiName r.modelName d
      | none => gs)
    []

/-! ### The async persistence plugin -/

/-- A queued write (`writeRequest`). -/
structure WriteRequest where
  apiName : String
  modelName : String
  detail : RequestDetail
deriving DecidableEq, Repr

/-- `make(chan writeRequest, 1000)` in `NewSQLitePersistencePlugin`. -/
def queueCapacity : Nat := 1000

/-- The observable state of a `SQLitePersistencePlugin`: the buffered channel
contents and the number of "queue full, record dropped" warnings emitted so
far (each dropped record logs exactly one such warning, so this counts the
dropped records). -/
structure PluginState where
  queue : List WriteRequest
  dropped : Nat
deriving DecidableEq, Repr

/-- `coreusage.Record` (the fields `HandleUsage` reads). -/
structure CoreRecord where
  provider : String := ""
  model : String := ""
  apiKey : String := ""
  source : String := ""
  authIndex : String := ""
  requestedAt : GoTime
  failed : Bool := false
  detail : TokenStats := {}
deriving DecidableEq, Repr

/-- The `writeRequest` that `HandleUsage` builds from a record. -/
def mkWriteRequest (record : CoreRecord) : WriteRequest :=
  { apiName := if record.apiKey = "" then "unknown" else record.apiKey,
    modelName := record.model,
    detail := { timestamp := record.requestedAt, source := record.source,
                authIndex := record.authIndex, tokens := record.detail,
                failed := record.failed } }

/-- `SQLitePersistencePlugin.HandleUsage`: a non-blocking send on the bounded
channel — the record is enqueued when the buffer has room, otherwise it is
dropped and a warning is logged. -/
def handleUsage (st : PluginState) (record : CoreRecord) : PluginState :=
  if st.queue.length < queueCapacity then
    { st with queue := st.queue ++ [mkWriteRequest record] }
  else
    { st with dropped := st.dropped + 1 }

/-! ### In-memory statistics and `EnablePersistence` -/

/-- Modelled from the spec: the in-memory statistics aggregator
(`GetRequestStatistics`/`recordDetail`/`Snapshot`, whose implementation is
outside the provided sources).  A snapshot exposes the total request count and
the aggregate token totals; `recordDetail` records one request and adds its
token counts. -/
structure Stats where
  totalRequests : Nat := 0
  inputTokens : Int := 0
  outputTokens : Int := 0
  reasoningTokens : Int := 0
  cachedTokens : Int := 0
  totalTokens : Int := 0
deriving DecidableEq, Repr

/-- Modelled from the spec: `RequestStatistics.recordDetail` merges one
persisted record into the in-memory statistics. -/
def Stats.recordDetail (s : Stats) (d : RequestDetail) : Stats :=
  { totalRequests := s.totalRequests + 1,
    inputTokens := s.inputTokens + d.tokens.inputTokens,
    outputTokens := s.outputTokens + d.tokens.outputTokens,
    reasoningTokens := s.reasoningTokens + d.tokens.reasoningTokens,
    cachedTokens := s.cachedTokens + d.tokens.cachedTokens,
    totalTokens := s.totalTokens + d.tokens.totalTokens }

/-- The global state touched by `EnablePersistence`/`DisablePersistence`:
the registered plugin (if any) and the statistics singleton. -/
structure UsageGlobal where
  plugin : Option PluginState := none
  stats : Stats := {}
deriving DecidableEq, Repr

/-- Environment for one `EnablePersistence` call: whether each fallible step
(`NewSQLiteStore`, `EnsureSchema`, `LoadAll`) succeeds, and the table stored
in the database file at the given path. -/
structure StoreEnv where
  openOk : Bool := true
  schemaOk : Bool := true
  loadOk : Bool := true
  table : List UsageRow := []
deriving Repr

/-- Observable events of an `EnablePersistence` call, in order. -/
inductive UEvent where
  | openDB
  | closeDB
  | mergeDetail (apiName modelName : String) (d : RequestDetail)
  | registerPlugin
deriving DecidableEq, Repr

/-- The merge loop of `EnablePersistence` over the grouped `LoadAll` result,
returning the updated statistics and the merge events in order. -/
def mergeGroups (st : Stats) (gs : Grouped) : Stats × List UEvent :=
  gs.foldl
    (fun acc g =>
      g.2.foldl
        (fun acc m =>
          m.2.foldl
            (fun acc d => (acc.1.recordDetail d, acc.2 ++ [UEvent.mergeDetail g.1 m.1 d]))
            acc)
        acc)
    (st, [])

/-- `EnablePersistence`: the already-enabled guard, the three fallible steps
(each failure closes the just-opened store and leaves the globals untouched),
the merge of every loaded record into the statistics, and only then the
registration of the writer plugin. -/
def enablePersistence (env : StoreEnv) (g : UsageGlobal) :
    UsageGlobal × Except String Unit × List UEvent :=
  if g.plugin.isSome then
    (g, .error "usage persistence: already enabled", [])
  else if !env.openOk then
    (g, .error "usage sqlite: open database", [])
  else if !env.schemaOk then
    (g, .error "usage sqlite: create table", [.openDB, .closeDB])
  else if !env.loadOk then
    (g, .error "usage sqlite: query records", [.openDB, .closeDB])
  else
    let merged := mergeGroups g.stats (loadAll env.table)
    ({ plugin := some { queue := [], dropped := 0 }, stats := merged.1 },
      .ok (), [UEvent.openDB] ++ merged.2 ++ [UEvent.registerPlugin])

/-- `DisablePersistence`: stop and deregister the plugin when present. -/
def disablePersistence (g : UsageGlobal) : UsageGlobal :=
  match g.plugin with
  | some _ => { g with plugin := none }
  | none => g

end CLIProxy

namespace CLIProxy

/-! ## OpenAI → Antigravity request translator

Embedding of `ConvertOpenAIRequestToAntigravity`
(`internal/translator/antigravity/openai/chat-completions/antigravity_openai_request.go`).
The OpenAI request is a `Json` tree (the parsed form of `rawJSON`); the
emitted Gemini CLI envelope is the structure `AgOut`, whose fields mirror the
`sjson` paths written by the Go code.  String lengths and slicing are modelled
on characters, which coincides with Go's byte indexing on ASCII input. -/

/-- A part of an upstream `content` object: `{text}`, `{inlineData}`,
`{functionCall}` or `{functionResponse}`.  `id = none` means the `id` key is
absent; `result = none` means `response.result` is omitted (the `response`
object itself is always present on a `functionResponse`). -/
inductive AgPart where
  | text (s : String)
  | inlineData (mimeType data : String)
  | functionCall (name : String) (id : Option String) (args : Json)
  | functionResponse (name : String) (id : Option String) (result : Option Json)
deriving DecidableEq, Repr

/-- An upstream content object (`{role, parts}`). -/
structure AgContent where
  role : String
  parts : List AgPart
deriving DecidableEq, Repr

/-- `request.generationConfig.thinkingConfig` as written by the translator and
the thinking helpers: a numeric budget, an `include_thoughts` flag, or a
discrete thinking level. -/
structure ThinkingConfig where
  thinkingBudget : Option Int := none
  includeThoughts : Option Bool := none
  thinkingLevel : Option String := none
deriving DecidableEq, Repr

/-- `request.generationConfig` (only the fields this translator writes). -/
structure GenerationConfig where
  thinkingConfig : Option ThinkingConfig := none
  temperature : Option Int := none
  topP : Option Int := none
  topK : Option Int := none
  maxOutputTokens : Option Int := none
  responseModalities : List String := []
  aspectRatio : Option String := none
  imageSize : Option String := none
deriving DecidableEq, Repr

/-- The `request` object of the emitted envelope. -/
structure AgRequest where
  contents : List AgContent := []
  systemInstruction : Option AgContent := none
  generationConfig : GenerationConfig := {}
  /-- `request.tools`: when present, the single tool node (the emitted value is
  the one-element array holding it). -/
  tools : Option Json := none
  toolConfigMode : Option String := none
  allowedFunctionNames : Option (List String) := none
  safetySettings : Json := .null
deriving DecidableEq, Repr

/-- The emitted Gemini CLI envelope `{project, request, model}`. -/
structure AgOut where
  project : String := ""
  model : String
  request : AgRequest
deriving DecidableEq, Repr

/-- Modelled from the spec: the helpers the translator imports from
`internal/util`, `internal/misc` and the gemini `common` package, which are
not among the provided sources.  `modelSupportsThinking`,
`isGemini3Model` and `modelUsesThinkingLevels` classify a model name
(thinking-capable, thinking-levels family, budget family);
`validateGemini3ThinkingLevel` validates a discrete effort token;
`applyGeminiCLIThinkingLevel` and `applyReasoningEffortToGeminiCLI` rewrite
the thinking config (for budget models the latter maps `reasoning_effort` to
an integer budget); `mimeTypes` is the extension table `misc.MimeTypes`;
`defaultSafetySettings` is what `common.AttachDefaultSafetySettings` attaches
under `request.safetySettings`. -/
structure UtilHooks where
  modelSupportsThinking : String → Bool
  isGemini3Model : String → Bool
  modelUsesThinkingLevels : String → Bool
  validateGemini3ThinkingLevel : String → String → Option String
  applyGeminiCLIThinkingLevel : String → Option Bool →
    Option ThinkingConfig → Option ThinkingConfig
  applyReasoningEffortToGeminiCLI : String → Option ThinkingConfig → Option ThinkingConfig
  mimeTypes : String → Option String
  defaultSafetySettings : Json

/-- `strings.Contains`: does `needle` occur as a contiguous run in the list? -/
def hasSubstr : List Char → List Char → Bool
  | [], needle => needle.isEmpty
  | c :: cs, needle => needle.isPrefixOf (c :: cs) || hasSubstr cs needle

/-- `strings.Contains(strings.ToLower(modelName), "claude")`. -/
def claudeLike (modelName : String) : Bool :=
  hasSubstr (strToLower modelName).data "claude".data

/-- The alphabet of `genToolCallID`. -/
def idLetters : List Char :=
  "abcdefghijklmnopqrstuvwxyzABCDEFGHIJKLMNOPQRSTUVWXYZ0123456789".data

/-- `genToolCallID`: `toolu_` followed by 24 characters drawn from the
crypto/rand stream `r` (the `block`-th invocation reads entries
`24*block .. 24*block+23`). -/
def genToolCallID (r : Nat → Fin 62) (block : Nat) : String :=
  "toolu_" ++ ⟨(List.range 24).map fun i => idLetters.getD (r (24 * block + i)).val 'a'⟩

/-! ### JSON validity (`gjson.Valid`) -/

def skipWs : List Char → List Char
  | [] => []
  | c :: cs => if c = ' ' || c = '\t' || c = '\n' || c = '\r' then skipWs cs else c :: cs

/-- Consume a JSON string body after the opening quote. -/
def validStringTail : List Char → Option (List Char)
  | [] => none
  | '"' :: rest => some rest
  | '\\' :: [] => none
  | '\\' :: _ :: rest => validStringTail rest
  | _ :: rest => validStringTail rest

def digits1 : List Char → Option (List Char)
  | [] => none
  | c :: cs => if isDigitChar c then some (cs.dropWhile isDigitChar) else none

def validNumber (cs : List Char) : Option (List Char) := do
  let cs1 := match cs with | '-' :: r => r | _ => cs
  let r1 ← digits1 cs1
  let r2 ← match r1 with
    | '.' :: rr => digits1 rr
    | _ => some r1
  match r2 with
  | 'e' :: rr => digits1 (match rr with | '+' :: z => z | '-' :: z => z | _ => rr)
  | 'E' :: rr => digits1 (match rr with | '+' :: z => z | '-' :: z => z | _ => rr)
  | _ => some r2

mutual

def validValue : Nat → List Char → Option (List Char)
  | 0, _ => none
  | fuel + 1, cs =>
    match skipWs cs with
    | '{' :: rest => validObjBody fuel rest
    | '[' :: rest => validArrBody fuel rest
    | '"' :: rest => validStringTail rest
    | 't' :: 'r' :: 'u' :: 'e' :: rest => some rest
    | 'f' :: 'a' :: 'l' :: 's' :: 'e' :: rest => some rest
    | 'n' :: 'u' :: 'l' :: 'l' :: rest => some rest
    | cs' => validNumber cs'

def validArrBody : Nat → List Char → Option (List Char)
  | 0, _ => none
  | fuel + 1, cs =>
    match skipWs cs with
    | ']' :: rest => some rest
    | cs' => do
      let r ← validValue fuel cs'
      match skipWs r with
      | ',' :: rest => validArrMore fuel rest
      | ']' :: rest => some rest
      | _ => none

def validArrMore : Nat → List Char → Option (List Char)
  | 0, _ => none
  | fuel + 1, cs => do
    let r ← validValue fuel cs
    match skipWs r with
    | ',' :: rest => validArrMore fuel rest
    | ']' :: rest => some rest
    | _ => none

def validObjBody : Nat → List Char → Option (List Char)
  | 0, _ => none
  | fuel + 1, cs =>
    match skipWs cs with
    | '\x7d' :: rest => some rest
    | cs' => validObjMember fuel cs'

def validObjMember : Nat → List Char → Option (List Char)
  | 0, _ => none
  | fuel + 1, cs => do
    let r1 ← match skipWs cs with
      | '"' :: rest => validStringTail rest
      | _ => none
    let r2 ← match skipWs r1 with
      | ':' :: rest => validValue fuel rest
      | _ => none
    match skipWs r2 with
    | ',' :: rest => validObjMember fuel rest
    | '\x7d' :: rest => some rest
    | _ => none

end

/-- `gjson.Valid`: the payload is one JSON value (plus whitespace). -/
def jsonValid (s : String) : Bool :=
  match validValue (2 * s.length + 4) s.data with
  | some rest => (skipWs rest).isEmpty
  | none => false

end CLIProxy

namespace CLIProxy

/-! ### Message translation -/

/-- Go map assignment `m[k] = v`: overwrite in place or insert. -/
def updateAssoc {α : Type} (m : List (String × α)) (k : String) (v : α) :
    List (String × α) :=
  match m with
  | [] => [(k, v)]
  | (k', v') :: tl =>
    if k' = k then (k', v) :: tl else (k', v') :: updateAssoc tl k v

/-- Go map lookup `m[k]` (presence). -/
def lookupAssoc {α : Type} (m : List (String × α)) (k : String) : Option α :=
  match m with
  | [] => none
  | (k', v') :: tl => if k' = k then some v' else lookupAssoc tl k

/-- gjson two-step path `a.b`. -/
def getPath2 (j : Json) (a b : String) : Option Json :=
  (j.get? a).bind (·.get? b)

/-- First pass (lines 176–208): collect `tool_call id → function name` from
assistant `tool_calls` and Anthropic-style `tool_use` content items. -/
def firstPassMsg (acc : List (String × String)) (m : Json) : List (String × String) :=
  if Json.goString (m.get? "role") = "assistant" then
    let acc1 :=
      match m.get? "tool_calls" with
      | some (.arr tcs) =>
        tcs.toList.foldl
          (fun acc tc =>
            let tcType := Json.goString (tc.get? "type")
            if tcType = "function" || tcType = "" then
              let id := Json.goString (tc.get? "id")
              let name := Json.goString (getPath2 tc "function" "name")
              if id ≠ "" && name ≠ "" then updateAssoc acc id name else acc
            else acc)
          acc
      | _ => acc
    match m.get? "content" with
    | some (.arr items) =>
      items.toList.foldl
        (fun acc item =>
          if Json.goString (item.get? "type") = "tool_use" then
            let id := Json.goString (item.get? "id")
            let name := Json.goString (item.get? "name")
            if id ≠ "" && name ≠ "" then updateAssoc acc id name else acc
          else acc)
        acc1
    | _ => acc1
  else acc

/-- Second pass (lines 211–222): `tool_call_id → content` of `tool` messages.
The stored value is the `content` field when present (`c.Raw` in Go, the raw
bytes of the tree), `none` when the message has no `content` field. -/
def toolResponsesOfMsgs (msgs : List Json) : List (String × Option Json) :=
  msgs.foldl
    (fun acc m =>
      if Json.goString (m.get? "role") = "tool" then
        let toolCallID := Json.goString (m.get? "tool_call_id")
        if toolCallID ≠ "" then updateAssoc acc toolCallID (m.get? "content") else acc
      else acc)
    []

/-- `strings.SplitN(s, sep, 2)`: the run before the first separator, and the
rest when the separator occurs. -/
def splitFirst (sep : Char) : List Char → List Char × Option (List Char)
  | [] => ([], none)
  | c :: cs =>
    if c = sep then ([], some cs)
    else
      let r := splitFirst sep cs
      (c :: r.1, r.2)

/-- The `image_url` handling shared by the user branch (lines 259–270) and the
assistant branch (lines 351–363): when the URL is longer than five characters,
everything after position 5 is split at the first `;`; when a `;` exists and
more than seven characters follow it, the prefix becomes the mime type and the
characters after the seventh become the payload.  The `data:` scheme itself is
never checked. -/
def imageUrlToInline (imageURL : String) : Option (String × String) :=
  if imageURL.length > 5 then
    match splitFirst ';' (imageURL.data.drop 5) with
    | (pieces0, some pieces1) =>
      if pieces1.length > 7 then some (⟨pieces0⟩, ⟨pieces1.drop 7⟩) else none
    | (_, none) => none
  else none

/-- `strings.Split(filename, ".")`; the extension is the last component when
there is more than one. -/
def fileExt (filename : String) : String :=
  let sp := splitAll '.' filename.data
  if sp.length > 1 then ⟨sp.getLastD []⟩ else ""

/-- The extracted text of an Anthropic-style `tool_result` content: arrays
concatenate their `text` items, anything else is `c.String()`. -/
def toolResultText (c : Option Json) : String :=
  match c with
  | some (.arr subs) =>
    subs.toList.foldl
      (fun acc sub =>
        if Json.goString (sub.get? "type") = "text" then
          acc ++ Json.goString (sub.get? "text")
        else acc)
      ""
  | c => Json.goString c

/-- One item of a user message's content array (lines 254–333): `text`,
`image_url`, `file` and `tool_result` items can produce a part; everything
else is dropped. -/
def processUserItem (hooks : UtilHooks) (includeToolIDs : Bool)
    (tcMap : List (String × String)) (item : Json) : Option AgPart :=
  match Json.goString (item.get? "type") with
  | "text" => some (.text (Json.goString (item.get? "text")))
  | "image_url" =>
    (imageUrlToInline (Json.goString (getPath2 item "image_url" "url"))).map
      fun md => .inlineData md.1 md.2
  | "file" =>
    let filename := Json.goString (getPath2 item "file" "filename")
    let fileData := Json.goString (getPath2 item "file" "file_data")
    match hooks.mimeTypes (fileExt filename) with
    | some mimeType => some (.inlineData mimeType fileData)
    | none => none
  | "tool_result" =>
    let toolID := Json.goString (item.get? "tool_use_id")
    let contentStr := toolResultText (item.get? "content")
    match lookupAssoc tcMap toolID with
    | some name =>
      some (.functionResponse name
        (if includeToolIDs && toolID ≠ "" then some toolID else none)
        (some (.str contentStr)))
    | none => none
  | _ => none

/-- The parts of a user (or sole-system) message (lines 246–335). -/
def processUserParts (hooks : UtilHooks) (includeToolIDs : Bool)
    (tcMap : List (String × String)) (content : Option Json) : List AgPart :=
  match content with
  | some (.str s) => [.text s]
  | some (.arr items) =>
    items.toList.filterMap (processUserItem hooks includeToolIDs tcMap)
  | _ => []

/-- `setAt l i v`: `sjson` array-index set — replace in range, append at the
end (the translator only ever writes consecutive indexes). -/
def setAt (l : List String) (i : Nat) (v : String) : List String :=
  match l, i with
  | [], _ => [v]
  | _ :: tl, 0 => v :: tl
  | h :: tl, i + 1 => h :: setAt tl i v

/-- A system message when other messages exist (lines 229–245): overwrite
`systemInstruction` part texts index by index, earlier parts beyond the new
count surviving. -/
def processSystemMsg (sysParts : Option (List String)) (content : Option Json) :
    Option (List String) :=
  match content with
  | some (.str s) => some (setAt (sysParts.getD []) 0 s)
  | some (.obj es) =>
    if Json.goString (JsonObj.find? es "type") = "text" then
      some (setAt (sysParts.getD []) 0 (Json.goString (JsonObj.find? es "text")))
    else sysParts
  | some (.arr items) =>
    let its := items.toList
    if its.length > 0 then
      some ((its.foldl
        (fun (acc : List String × Nat) item =>
          (setAt acc.1 acc.2 (Json.goString (item.get? "text")), acc.2 + 1))
        (sysParts.getD [], 0)).1)
    else sysParts
  | _ => sysParts

end CLIProxy

namespace CLIProxy

/-- Accumulator for the assistant content-item loop (parts built so far, next
crypto-id block). -/
structure AsstAcc where
  parts : List AgPart
  k : Nat
deriving Repr

/-- One item of an assistant message's content array (lines 344–389): text,
inline image data, or an Anthropic-style `tool_use` that becomes a
`functionCall` (with a generated id when the model is Claude-like and the item
carries none).  The `args` are spliced raw when `input` is valid JSON,
otherwise wrapped under `params`. -/
def processAssistantContentItem (includeToolIDs : Bool) (gen : Nat → String)
    (acc : AsstAcc) (item : Json) : AsstAcc :=
  match Json.goString (item.get? "type") with
  | "text" => { acc with parts := acc.parts ++ [.text (Json.goString (item.get? "text"))] }
  | "image_url" =>
    match imageUrlToInline (Json.goString (getPath2 item "image_url" "url")) with
    | some md => { acc with parts := acc.parts ++ [.inlineData md.1 md.2] }
    | none => acc
  | "tool_use" =>
    let fname := Json.goString (item.get? "name")
    let fargs := match item.get? "input" with
      | some j => Json.render j
      | none => ""
    let fid0 := Json.goString (item.get? "id")
    let fidk : String × Nat :=
      if includeToolIDs && fid0 = "" then (gen acc.k, acc.k + 1) else (fid0, acc.k)
    let args : Json :=
      if jsonValid fargs then .raw fargs
      else .obj (.cons "params" (.raw fargs) .nil)
    { parts := acc.parts ++
        [.functionCall fname
          (if includeToolIDs && fidk.1 ≠ "" then some fidk.1 else none) args],
      k := fidk.2 }
  | _ => acc

/-- Accumulator for the `tool_calls` loop (lines 393–425). -/
structure CallsAcc where
  parts : List AgPart
  map : List (String × String)
  fIDs : List String
  k : Nat
deriving Repr

/-- One entry of an assistant message's `tool_calls` array: skipped unless its
`type` is `function` or empty; emits a `functionCall` part, records the id in
the id→name map (Claude-like models only), and collects the id for the
function-response content. -/
def processToolCall (includeToolIDs : Bool) (gen : Nat → String)
    (acc : CallsAcc) (tc : Json) : CallsAcc :=
  let tcType := Json.goString (tc.get? "type")
  if tcType ≠ "function" && tcType ≠ "" then acc
  else
    let fid0 := Json.goString (tc.get? "id")
    let fname := Json.goString (getPath2 tc "function" "name")
    let fargs := Json.goString (getPath2 tc "function" "arguments")
    let fidk : String × Nat :=
      if includeToolIDs && fid0 = "" then (gen acc.k, acc.k + 1) else (fid0, acc.k)
    let fid := fidk.1
    let idOpt := if includeToolIDs && fid ≠ "" then some fid else none
    let map' :=
      if includeToolIDs && fid ≠ "" && fname ≠ "" then updateAssoc acc.map fid fname
      else acc.map
    let args : Json :=
      if jsonValid fargs then .raw fargs
      else .obj (.cons "params" (.raw fargs) .nil)
    { parts := acc.parts ++ [.functionCall fname idOpt args],
      map := map',
      fIDs := acc.fIDs ++ (if fid ≠ "" then [fid] else []),
      k := fidk.2 }

/-- The synthetic `role:"function"` content of an assistant message with
`tool_calls` (lines 429–456): one `functionResponse` per collected id whose
name is known, populated from the cached raw `tool`-message content — a
missing or empty raw is `{}`; the raw `null` omits `response.result`; a raw
object or array is stored as-is; any other raw text is stored as a string. -/
def buildFunctionResponses (includeToolIDs : Bool)
    (tcMap : List (String × String)) (resps : List (String × Option Json))
    (fIDs : List String) : List AgPart :=
  fIDs.foldl
    (fun parts fid =>
      match lookupAssoc tcMap fid with
      | some name =>
        let result : Option Json :=
          match lookupAssoc resps fid with
          | none => some (.obj .nil)
          | some none => some (.obj .nil)
          | some (some .null) => none
          | some (some (.obj es)) => some (.obj es)
          | some (some (.arr xs)) => some (.arr xs)
          | some (some v) => some (.str (Json.render v))
        parts ++ [.functionResponse name (if includeToolIDs then some fid else none) result]
      | none => parts)
    []

/-- An assistant message (lines 338–459): a single `model` content from its
string or array content and its `tool_calls`, followed — when at least one
function response could be built — by the synthetic `function` content.
Returns the emitted contents, the updated id→name map, and the next
crypto-id block. -/
def processAssistantMsg (includeToolIDs : Bool) (gen : Nat → String)
    (resps : List (String × Option Json)) (tcMap : List (String × String))
    (k : Nat) (m : Json) : List AgContent × List (String × String) × Nat :=
  let content := m.get? "content"
  let acc1 : AsstAcc :=
    match content with
    | some (.str s) => ⟨[.text s], k⟩
    | some (.arr items) =>
      items.toList.foldl (processAssistantContentItem includeToolIDs gen) ⟨[], k⟩
    | _ => ⟨[], k⟩
  match m.get? "tool_calls" with
  | some (.arr tcs) =>
    let ca :=
      tcs.toList.foldl (processToolCall includeToolIDs gen)
        ⟨acc1.parts, tcMap, [], acc1.k⟩
    let fparts := buildFunctionResponses includeToolIDs ca.map resps ca.fIDs
    (⟨"model", ca.parts⟩ ::
        (if fparts.length > 0 then [⟨"function", fparts⟩] else []),
      ca.map, ca.k)
  | _ => ([⟨"model", acc1.parts⟩], tcMap, acc1.k)

/-- The state threaded through the third pass over `messages`. -/
structure ConvState where
  contents : List AgContent := []
  sysParts : Option (List String) := none
  map : List (String × String) := []
  k : Nat := 0

/-- The third-pass body (lines 224–461): dispatch one message on its role. -/
def processMessage (hooks : UtilHooks) (includeToolIDs : Bool) (gen : Nat → String)
    (resps : List (String × Option Json)) (msgCount : Nat)
    (st : ConvState) (m : Json) : ConvState :=
  let role := Json.goString (m.get? "role")
  let content := m.get? "content"
  if role = "system" && msgCount > 1 then
    { st with sysParts := processSystemMsg st.sysParts content }
  else if role = "user" || (role = "system" && msgCount = 1) then
    { st with contents :=
        st.contents ++ [⟨"user", processUserParts hooks includeToolIDs st.map content⟩] }
  else if role = "tool" then st
  else if role = "assistant" then
    let r := processAssistantMsg includeToolIDs gen resps st.map st.k m
    { st with contents := st.contents ++ r.1, map := r.2.1, k := r.2.2 }
  else st

end CLIProxy

namespace CLIProxy

/-! ### Thinking configuration (lines 65–127) -/

/-- gjson `Result.Bool()`. -/
def goBool : Option Json → Bool
  | some (.bool b) => b
  | some (.num n) => n ≠ 0
  | some (.str s) =>
    let l := strToLower s
    l = "true" || l = "t" || l = "1"
  | _ => false

/-- `sjson.SetBytes(out, "...thinkingConfig.thinkingBudget", n)`: create the
config when absent. -/
def tcSetBudget (tc : Option ThinkingConfig) (n : Int) : Option ThinkingConfig :=
  some { tc.getD {} with thinkingBudget := some n }

/-- `sjson.SetBytes(out, "...thinkingConfig.include_thoughts", b)`. -/
def tcSetInclude (tc : Option ThinkingConfig) (b : Bool) : Option ThinkingConfig :=
  some { tc.getD {} with includeThoughts := some b }

/-- The official `reasoning_effort` stage (lines 69–86), reached when the
field exists and the model is thinking-capable. -/
def applyOfficialThinking (hooks : UtilHooks) (modelName : String)
    (re : Option Json) (tc0 : Option ThinkingConfig) : Option ThinkingConfig :=
  let effort := strToLower (strTrim (Json.goString re))
  if hooks.isGemini3Model modelName then
    if effort = "none" then none
    else if effort = "auto" then hooks.applyGeminiCLIThinkingLevel "" (some true) tc0
    else
      match hooks.validateGemini3ThinkingLevel modelName effort with
      | some level => hooks.applyGeminiCLIThinkingLevel level none tc0
      | none => tc0
  else if !hooks.modelUsesThinkingLevels modelName then
    hooks.applyReasoningEffortToGeminiCLI effort tc0
  else tc0

/-- The Cherry Studio extension stage (lines 88–113),
`extra_body.google.thinking_config`. -/
def applyExtensionThinking (raw : Json) (tc0 : Option ThinkingConfig) :
    Option ThinkingConfig :=
  match (raw.get? "extra_body").bind (·.get? "google") |>.bind (·.get? "thinking_config") with
  | some tcj =>
    if tcj.isObject then
      let budgetStep : Option ThinkingConfig × Bool × Int :=
        match tcj.get? "thinkingBudget" with
        | some v => (tcSetBudget tc0 (Json.goInt (some v)), true, Json.goInt (some v))
        | none =>
          match tcj.get? "thinking_budget" with
          | some v => (tcSetBudget tc0 (Json.goInt (some v)), true, Json.goInt (some v))
          | none => (tc0, false, 0)
      let tc1 := budgetStep.1
      match tcj.get? "includeThoughts" with
      | some v => tcSetInclude tc1 (goBool (some v))
      | none =>
        match tcj.get? "include_thoughts" with
        | some v => tcSetInclude tc1 (goBool (some v))
        | none =>
          if budgetStep.2.1 && budgetStep.2.2 ≠ 0 then tcSetInclude tc1 true else tc1
    else tc0
  | none => tc0

/-- The Anthropic `thinking:{type:"enabled", budget_tokens}` stage
(lines 115–127), reached only when no thinking config exists yet. -/
def applyAnthropicThinking (raw : Json) (tc0 : Option ThinkingConfig) :
    Option ThinkingConfig :=
  match raw.get? "thinking" with
  | some t =>
    if t.isObject && Json.goString (t.get? "type") = "enabled" then
      match t.get? "budget_tokens" with
      | some (.num b) => tcSetInclude (tcSetBudget tc0 b) true
      | _ => tc0
    else tc0
  | none => tc0

/-! ### Tool declarations (lines 464–603) -/

mutual

/-- Models `cleanToolSchema` (lines 22–31): the regex
`"additionalProperties"\s*:\s*(true|false)\s*,?` removes every
boolean-valued `additionalProperties` member from the rendered tool node
(followed by trailing-comma cleanup); on the canonical rendering of a tree
this is exactly the removal of those members.  Members with non-boolean
values do not match the regex and survive. -/
def cleanToolSchema : Json → Json
  | .obj es => .obj (cleanToolSchemaObj es)
  | .arr xs => .arr (cleanToolSchemaList xs)
  | j => j

def cleanToolSchemaList : JsonList → JsonList
  | .nil => .nil
  | .cons x xs => .cons (cleanToolSchema x) (cleanToolSchemaList xs)

def cleanToolSchemaObj : JsonObj → JsonObj
  | .nil => .nil
  | .cons k v tl =>
    match v with
    | .bool b =>
      if k = "additionalProperties" then cleanToolSchemaObj tl
      else .cons k (.bool b) (cleanToolSchemaObj tl)
    | v => .cons k (cleanToolSchema v) (cleanToolSchemaObj tl)

end

/-- Modelled from the spec: `util.RenameKey` renames a wire-format alias to
the canonical key, in place; it fails when the document is not an object or
the key is missing (the call sites guard on key existence). -/
def renameKeyObj : JsonObj → String → String → Option JsonObj
  | .nil, _, _ => none
  | .cons k v tl, oldKey, newKey =>
    if k = oldKey then some (.cons newKey v tl)
    else (renameKeyObj tl oldKey newKey).map (.cons k v)

/-- Modelled from the spec: see `renameKeyObj`. -/
def renameKey (j : Json) (oldKey newKey : String) : Option Json :=
  match j with
  | .obj es => (renameKeyObj es oldKey newKey).map .obj
  | _ => none

/-- `sjson.Set(fnRaw, "parametersJsonSchema.type", "object")` followed by
`sjson.SetRaw(fnRaw, "parametersJsonSchema.properties", "{}")`. -/
def setDefaultSchema (j : Json) : Json :=
  (j.oset2 "parametersJsonSchema" "type" (.str "object")).oset2
    "parametersJsonSchema" "properties" (.obj .nil)

/-- An OpenAI-format tool entry's `function` object (lines 484–532): rename
`parameters` to `parametersJsonSchema` (defaulting the schema when absent or
when the rename fails), then drop `strict` and `cache_control`. -/
def prepFunctionTool (fn : Json) : Json :=
  let fnRaw :=
    if (fn.get? "parameters").isSome then
      match renameKey fn "parameters" "parametersJsonSchema" with
      | some renamed => renamed
      | none => setDefaultSchema fn
    else setDefaultSchema fn
  (fnRaw.odel "strict").odel "cache_control"

/-- A direct-format (MCP) tool entry (lines 533–583): rename `input_schema`
or `parameters` to `parametersJsonSchema` (defaulting on failure or absence),
then drop `strict`, `cache_control`, `input_schema` and the top-level
`parametersJsonSchema.additionalProperties`. -/
def prepDirectTool (t : Json) : Json :=
  let fnRaw :=
    if (t.get? "input_schema").isSome then
      match renameKey t "input_schema" "parametersJsonSchema" with
      | some renamed => renamed
      | none => (setDefaultSchema t).odel "input_schema"
    else if (t.get? "parameters").isSome then
      match renameKey t "parameters" "parametersJsonSchema" with
      | some renamed => renamed
      | none => setDefaultSchema t
    else setDefaultSchema t
  ((((fnRaw.odel "strict").odel "cache_control").odel "input_schema").odel2
    "parametersJsonSchema" "additionalProperties")

/-- Accumulator for the tools loop: the `functionDeclarations` array (`none`
until first created), the `googleSearch` passthrough, and `hasTool`. -/
structure ToolAcc where
  functionDecls : Option (List Json) := none
  googleSearch : Option Json := none
  hasTool : Bool := false

/-- One entry of the OpenAI `tools` array. -/
def processToolEntry (acc : ToolAcc) (t : Json) : ToolAcc :=
  let toolType := Json.goString (t.get? "type")
  let acc1 :=
    if toolType = "function" then
      match t.get? "function" with
      | some fn =>
        if fn.isObject then
          { acc with
            functionDecls := some ((acc.functionDecls.getD []) ++ [prepFunctionTool fn]),
            hasTool := true }
        else acc
      | none => acc
    else if (t.get? "name").isSome then
      { acc with
        functionDecls := some ((acc.functionDecls.getD []) ++ [prepDirectTool t]),
        hasTool := true }
    else acc
  match t.get? "google_search" with
  | some gs => { acc1 with googleSearch := some gs, hasTool := true }
  | none => acc1

/-- The tool node assembled by the loop (key order fixed as
`functionDeclarations`, `googleSearch`; the claims are order-independent). -/
def toolAccNode (acc : ToolAcc) : Json :=
  let es0 : JsonObj :=
    match acc.functionDecls with
    | some ds => .cons "functionDeclarations" (.arr (JsonList.ofList ds)) .nil
    | none => .nil
  match acc.googleSearch with
  | some gs => .obj (es0.append (.cons "googleSearch" gs .nil))
  | none => .obj es0

/-- The `tools` section (lines 464–603): the cleaned single tool node, when
any tool was produced. -/
def convertTools (raw : Json) : Option Json :=
  match raw.get? "tools" with
  | some (.arr ts) =>
    if ts.length > 0 then
      let acc := ts.toList.foldl processToolEntry {}
      if acc.hasTool then some (cleanToolSchema (toolAccNode acc)) else none
    else none
  | _ => none

/-- The `tool_choice` section (lines 605–629). -/
def convertToolChoice (raw : Json) : Option String × Option (List String) :=
  match raw.get? "tool_choice" with
  | some (.str s) =>
    (match strToLower (strTrim s) with
     | "none" => some "NONE"
     | "auto" => some "AUTO"
     | "required" => some "ANY"
     | _ => none,
     none)
  | some (.obj es) =>
    if Json.goString (JsonObj.find? es "type") = "function" then
      let name := Json.goString ((JsonObj.find? es "function").bind (·.get? "name"))
      if name ≠ "" then (some "ANY", some [name]) else (none, none)
    else (none, none)
  | _ => (none, none)

/-- The thinking-configuration chain of `ConvertOpenAIRequestToAntigravity`
(lines 65–127): the official field, then the extension, then the Anthropic
object, with the stated guards. -/
def convertThinking (hooks : UtilHooks) (modelName : String) (raw : Json) :
    Option ThinkingConfig :=
  let re := raw.get? "reasoning_effort"
  let hasOfficial := re.isSome
  let tc1 : Option ThinkingConfig :=
    if hasOfficial && hooks.modelSupportsThinking modelName then
      applyOfficialThinking hooks modelName re none
    else none
  let tc2 : Option ThinkingConfig :=
    if !hasOfficial && hooks.modelSupportsThinking modelName &&
        !hooks.modelUsesThinkingLevels modelName then
      applyExtensionThinking raw tc1
    else tc1
  if tc2.isNone && hooks.modelSupportsThinking modelName then
    applyAnthropicThinking raw tc2
  else tc2

/-- `request.generationConfig` (lines 65–169): the thinking chain followed by
the pass-through numeric fields, the modalities, and the image config. -/
def convertGenConfig (hooks : UtilHooks) (modelName : String) (raw : Json) :
    GenerationConfig :=
  let gc : GenerationConfig := { thinkingConfig := convertThinking hooks modelName raw }
  let gc := match raw.get? "temperature" with
    | some (.num n) => { gc with temperature := some n }
    | _ => gc
  let gc := match raw.get? "top_p" with
    | some (.num n) => { gc with topP := some n }
    | _ => gc
  let gc := match raw.get? "top_k" with
    | some (.num n) => { gc with topK := some n }
    | _ => gc
  let gc := match raw.get? "max_tokens" with
    | some (.num n) => { gc with maxOutputTokens := some n }
    | _ => gc
  let gc := match raw.get? "modalities" with
    | some (.arr ms) =>
      let mods := ms.toList.foldl
        (fun acc mj =>
          match strToLower (Json.goString (some mj)) with
          | "text" => acc ++ ["TEXT"]
          | "image" => acc ++ ["IMAGE"]
          | _ => acc)
        []
      if mods.length > 0 then { gc with responseModalities := mods } else gc
    | _ => gc
  match raw.get? "image_config" with
  | some cfg =>
    if cfg.isObject then
      let gc := match cfg.get? "aspect_ratio" with
        | some (.str s) => { gc with aspectRatio := some s }
        | _ => gc
      match cfg.get? "image_size" with
      | some (.str s) => { gc with imageSize := some s }
      | _ => gc
    else gc
  | _ => gc

/-- The three passes over `messages` (lines 171–461). -/
def convertMessages (hooks : UtilHooks) (includeToolIDs : Bool) (gen : Nat → String)
    (raw : Json) : ConvState :=
  match raw.get? "messages" with
  | some (.arr ms) =>
    let msgs := ms.toList
    let map0 := msgs.foldl firstPassMsg []
    let resps := toolResponsesOfMsgs msgs
    msgs.foldl (processMessage hooks includeToolIDs gen resps msgs.length)
      { map := map0 }
  | _ => {}

/-- `ConvertOpenAIRequestToAntigravity` (lines 45–635): the complete
translation of one OpenAI Chat Completions request tree into the Gemini CLI
envelope.  `gen k` is the `k`-th id produced by `genToolCallID` (the
crypto/rand stream enters only through it). -/
def convertOpenAIRequestToAntigravity (hooks : UtilHooks) (gen : Nat → String)
    (modelName : String) (raw : Json) : AgOut :=
  let includeToolIDs := claudeLike modelName
  let conv := convertMessages hooks includeToolIDs gen raw
  let choice := convertToolChoice raw
  { project := "",
    model := modelName,
    request := {
      contents := conv.contents,
      systemInstruction := conv.sysParts.map fun ps => ⟨"user", ps.map .text⟩,
      generationConfig := convertGenConfig hooks modelName raw,
      tools := (convertTools raw).map fun tn => .arr (.cons tn .nil),
      toolConfigMode := (convertToolChoice raw).1,
      allowedFunctionNames := (convertToolChoice raw).2,
      safetySettings := hooks.defaultSafetySettings } }

end CLIProxy

namespace CLIProxy

/-! ### Predicates and collectors used by the statements -/

def Json.isBool : Json → Bool
  | .bool _ => true
  | _ => false

mutual

/-- Does any member named `key` occur anywhere in the tree? -/
def hasMemberNamed : Json → String → Bool
  | .obj es, key => hasMemberNamedObj es key
  | .arr xs, key => hasMemberNamedList xs key
  | _, _ => false

def hasMemberNamedList : JsonList → String → Bool
  | .nil, _ => false
  | .cons x xs, key => hasMemberNamed x key || hasMemberNamedList xs key

def hasMemberNamedObj : JsonObj → String → Bool
  | .nil, _ => false
  | .cons k v tl, key =>
    k = key || hasMemberNamed v key || hasMemberNamedObj tl key

end

mutual

/-- Does a member named `additionalProperties` with a boolean value occur
anywhere in the tree? -/
def hasBoolAP : Json → Bool
  | .obj es => hasBoolAPObj es
  | .arr xs => hasBoolAPList xs
  | _ => false

def hasBoolAPList : JsonList → Bool
  | .nil => false
  | .cons x xs => hasBoolAP x || hasBoolAPList xs

def hasBoolAPObj : JsonObj → Bool
  | .nil => false
  | .cons k v tl =>
    (k = "additionalProperties" && v.isBool) || hasBoolAP v || hasBoolAPObj tl

end

mutual

/-- Does any `parametersJsonSchema` member anywhere in the tree contain,
anywhere under it, a member named `additionalProperties`?  (The violation of
the schema-hygiene invariant.) -/
def pjsHasAP : Json → Bool
  | .obj es => pjsHasAPObj es
  | .arr xs => pjsHasAPList xs
  | _ => false

def pjsHasAPList : JsonList → Bool
  | .nil => false
  | .cons x xs => pjsHasAP x || pjsHasAPList xs

def pjsHasAPObj : JsonObj → Bool
  | .nil => false
  | .cons k v tl =>
    (k = "parametersJsonSchema" && hasMemberNamed v "additionalProperties") ||
      pjsHasAP v || pjsHasAPObj tl

end

/-- Neither a `functionCall` nor a `functionResponse` part carries an id. -/
def partIdFree : AgPart → Prop
  | .functionCall _ id _ => id = none
  | .functionResponse _ id _ => id = none
  | _ => True

/-- All parts of all emitted contents. -/
def partsOfContents (cs : List AgContent) : List AgPart :=
  cs.foldr (fun c acc => c.parts ++ acc) []

/-- The ids carried by `functionCall` parts. -/
def callIdsOfContents (cs : List AgContent) : List String :=
  (partsOfContents cs).filterMap fun p =>
    match p with
    | .functionCall _ (some i) _ => some i
    | _ => none

/-- The tool-call ids supplied by the client: the `id` fields of assistant
`tool_calls` entries and of Anthropic-style `tool_use` content items. -/
def clientCallIdsOfMsg (m : Json) : List String :=
  (match m.get? "tool_calls" with
   | some (.arr tcs) => tcs.toList.map fun tc => Json.goString (tc.get? "id")
   | _ => []) ++
  (match m.get? "content" with
   | some (.arr items) => items.toList.map fun item => Json.goString (item.get? "id")
   | _ => [])

def clientCallIds (raw : Json) : List String :=
  match raw.get? "messages" with
  | some (.arr ms) => ms.toList.foldr (fun m acc => clientCallIdsOfMsg m ++ acc) []
  | _ => []

/-- A synthesized tool-call id: `toolu_` followed by exactly 24 characters of
the generator alphabet. -/
def tooluShaped (s : String) : Prop :=
  ∃ cs : List Char, s.data = "toolu_".data ++ cs ∧ cs.length = 24 ∧ ∀ c ∈ cs, c ∈ idLetters

/-- The `response.result` population rule of the synthetic function content
(the amended form of the flattening claim): a missing tool message or a
missing content field yields the empty object; the JSON literal `null` omits
the result; a JSON object or array is stored raw; any other content — a JSON
string, number or boolean — is stored as a string holding its raw rendering
(for a string, quotes included). -/
def respResultSpec (stored : Option (Option Json)) : Option Json :=
  match stored with
  | none => some (.obj .nil)
  | some none => some (.obj .nil)
  | some (some .null) => none
  | some (some (.obj es)) => some (.obj es)
  | some (some (.arr xs)) => some (.arr xs)
  | some (some v) => some (.str (Json.render v))

/-! ### Usage-side measures -/

/-- Lookup of the per-(api, model) detail list in a grouped result. -/
def findInner : List (String × List RequestDetail) → String → List RequestDetail
  | [], _ => []
  | (k, ds) :: tl, key => if k = key then ds else findInner tl key

def findGroup : Grouped → String → String → List RequestDetail
  | [], _, _ => []
  | (k, inner) :: tl, api, model =>
    if k = api then findInner inner model else findGroup tl api model

def innerCount (inner : List (String × List RequestDetail)) : Nat :=
  (inner.map fun m => m.2.length).sum

def groupCount (gs : Grouped) : Nat :=
  (gs.map fun g => innerCount g.2).sum

def innerSum (f : RequestDetail → Int) (inner : List (String × List RequestDetail)) : Int :=
  (inner.map fun m => (m.2.map f).sum).sum

def groupSum (f : RequestDetail → Int) (gs : Grouped) : Int :=
  (gs.map fun g => innerSum f g.2).sum

/-- A sequence of `InsertRecord` calls against an initially empty table. -/
def insertAll (rs : List (String × String × RequestDetail)) : List UsageRow :=
  rs.foldl (fun tbl r => insertRecord tbl r.1 r.2.1 r.2.2) []

/-- A row's timestamp column parses. -/
def rowParses (r : UsageRow) : Bool := (parseRFC3339Nano r.timestamp).isSome

/-- The keys of a Go-map association list. -/
def keysOf {α : Type} (m : List (String × α)) : List String := m.map fun e => e.1

/-- A `functionCall` part carries a non-empty id that is either client-supplied
or produced by the generator. -/
def callPartOk (clientIds : List String) (gen : Nat → String) : AgPart → Prop
  | .functionCall _ id _ => ∃ s, id = some s ∧ s ≠ "" ∧ (s ∈ clientIds ∨ ∃ k, s = gen k)
  | _ => True

/-- A `functionResponse` part carries an id drawn from the given key set. -/
def respPartIn (keys : List String) : AgPart → Prop
  | .functionResponse _ id _ => ∃ s, id = some s ∧ s ∈ keys
  | _ => True

/-- A map transformer whose effect on keys decomposes through the empty map
(satisfied by each first-pass step, and preserved by composition/folds). -/
def keyChar (f : List (String × String) → List (String × String)) : Prop :=
  ∀ acc a, a ∈ keysOf (f acc) ↔ a ∈ keysOf acc ∨ a ∈ keysOf (f [])

end CLIProxy

namespace CLIProxy

/-! ### Concrete sample data for counterexamples and witnesses -/

def JsonObj.ofList : List (String × Json) → JsonObj
  | [] => .nil
  | (k, v) :: tl => .cons k v (ofList tl)

def jobj (l : List (String × Json)) : Json := .obj (JsonObj.ofList l)

def jarr (l : List Json) : Json := .arr (JsonList.ofList l)

/-- A generator stream never consulted by the sample runs on ids that are all
client-supplied or on non-Claude models. -/
def gen0 : Nat → String := fun _ => ""

/-- A constant crypto stream: every draw is letter 0 (`a`). -/
def rngA : Nat → Fin 62 := fun _ => ⟨0, by decide⟩

/-- Hooks for runs that never touch thinking or file parts: no model is
thinking-capable, the mime table is empty. -/
def hooksPlain : UtilHooks :=
  { modelSupportsThinking := fun _ => false,
    isGemini3Model := fun _ => false,
    modelUsesThinkingLevels := fun _ => false,
    validateGemini3ThinkingLevel := fun _ _ => none,
    applyGeminiCLIThinkingLevel := fun _ _ tc => tc,
    applyReasoningEffortToGeminiCLI := fun _ tc => tc,
    mimeTypes := fun _ => none,
    defaultSafetySettings := .null }

/-- Hooks classifying every model as thinking-capable and Gemini-3. -/
def hooksGemini3 : UtilHooks :=
  { hooksPlain with
    modelSupportsThinking := fun _ => true,
    isGemini3Model := fun _ => true }

/-- Hooks for a budget-family thinking model: `reasoning_effort:"high"` maps
to the integer budget 24576. -/
def hooksBudget : UtilHooks :=
  { hooksPlain with
    modelSupportsThinking := fun _ => true,
    applyReasoningEffortToGeminiCLI := fun effort tc =>
      if effort = "high" then tcSetBudget tc 24576 else tc }

/-- `reasoning_effort:"high"` together with both lower-precedence sources. -/
def reqEffortHighBoth : Json :=
  jobj [("reasoning_effort", .str "high"),
        ("extra_body", jobj [("google", jobj [("thinking_config",
          jobj [("thinkingBudget", .num 256)])])]),
        ("thinking", jobj [("type", .str "enabled"), ("budget_tokens", .num 99)])]

/-- A request declaring one tool whose schema nests an object-valued
`additionalProperties`. -/
def reqSchemaAP : Json :=
  jobj [("tools", jarr [jobj
    [("type", .str "function"),
     ("function", jobj
       [("name", .str "f"),
        ("parameters", jobj
          [("type", .str "object"),
           ("properties", jobj
             [("x", jobj
               [("type", .str "object"),
                ("additionalProperties", jobj [("type", .str "string")])])])])])]])]

/-- A request declaring one tool with `additionalProperties:false` in its
schema (the sanitization scenario). -/
def reqBoolAP : Json :=
  jobj [("tools", jarr [jobj
    [("type", .str "function"),
     ("function", jobj
       [("name", .str "g"),
        ("parameters", jobj
          [("type", .str "object"),
           ("additionalProperties", .bool false),
           ("properties", jobj [("x", jobj [("type", .str "string")])])])])]])]

/-- `reasoning_effort:"none"` together with an Anthropic thinking object. -/
def reqEffortNoneThinking : Json :=
  jobj [("reasoning_effort", .str "none"),
        ("thinking", jobj [("type", .str "enabled"), ("budget_tokens", .num 512)])]

/-- The same request without the thinking object. -/
def reqEffortNoneOnly : Json :=
  jobj [("reasoning_effort", .str "none")]

/-- A user message holding a non-data image URL that contains a semicolon. -/
def reqHttpImage : Json :=
  jobj [("messages", jarr [jobj
    [("role", .str "user"),
     ("content", jarr [jobj
       [("type", .str "image_url"),
        ("image_url", jobj [("url", .str "https://x.co/a;bcdefghij")])]])]])]

/-- An assistant tool call answered by a tool message whose content is the
string `{"r":2}` (valid JSON, delivered as a string). -/
def reqToolRoundTrip : Json :=
  jobj [("messages", jarr
    [jobj [("role", .str "assistant"),
           ("tool_calls", jarr [jobj
             [("id", .str "call_1"), ("type", .str "function"),
              ("function", jobj [("name", .str "add"),
                                 ("arguments", .str "\x7b\"a\":1\x7d")])]])],
     jobj [("role", .str "tool"), ("tool_call_id", .str "call_1"),
           ("content", .str "\x7b\"r\":2\x7d")]])]

/-- The tool-calls array of the assistant message above, and the message
itself, for direct use with `processAssistantMsg`. -/
def asstToolCalls : JsonList :=
  JsonList.ofList [jobj
    [("id", .str "call_1"), ("type", .str "function"),
     ("function", jobj [("name", .str "add"),
                        ("arguments", .str "\x7b\"a\":1\x7d")])]]

def asstToolMsg : Json :=
  jobj [("role", .str "assistant"), ("tool_calls", .arr asstToolCalls)]

/-- Usage-side samples. -/
def sampleTime : GoTime := ⟨2024, 1, 2, 3, 4, 5, 0, 0⟩

def sampleRecord : CoreRecord := { requestedAt := sampleTime }

def sampleWrite : WriteRequest := mkWriteRequest sampleRecord

def sampleDetail : RequestDetail :=
  { timestamp := sampleTime,
    tokens := { inputTokens := 3, outputTokens := 4, reasoningTokens := 0,
                cachedTokens := 1, totalTokens := 8 } }

/-- A `time.Time` whose year exceeds 9999: `Format(RFC3339Nano)` yields
`10000-01-01T00:00:00Z`, which the RFC 3339 parser rejects. -/
def overflowTime : GoTime := ⟨10000, 1, 1, 0, 0, 0, 0, 0⟩

def overflowDetail : RequestDetail :=
  { timestamp := overflowTime,
    tokens := { inputTokens := 7, totalTokens := 7 } }

/-- Two rows at the same second, one with and one without fractional digits:
byte order on the stored strings puts the `.5` row first although it denotes
the later instant. -/
def rowWhole : UsageRow :=
  { apiName := "api", modelName := "m", timestamp := "2024-01-01T10:00:00Z",
    source := "", authIndex := "", inputTokens := 1, outputTokens := 0,
    reasoningTokens := 0, cachedTokens := 0, totalTokens := 1, failed := 0 }

def rowFrac : UsageRow :=
  { rowWhole with timestamp := "2024-01-01T10:00:00.5Z", inputTokens := 2, totalTokens := 2 }

end CLIProxy

namespace CLIProxy

/-! # Theorems

Helper lemmas first, then one theorem per claim (with witnesses and
counterexamples where applicable). -/

/-- **C6** — Usage ingress: `HandleUsage` never blocks the caller: it always
returns immediately, the queue is bounded by the channel capacity 1000, a
record is enqueued exactly when the buffer has room, and on a full queue the
record is dropped with the dropped-record count (the tally of "queue full,
record dropped" warnings) incremented — hence monotonically increasing across
calls. -/
theorem handleUsage_nonblocking_bounded (st : PluginState) (record : CoreRecord) :
    st.dropped ≤ (handleUsage st record).dropped ∧
    (handleUsage st record).queue.length ≤ max st.queue.length queueCapacity ∧
    (st.queue.length < queueCapacity →
      (handleUsage st record).queue = st.queue ++ [mkWriteRequest record] ∧
      (handleUsage st record).dropped = st.dropped) ∧
    (queueCapacity ≤ st.queue.length →
      (handleUsage st record).queue = st.queue ∧
      (handleUsage st record).dropped = st.dropped + 1) := by
  unfold handleUsage
  by_cases h : st.queue.length < queueCapacity <;>
    simp [h, List.length_append] <;> omega

/-- Witness for C6 at a full queue: the 1000-element queue is left unchanged
and the dropped count increases from 5 to 6. -/
theorem handleUsage_nonblocking_bounded_witness :
    queueCapacity ≤ (PluginState.mk (List.replicate 1000 sampleWrite) 5).queue.length ∧
    (handleUsage (PluginState.mk (List.replicate 1000 sampleWrite) 5) sampleRecord).queue =
      List.replicate 1000 sampleWrite ∧
    (handleUsage (PluginState.mk (List.replicate 1000 sampleWrite) 5) sampleRecord).dropped = 6 := by
  have h := handleUsage_nonblocking_bounded
    (PluginState.mk (List.replicate 1000 sampleWrite) 5) sampleRecord
  have hlen : queueCapacity ≤ (PluginState.mk (List.replicate 1000 sampleWrite) 5).queue.length := by
    simp [queueCapacity]
  exact ⟨hlen, (h.2.2.2 hlen).1, (h.2.2.2 hlen).2⟩

/-- **C10** — `EnablePersistence` guard and atomicity: a call while already
enabled fails without touching the database (no events); when opening, schema
creation or loading fails, the globals are unchanged, no plugin is registered,
and an opened store is closed last; on success the statistics hold the merge
of every loaded record and the plugin registration is the final event, after
all merges. -/
theorem enablePersistence_guard_atomic (env : StoreEnv) (g : UsageGlobal) :
    (g.plugin.isSome →
      enablePersistence env g = (g, .error "usage persistence: already enabled", [])) ∧
    (g.plugin = none →
      (env.openOk = false ∨ env.schemaOk = false ∨ env.loadOk = false) →
      (enablePersistence env g).1 = g ∧
      (∃ e, (enablePersistence env g).2.1 = .error e) ∧
      UEvent.registerPlugin ∉ (enablePersistence env g).2.2 ∧
      (env.openOk = true → (enablePersistence env g).2.2.getLast? = some UEvent.closeDB)) ∧
    (g.plugin = none → env.openOk = true → env.schemaOk = true → env.loadOk = true →
      (enablePersistence env g).2.1 = .ok () ∧
      (enablePersistence env g).1.plugin.isSome = true ∧
      (enablePersistence env g).1.stats = (mergeGroups g.stats (loadAll env.table)).1 ∧
      (enablePersistence env g).2.2 =
        UEvent.openDB :: ((mergeGroups g.stats (loadAll env.table)).2 ++ [UEvent.registerPlugin]) ∧
      (enablePersistence env g).2.2.getLast? = some UEvent.registerPlugin) := by
  refine ⟨fun hp => ?_, fun hp hfail => ?_, fun hp ho hs hl => ?_⟩
  · simp [enablePersistence, hp]
  · rcases hfail with h | h | h <;>
      simp [enablePersistence, hp, h] <;>
      cases ho : env.openOk <;> cases hs : env.schemaOk <;> cases hl : env.loadOk <;> simp_all
  · have hlast : ∀ (l : List UEvent),
        (UEvent.openDB :: (l ++ [UEvent.registerPlugin])).getLast? =
          some UEvent.registerPlugin := by
      intro l
      rw [show UEvent.openDB :: (l ++ [UEvent.registerPlugin]) =
          (UEvent.openDB :: l) ++ [UEvent.registerPlugin] from rfl]
      exact List.getLast?_concat _
    simp [enablePersistence, hp, ho, hs, hl, hlast]

/-- Witness for C10: on an empty global state with an all-success environment,
the call succeeds and registration is the last event. -/
theorem enablePersistence_guard_atomic_witness :
    (UsageGlobal.plugin {} = none) ∧
    (enablePersistence { table := [] } {}).2.1 = .ok () ∧
    (enablePersistence { table := [] } {}).2.2.getLast? = some UEvent.registerPlugin := by
  have h := (enablePersistence_guard_atomic { table := [] } {}).2.2 rfl rfl rfl rfl
  exact ⟨rfl, h.1, h.2.2.2.2⟩

end CLIProxy

namespace CLIProxy

theorem innerCount_addToInner (inner : List (String × List RequestDetail))
    (m : String) (d : RequestDetail) :
    innerCount (addToInner inner m d) = innerCount inner + 1 := by
  induction inner with
  | nil => simp [addToInner, innerCount]
  | cons hd tl ih =>
    obtain ⟨k, ds⟩ := hd
    by_cases h : k = m <;> simp [addToInner, h, innerCount] at * <;> omega

theorem innerSum_addToInner (f : RequestDetail → Int)
    (inner : List (String × List RequestDetail)) (m : String) (d : RequestDetail) :
    innerSum f (addToInner inner m d) = innerSum f inner + f d := by
  induction inner with
  | nil => simp [addToInner, innerSum]
  | cons hd tl ih =>
    obtain ⟨k, ds⟩ := hd
    by_cases h : k = m <;> simp [addToInner, h, innerSum] at * <;> omega

theorem groupCount_addToGroups (gs : Grouped) (api model : String) (d : RequestDetail) :
    groupCount (addToGroups gs api model d) = groupCount gs + 1 := by
  induction gs with
  | nil => simp [addToGroups, groupCount, innerCount, addToInner]
  | cons hd tl ih =>
    obtain ⟨k, inner⟩ := hd
    by_cases h : k = api <;>
      simp [addToGroups, h, groupCount, innerCount_addToInner] at * <;> omega

theorem groupSum_addToGroups (f : RequestDetail → Int) (gs : Grouped)
    (api model : String) (d : RequestDetail) :
    groupSum f (addToGroups gs api model d) = groupSum f gs + f d := by
  induction gs with
  | nil => simp [addToGroups, groupSum, innerSum, addToInner]
  | cons hd tl ih =>
    obtain ⟨k, inner⟩ := hd
    by_cases h : k = api <;>
      simp [addToGroups, h, groupSum, innerSum_addToInner] at * <;> omega

theorem groupCount_loadFold (rows : List UsageRow) (gs : Grouped) :
    groupCount (rows.foldl
      (fun gs r =>
        match rowToDetail r with
        | some d => addToGroups gs r.apiName r.modelName d
        | none => gs) gs) =
      groupCount gs + (rows.filterMap rowToDetail).length := by
  induction rows generalizing gs with
  | nil => simp
  | cons r rows ih =>
    cases h : rowToDetail r <;>
      simp [h, ih, groupCount_addToGroups, List.filterMap_cons] <;> omega

theorem groupSum_loadFold (f : RequestDetail → Int) (rows : List UsageRow) (gs : Grouped) :
    groupSum f (rows.foldl
      (fun gs r =>
        match rowToDetail r with
        | some d => addToGroups gs r.apiName r.modelName d
        | none => gs) gs) =
      groupSum f gs + ((rows.filterMap rowToDetail).map f).sum := by
  induction rows generalizing gs with
  | nil => simp
  | cons r rows ih =>
    cases h : rowToDetail r <;>
      simp [h, ih, groupSum_addToGroups, List.filterMap_cons] <;> omega

theorem groupCount_loadAll (tbl : List UsageRow) :
    groupCount (loadAll tbl) = (tbl.filterMap rowToDetail).length := by
  have hperm : List.Perm (sortByTs tbl) tbl := List.perm_insertionSort tsLe tbl
  rw [loadAll, groupCount_loadFold]
  simp [groupCount, (hperm.filterMap rowToDetail).length_eq]

theorem groupSum_loadAll (f : RequestDetail → Int) (tbl : List UsageRow) :
    groupSum f (loadAll tbl) = ((tbl.filterMap rowToDetail).map f).sum := by
  have hperm : List.Perm (sortByTs tbl) tbl := List.perm_insertionSort tsLe tbl
  rw [loadAll, groupSum_loadFold]
  simp [groupSum, innerSum, ((hperm.filterMap rowToDetail).map f).sum_eq]

theorem mergeFoldDetails (api model : String) (ds : List RequestDetail)
    (acc : Stats × List UEvent) :
    (ds.foldl
      (fun acc d => (acc.1.recordDetail d, acc.2 ++ [UEvent.mergeDetail api model d]))
      acc).1.totalRequests = acc.1.totalRequests + ds.length ∧
    (ds.foldl
      (fun acc d => (acc.1.recordDetail d, acc.2 ++ [UEvent.mergeDetail api model d]))
      acc).1.inputTokens = acc.1.inputTokens + (ds.map fun d => d.tokens.inputTokens).sum ∧
    (ds.foldl
      (fun acc d => (acc.1.recordDetail d, acc.2 ++ [UEvent.mergeDetail api model d]))
      acc).1.outputTokens = acc.1.outputTokens + (ds.map fun d => d.tokens.outputTokens).sum ∧
    (ds.foldl
      (fun acc d => (acc.1.recordDetail d, acc.2 ++ [UEvent.mergeDetail api model d]))
      acc).1.reasoningTokens =
        acc.1.reasoningTokens + (ds.map fun d => d.tokens.reasoningTokens).sum ∧
    (ds.foldl
      (fun acc d => (acc.1.recordDetail d, acc.2 ++ [UEvent.mergeDetail api model d]))
      acc).1.cachedTokens = acc.1.cachedTokens + (ds.map fun d => d.tokens.cachedTokens).sum ∧
    (ds.foldl
      (fun acc d => (acc.1.recordDetail d, acc.2 ++ [UEvent.mergeDetail api model d]))
      acc).1.totalTokens = acc.1.totalTokens + (ds.map fun d => d.tokens.totalTokens).sum := by
  induction ds generalizing acc with
  | nil => simp
  | cons d ds ih =>
    have h := ih ((acc.1.recordDetail d, acc.2 ++ [UEvent.mergeDetail api model d]))
    simp only [List.foldl_cons] at *
    simp [Stats.recordDetail] at h ⊢
    omega

end CLIProxy

namespace CLIProxy

theorem mergeFoldInner (api : String) (inner : List (String × List RequestDetail))
    (acc : Stats × List UEvent) :
    (inner.foldl
      (fun acc m =>
        m.2.foldl
          (fun acc d => (acc.1.recordDetail d, acc.2 ++ [UEvent.mergeDetail api m.1 d]))
          acc)
      acc).1.totalRequests = acc.1.totalRequests + innerCount inner ∧
    (inner.foldl
      (fun acc m =>
        m.2.foldl
          (fun acc d => (acc.1.recordDetail d, acc.2 ++ [UEvent.mergeDetail api m.1 d]))
          acc)
      acc).1.inputTokens =
        acc.1.inputTokens + innerSum (fun d => d.tokens.inputTokens) inner ∧
    (inner.foldl
      (fun acc m =>
        m.2.foldl
          (fun acc d => (acc.1.recordDetail d, acc.2 ++ [UEvent.mergeDetail api m.1 d]))
          acc)
      acc).1.outputTokens =
        acc.1.outputTokens + innerSum (fun d => d.tokens.outputTokens) inner ∧
    (inner.foldl
      (fun acc m =>
        m.2.foldl
          (fun acc d => (acc.1.recordDetail d, acc.2 ++ [UEvent.mergeDetail api m.1 d]))
          acc)
      acc).1.reasoningTokens =
        acc.1.reasoningTokens + innerSum (fun d => d.tokens.reasoningTokens) inner ∧
    (inner.foldl
      (fun acc m =>
        m.2.foldl
          (fun acc d => (acc.1.recordDetail d, acc.2 ++ [UEvent.mergeDetail api m.1 d]))
          acc)
      acc).1.cachedTokens =
        acc.1.cachedTokens + innerSum (fun d => d.tokens.cachedTokens) inner ∧
    (inner.foldl
      (fun acc m =>
        m.2.foldl
          (fun acc d => (acc.1.recordDetail d, acc.2 ++ [UEvent.mergeDetail api m.1 d]))
          acc)
      acc).1.totalTokens =
        acc.1.totalTokens + innerSum (fun d => d.tokens.totalTokens) inner := by
  induction inner generalizing acc with
  | nil => simp [innerCount, innerSum]
  | cons m tl ih =>
    have hd := mergeFoldDetails api m.1 m.2 acc
    have h := ih (m.2.foldl
      (fun acc d => (acc.1.recordDetail d, acc.2 ++ [UEvent.mergeDetail api m.1 d])) acc)
    simp only [List.foldl_cons] at *
    simp [innerCount, innerSum] at h hd ⊢
    omega

theorem mergeGroups_stats (st : Stats) (gs : Grouped) :
    (mergeGroups st gs).1.totalRequests = st.totalRequests + groupCount gs ∧
    (mergeGroups st gs).1.inputTokens =
      st.inputTokens + groupSum (fun d => d.tokens.inputTokens) gs ∧
    (mergeGroups st gs).1.outputTokens =
      st.outputTokens + groupSum (fun d => d.tokens.outputTokens) gs ∧
    (mergeGroups st gs).1.reasoningTokens =
      st.reasoningTokens + groupSum (fun d => d.tokens.reasoningTokens) gs ∧
    (mergeGroups st gs).1.cachedTokens =
      st.cachedTokens + groupSum (fun d => d.tokens.cachedTokens) gs ∧
    (mergeGroups st gs).1.totalTokens =
      st.totalTokens + groupSum (fun d => d.tokens.totalTokens) gs := by
  rw [mergeGroups]
  suffices h : ∀ (gs : Grouped) (acc : Stats × List UEvent),
      (gs.foldl
        (fun acc g =>
          g.2.foldl
            (fun acc m =>
              m.2.foldl
                (fun acc d => (acc.1.recordDetail d, acc.2 ++ [UEvent.mergeDetail g.1 m.1 d]))
                acc)
            acc)
        acc).1.totalRequests = acc.1.totalRequests + groupCount gs ∧
      (gs.foldl
        (fun acc g =>
          g.2.foldl
            (fun acc m =>
              m.2.foldl
                (fun acc d => (acc.1.recordDetail d, acc.2 ++ [UEvent.mergeDetail g.1 m.1 d]))
                acc)
            acc)
        acc).1.inputTokens =
          acc.1.inputTokens + groupSum (fun d => d.tokens.inputTokens) gs ∧
      (gs.foldl
        (fun acc g =>
          g.2.foldl
            (fun acc m =>
              m.2.foldl
                (fun acc d => (acc.1.recordDetail d, acc.2 ++ [UEvent.mergeDetail g.1 m.1 d]))
                acc)
            acc)
        acc).1.outputTokens =
          acc.1.outputTokens + groupSum (fun d => d.tokens.outputTokens) gs ∧
      (gs.foldl
        (fun acc g =>
          g.2.foldl
            (fun acc m =>
              m.2.foldl
                (fun acc d => (acc.1.recordDetail d, acc.2 ++ [UEvent.mergeDetail g.1 m.1 d]))
                acc)
            acc)
        acc).1.reasoningTokens =
          acc.1.reasoningTokens + groupSum (fun d => d.tokens.reasoningTokens) gs ∧
      (gs.foldl
        (fun acc g =>
          g.2.foldl
            (fun acc m =>
              m.2.foldl
                (fun acc d => (acc.1.recordDetail d, acc.2 ++ [UEvent.mergeDetail g.1 m.1 d]))
                acc)
            acc)
        acc).1.cachedTokens =
          acc.1.cachedTokens + groupSum (fun d => d.tokens.cachedTokens) gs ∧
      (gs.foldl
        (fun acc g =>
          g.2.foldl
            (fun acc m =>
              m.2.foldl
                (fun acc d => (acc.1.recordDetail d, acc.2 ++ [UEvent.mergeDetail g.1 m.1 d]))
                acc)
            acc)
        acc).1.totalTokens =
          acc.1.totalTokens + groupSum (fun d => d.tokens.totalTokens) gs by
    exact h gs (st, [])
  intro gs
  induction gs with
  | nil => intro acc; simp [groupCount, groupSum]
  | cons g tl ih =>
    intro acc
    have hg := mergeFoldInner g.1 g.2 acc
    have h := ih (g.2.foldl
      (fun acc m =>
        m.2.foldl
          (fun acc d => (acc.1.recordDetail d, acc.2 ++ [UEvent.mergeDetail g.1 m.1 d]))
          acc)
      acc)
    simp only [List.foldl_cons] at *
    simp [groupCount, groupSum] at h hg ⊢
    omega

end CLIProxy

namespace CLIProxy

theorem insertAll_eq_map (rs : List (String × String × RequestDetail)) :
    insertAll rs = rs.map fun r => mkRow r.1 r.2.1 r.2.2 := by
  suffices h : ∀ init, rs.foldl (fun tbl r => insertRecord tbl r.1 r.2.1 r.2.2) init =
      init ++ rs.map (fun r => mkRow r.1 r.2.1 r.2.2) by
    simpa [insertAll] using h []
  induction rs with
  | nil => intro init; simp
  | cons r rs ih =>
    intro init
    rw [List.foldl_cons]
    show rs.foldl (fun tbl r => insertRecord tbl r.1 r.2.1 r.2.2)
      (insertRecord init r.1 r.2.1 r.2.2) = _
    rw [ih, insertRecord]
    simp

theorem rowToDetail_mkRow (api model : String) (d : RequestDetail) (t : GoTime)
    (hp : parseRFC3339Nano d.timestamp.formatRFC3339Nano = some t) :
    rowToDetail (mkRow api model d) =
      some { timestamp := t, source := d.source, authIndex := d.authIndex,
             tokens := d.tokens, failed := d.failed } := by
  simp only [rowToDetail, mkRow, hp]
  cases hf : d.failed <;> simp [boolToInt, hf]

theorem insertAll_replay_measures (rs : List (String × String × RequestDetail))
    (h : ∀ r ∈ rs, (parseRFC3339Nano r.2.2.timestamp.formatRFC3339Nano).isSome = true) :
    ((insertAll rs).filterMap rowToDetail).length = rs.length ∧
    ∀ f : TokenStats → Int,
      (((insertAll rs).filterMap rowToDetail).map fun d => f d.tokens).sum =
        (rs.map fun r => f r.2.2.tokens).sum := by
  rw [insertAll_eq_map]
  induction rs with
  | nil => simp
  | cons r rs ih =>
    have hr := h r (List.mem_cons_self r rs)
    obtain ⟨t, ht⟩ := Option.isSome_iff_exists.mp hr
    have ih' := ih fun x hx => h x (List.mem_cons_of_mem r hx)
    simp only [List.map_cons, List.filterMap_cons, rowToDetail_mkRow r.1 r.2.1 r.2.2 t ht]
    refine ⟨?_, fun f => ?_⟩
    · simp only [List.length_cons, ih'.1]
    · simp only [List.map_cons, List.sum_cons, ih'.2 f]

/-- **C7 (amended)** — Persistence round trip: for every sequence of usage
records written via `InsertRecord` whose timestamps survive the RFC 3339
format/parse round trip (in particular every timestamp with a four-digit
year), re-enabling persistence at the same path succeeds and replays exactly
those records: the snapshot's total request count equals the number of
records inserted and every aggregate token total equals the sum of the
corresponding token fields over the inserted records. -/
theorem insertRecord_roundtrip_replays (rs : List (String × String × RequestDetail))
    (h : ∀ r ∈ rs, (parseRFC3339Nano r.2.2.timestamp.formatRFC3339Nano).isSome = true) :
    (enablePersistence { table := insertAll rs } {}).2.1 = .ok () ∧
    (enablePersistence { table := insertAll rs } {}).1.stats.totalRequests = rs.length ∧
    (enablePersistence { table := insertAll rs } {}).1.stats.inputTokens =
      (rs.map fun r => r.2.2.tokens.inputTokens).sum ∧
    (enablePersistence { table := insertAll rs } {}).1.stats.outputTokens =
      (rs.map fun r => r.2.2.tokens.outputTokens).sum ∧
    (enablePersistence { table := insertAll rs } {}).1.stats.reasoningTokens =
      (rs.map fun r => r.2.2.tokens.reasoningTokens).sum ∧
    (enablePersistence { table := insertAll rs } {}).1.stats.cachedTokens =
      (rs.map fun r => r.2.2.tokens.cachedTokens).sum ∧
    (enablePersistence { table := insertAll rs } {}).1.stats.totalTokens =
      (rs.map fun r => r.2.2.tokens.totalTokens).sum := by
  have hstats : (enablePersistence { table := insertAll rs } {}).1.stats =
      (mergeGroups ({} : Stats) (loadAll (insertAll rs))).1 := by
    simp [enablePersistence]
  have hok : (enablePersistence { table := insertAll rs } {}).2.1 = .ok () := by
    simp [enablePersistence]
  have hm := mergeGroups_stats ({} : Stats) (loadAll (insertAll rs))
  have hms := insertAll_replay_measures rs h
  refine ⟨hok, ?_, ?_, ?_, ?_, ?_, ?_⟩ <;>
    rw [hstats] <;>
    simp [hm.1, hm.2.1, hm.2.2.1, hm.2.2.2.1, hm.2.2.2.2.1, hm.2.2.2.2.2,
      groupCount_loadAll, groupSum_loadAll, hms.1,
      hms.2 (fun t => t.inputTokens), hms.2 (fun t => t.outputTokens),
      hms.2 (fun t => t.reasoningTokens), hms.2 (fun t => t.cachedTokens),
      hms.2 (fun t => t.totalTokens)]

/-- Witness for C7 (amended): one sane record replays with count 1 and its
token sums. -/
theorem insertRecord_roundtrip_replays_witness :
    (∀ r ∈ [("api", "m", sampleDetail)],
      (parseRFC3339Nano r.2.2.timestamp.formatRFC3339Nano).isSome = true) ∧
    (enablePersistence { table := insertAll [("api", "m", sampleDetail)] } {}).1.stats.totalRequests = 1 ∧
    (enablePersistence { table := insertAll [("api", "m", sampleDetail)] } {}).1.stats.inputTokens = 3 := by
  have h := insertRecord_roundtrip_replays [("api", "m", sampleDetail)] (by decide)
  refine ⟨by decide, ?_, ?_⟩
  · rw [h.2.1]
    decide
  · rw [h.2.2.1]
    decide

/-- Counterexample for C7 as stated: a single record whose timestamp has year
10000 is written as `10000-01-01T00:00:00Z`, which fails the RFC 3339 parse
on reload, so the replayed snapshot counts 0 requests instead of 1. -/
theorem insertRecord_roundtrip_counterexample :
    (insertAll [("api", "m", overflowDetail)]).length = 1 ∧
    (mkRow "api" "m" overflowDetail).timestamp = "10000-01-01T00:00:00Z" ∧
    (enablePersistence { table := insertAll [("api", "m", overflowDetail)] } {}).2.1.isOk = true ∧
    (enablePersistence { table := insertAll [("api", "m", overflowDetail)] } {}).1.stats.totalRequests = 0 := by
  decide

end CLIProxy

namespace CLIProxy

theorem findInner_addToInner (inner : List (String × List RequestDetail))
    (m key : String) (d : RequestDetail) :
    findInner (addToInner inner m d) key =
      if m = key then findInner inner key ++ [d] else findInner inner key := by
  induction inner with
  | nil =>
    by_cases h : m = key <;> simp [addToInner, findInner, h]
  | cons hd tl ih =>
    obtain ⟨k, ds⟩ := hd
    by_cases hk : k = m
    · subst hk
      by_cases h : k = key <;> simp [addToInner, findInner, h]
    · by_cases h : k = key
      · subst h
        have : ¬ m = k := fun he => hk he.symm
        simp [addToInner, hk, findInner, this]
      · simp [addToInner, hk, findInner, h, ih]

theorem findGroup_addToGroups (gs : Grouped) (a m api model : String) (d : RequestDetail) :
    findGroup (addToGroups gs a m d) api model =
      if a = api ∧ m = model then findGroup gs api model ++ [d]
      else findGroup gs api model := by
  induction gs with
  | nil =>
    by_cases ha : a = api
    · subst ha
      by_cases hm : m = model <;>
        simp [addToGroups, findGroup, findInner_addToInner, findInner, hm]
    · simp [addToGroups, findGroup, ha, findInner, findInner_addToInner]
  | cons hd tl ih =>
    obtain ⟨k, inner⟩ := hd
    by_cases hk : k = a
    · subst hk
      by_cases ha : k = api
      · subst ha
        by_cases hm : m = model <;>
          simp [addToGroups, findGroup, findInner_addToInner, hm]
      · simp [addToGroups, findGroup, ha]
    · by_cases ha : k = api
      · subst ha
        have : ¬ a = k := fun he => hk he.symm
        simp [addToGroups, hk, findGroup, this]
      · simp [addToGroups, hk, findGroup, ha, ih]

theorem findGroup_loadFold (rows : List UsageRow) (gs : Grouped) (api model : String) :
    findGroup (rows.foldl
      (fun gs r =>
        match rowToDetail r with
        | some d => addToGroups gs r.apiName r.modelName d
        | none => gs) gs) api model =
      findGroup gs api model ++
        ((rows.filter fun r => r.apiName = api && r.modelName = model).filterMap rowToDetail) := by
  induction rows generalizing gs with
  | nil => simp
  | cons r rows ih =>
    by_cases hm : r.apiName = api ∧ r.modelName = model
    · cases h : rowToDetail r <;>
        simp [h, ih, findGroup_addToGroups, hm, hm.1, hm.2, List.filter_cons,
          List.filterMap_cons]
    · have hb : ¬ (r.apiName = api && r.modelName = model) = true := by
        simp only [Bool.and_eq_true, decide_eq_true_eq]
        exact fun hc => hm ⟨hc.1, hc.2⟩
      cases h : rowToDetail r <;>
        simp [h, ih, findGroup_addToGroups, hm, List.filter_cons, hb]

theorem filterMap_rowToDetail_filter_parses (l : List UsageRow) :
    l.filterMap rowToDetail = (l.filter rowParses).filterMap rowToDetail := by
  induction l with
  | nil => simp
  | cons r rows ih =>
    by_cases h : rowParses r
    · simp [List.filter_cons, h, List.filterMap_cons, ih]
    · have hnone : rowToDetail r = none := by
        rw [rowParses] at h
        cases hp : parseRFC3339Nano r.timestamp
        · simp [rowToDetail, hp]
        · simp [hp] at h
      simp [List.filter_cons, h, List.filterMap_cons, hnone, ih]

/-- **C8 (amended)** — Recovery ordering and parsing: timestamps are stored
via `Format(time.RFC3339Nano)`; `LoadAll` returns, per (api, model) group,
exactly the rows whose timestamp parses as RFC 3339 — rows with unparseable
timestamps are skipped (with a warning) while all well-formed rows are still
returned — ordered by the byte-wise (BINARY-collation) comparison of the
stored timestamp strings, which can disagree with chronological order. -/
theorem loadAll_string_order_skips_malformed (tbl : List UsageRow) :
    (∀ (tbl' : List UsageRow) (api model : String) (d : RequestDetail),
      (insertRecord tbl' api model d).map (fun r => r.timestamp) =
        tbl'.map (fun r => r.timestamp) ++ [d.timestamp.formatRFC3339Nano]) ∧
    ∃ rows : List UsageRow,
      rows.Perm (tbl.filter rowParses) ∧
      List.Sorted tsLe rows ∧
      ∀ api model, findGroup (loadAll tbl) api model =
        (rows.filter fun r => r.apiName = api && r.modelName = model).filterMap rowToDetail := by
  refine ⟨fun tbl' api model d => by simp [insertRecord, mkRow], ?_⟩
  refine ⟨(sortByTs tbl).filter rowParses, ?_, ?_, ?_⟩
  · exact (List.perm_insertionSort tsLe tbl).filter rowParses
  · exact (List.sorted_insertionSort tsLe tbl).filter _
  · intro api model
    rw [loadAll, findGroup_loadFold]
    have hcomm : ((sortByTs tbl).filter fun r => r.apiName = api && r.modelName = model).filter
        rowParses =
        ((sortByTs tbl).filter rowParses).filter fun r => r.apiName = api && r.modelName = model :=
      List.filter_comm _ _ _
    rw [filterMap_rowToDetail_filter_parses, hcomm]
    simp [findGroup]

/-- Counterexample for C8 as stated: two rows at the same second, one stored
as `...10:00:00Z` and one as `...10:00:00.5Z`.  `ORDER BY timestamp` compares
the strings byte-wise, so the `.5` row (`.` < `Z`) is returned first although
it denotes the later instant — the rows come back in an order that is not
timestamp order. -/
theorem loadAll_timestamp_order_counterexample :
    loadAll [rowWhole, rowFrac] =
      [("api", [("m",
        [⟨⟨2024, 1, 1, 10, 0, 0, 500000000, 0⟩, "", "", ⟨2, 0, 0, 0, 2⟩, false⟩,
         ⟨⟨2024, 1, 1, 10, 0, 0, 0, 0⟩, "", "", ⟨1, 0, 0, 0, 1⟩, false⟩])])] ∧
    GoTime.instantNanos ⟨2024, 1, 1, 10, 0, 0, 0, 0⟩ <
      GoTime.instantNanos ⟨2024, 1, 1, 10, 0, 0, 500000000, 0⟩ := by
  decide

end CLIProxy

namespace CLIProxy

theorem isBool_cleanToolSchema (v : Json) : (cleanToolSchema v).isBool = v.isBool := by
  cases v <;> rfl

mutual

theorem hasBoolAP_cleanToolSchema : ∀ j : Json, hasBoolAP (cleanToolSchema j) = false
  | .null => rfl
  | .bool _ => rfl
  | .num _ => rfl
  | .str _ => rfl
  | .raw _ => rfl
  | .arr xs => by
    rw [cleanToolSchema, hasBoolAP]
    exact hasBoolAPList_cleanToolSchema xs
  | .obj es => by
    rw [cleanToolSchema, hasBoolAP]
    exact hasBoolAPObj_cleanToolSchema es

theorem hasBoolAPList_cleanToolSchema : ∀ xs : JsonList,
    hasBoolAPList (cleanToolSchemaList xs) = false
  | .nil => rfl
  | .cons x xs => by
    rw [cleanToolSchemaList, hasBoolAPList, hasBoolAP_cleanToolSchema x,
      hasBoolAPList_cleanToolSchema xs]
    rfl

theorem hasBoolAPObj_cleanToolSchema : ∀ es : JsonObj,
    hasBoolAPObj (cleanToolSchemaObj es) = false
  | .nil => rfl
  | .cons k v tl => by
    cases v with
    | bool b =>
      by_cases h : k = "additionalProperties"
      · simp [cleanToolSchemaObj, h, hasBoolAPObj_cleanToolSchema tl]
      · simp [cleanToolSchemaObj, h, hasBoolAPObj, hasBoolAP, Json.isBool,
          hasBoolAPObj_cleanToolSchema tl]
    | null =>
      simp [cleanToolSchemaObj, hasBoolAPObj, hasBoolAP, Json.isBool,
        cleanToolSchema, hasBoolAPObj_cleanToolSchema tl]
    | num n =>
      simp [cleanToolSchemaObj, hasBoolAPObj, hasBoolAP, Json.isBool,
        cleanToolSchema, hasBoolAPObj_cleanToolSchema tl]
    | str s =>
      simp [cleanToolSchemaObj, hasBoolAPObj, hasBoolAP, Json.isBool,
        cleanToolSchema, hasBoolAPObj_cleanToolSchema tl]
    | raw s =>
      simp [cleanToolSchemaObj, hasBoolAPObj, hasBoolAP, Json.isBool,
        cleanToolSchema, hasBoolAPObj_cleanToolSchema tl]
    | arr xs =>
      simp [cleanToolSchemaObj, hasBoolAPObj, Json.isBool, cleanToolSchema,
        hasBoolAP, hasBoolAPList_cleanToolSchema xs,
        hasBoolAPObj_cleanToolSchema tl]
    | obj es' =>
      simp [cleanToolSchemaObj, hasBoolAPObj, Json.isBool, cleanToolSchema,
        hasBoolAP, hasBoolAPObj_cleanToolSchema es',
        hasBoolAPObj_cleanToolSchema tl]

end

/-- **C1 (amended)** — Schema hygiene for boolean occurrences: for every
OpenAI request with a tools array, the emitted `request.tools` node contains
no member named `additionalProperties` with a boolean value anywhere (the
regex-based `cleanToolSchema` strips exactly those); object- or array-valued
occurrences nested inside a schema are not removed. -/
theorem emitted_tools_no_boolean_additionalProperties (hooks : UtilHooks)
    (gen : Nat → String) (modelName : String) (raw : Json) :
    ∀ t ∈ (convertOpenAIRequestToAntigravity hooks gen modelName raw).request.tools,
      hasBoolAP t = false := by
  intro t ht
  have hfield : (convertOpenAIRequestToAntigravity hooks gen modelName raw).request.tools =
      (convertTools raw).map fun tn => .arr (.cons tn .nil) := rfl
  rw [hfield] at ht
  rw [convertTools] at ht
  rcases hraw : raw.get? "tools" with _ | j
  · rw [hraw] at ht; simp at ht
  · rw [hraw] at ht
    cases j with
    | arr ts =>
      by_cases hlen : ts.length > 0
      · simp only [hlen, if_pos] at ht
        by_cases htool : (ts.toList.foldl processToolEntry {}).hasTool
        · simp only [htool, if_pos, Option.map_some', Option.mem_def, Option.some.injEq] at ht
          subst ht
          rw [hasBoolAP, hasBoolAPList, hasBoolAP_cleanToolSchema, hasBoolAPList]
          rfl
        · simp [htool] at ht
      · simp [hlen] at ht
    | null => simp at ht
    | bool b => simp at ht
    | num n => simp at ht
    | str s => simp at ht
    | obj es => simp at ht
    | raw s => simp at ht

/-- Witness for C1 (amended): the sanitization scenario — a schema declaring
`additionalProperties:false` yields a tools node free of boolean-valued
`additionalProperties`. -/
theorem emitted_tools_no_boolean_additionalProperties_witness :
    ((convertOpenAIRequestToAntigravity hooksPlain gen0 "gemini-2.5-pro"
        reqBoolAP).request.tools.map hasBoolAP) = some false := by
  have h := emitted_tools_no_boolean_additionalProperties hooksPlain gen0
    "gemini-2.5-pro" reqBoolAP
  cases heq : (convertOpenAIRequestToAntigravity hooksPlain gen0 "gemini-2.5-pro"
      reqBoolAP).request.tools with
  | none => exact absurd heq (by decide)
  | some t =>
    rw [Option.map_some']
    rw [h t (Option.mem_def.mpr heq)]

/-- Counterexample for C1 as stated: a schema nesting an *object-valued*
`additionalProperties` (`{"type":"string"}`) under a property.  The rename to
`parametersJsonSchema` keeps it and the boolean-only regex does not match, so
the emitted request has a key named `additionalProperties` under
`parametersJsonSchema`. -/
theorem emitted_tools_additionalProperties_counterexample :
    ((convertOpenAIRequestToAntigravity hooksPlain gen0 "gemini-2.5-pro"
        reqSchemaAP).request.tools.map pjsHasAP) = some true := by
  decide

end CLIProxy

namespace CLIProxy

theorem find?_set_ne : ∀ (es : JsonObj) (a b : String) (v : Json), a ≠ b →
    (es.set a v).find? b = es.find? b
  | .nil, a, b, v, h => by
    simp [JsonObj.set, JsonObj.find?, fun hc : a = b => h hc]
  | .cons k w tl, a, b, v, h => by
    by_cases hk : k = a
    · subst hk
      have hkb : ¬ k = b := fun hc => h hc
      simp [JsonObj.set, JsonObj.find?, hkb]
    · by_cases hb : k = b
      · subst hb
        have hba : ¬ k = a := hk
        simp [JsonObj.set, hba, JsonObj.find?]
      · simp [JsonObj.set, hk, JsonObj.find?, hb, find?_set_ne tl a b v h]

theorem get?_oset_ne (j : Json) (a b : String) (v : Json) (h : a ≠ b) :
    (j.oset a v).get? b = j.get? b := by
  cases j <;> simp [Json.oset, Json.get?]
  exact find?_set_ne _ a b v h

end CLIProxy

namespace CLIProxy

theorem applyAnthropicThinking_oset_ne (j v : Json) (k : String)
    (hk : k ≠ "thinking") (tc : Option ThinkingConfig) :
    applyAnthropicThinking (j.oset k v) tc = applyAnthropicThinking j tc := by
  unfold applyAnthropicThinking
  rw [get?_oset_ne _ _ _ _ hk]

theorem convertTools_oset_ne (j v : Json) (k : String) (hk : k ≠ "tools") :
    convertTools (j.oset k v) = convertTools j := by
  unfold convertTools
  rw [get?_oset_ne _ _ _ _ hk]

theorem convertToolChoice_oset_ne (j v : Json) (k : String) (hk : k ≠ "tool_choice") :
    convertToolChoice (j.oset k v) = convertToolChoice j := by
  unfold convertToolChoice
  rw [get?_oset_ne _ _ _ _ hk]

theorem convertMessages_oset_ne (hooks : UtilHooks) (inc : Bool) (gen : Nat → String)
    (raw v : Json) (k : String) (hk : k ≠ "messages") :
    convertMessages hooks inc gen (raw.oset k v) = convertMessages hooks inc gen raw := by
  unfold convertMessages
  rw [get?_oset_ne _ _ _ _ hk]

theorem convertGenConfig_oset_ne (hooks : UtilHooks) (modelName : String)
    (raw v : Json) (k : String)
    (hk1 : k ≠ "temperature") (hk2 : k ≠ "top_p") (hk3 : k ≠ "top_k")
    (hk4 : k ≠ "max_tokens") (hk5 : k ≠ "modalities") (hk6 : k ≠ "image_config")
    (hth : convertThinking hooks modelName (raw.oset k v) =
      convertThinking hooks modelName raw) :
    convertGenConfig hooks modelName (raw.oset k v) =
      convertGenConfig hooks modelName raw := by
  unfold convertGenConfig
  rw [hth, get?_oset_ne raw k "temperature" v hk1, get?_oset_ne raw k "top_p" v hk2,
    get?_oset_ne raw k "top_k" v hk3, get?_oset_ne raw k "max_tokens" v hk4,
    get?_oset_ne raw k "modalities" v hk5, get?_oset_ne raw k "image_config" v hk6]

theorem convertThinking_oset_extra_body (hooks : UtilHooks) (modelName : String)
    (raw : Json) (h : (raw.get? "reasoning_effort").isSome = true) :
    convertThinking hooks modelName (raw.oset "extra_body" .null) =
      convertThinking hooks modelName raw := by
  obtain ⟨re, hre⟩ := Option.isSome_iff_exists.mp h
  unfold convertThinking
  rw [get?_oset_ne raw "extra_body" "reasoning_effort" _ (by decide), hre]
  simp only [Option.isSome_some, Bool.not_true, Bool.false_and, Bool.false_eq_true,
    if_false, applyAnthropicThinking_oset_ne raw Json.null "extra_body" (by decide)]

theorem convertThinking_oset_thinking (hooks : UtilHooks) (modelName : String)
    (raw : Json)
    (h : (if (raw.get? "reasoning_effort").isSome && hooks.modelSupportsThinking modelName
        then applyOfficialThinking hooks modelName (raw.get? "reasoning_effort") none
        else none).isSome = true) :
    convertThinking hooks modelName (raw.oset "thinking" .null) =
      convertThinking hooks modelName raw := by
  unfold convertThinking
  rw [get?_oset_ne raw "thinking" "reasoning_effort" _ (by decide)]
  cases hb : ((raw.get? "reasoning_effort").isSome && hooks.modelSupportsThinking modelName) with
  | false => rw [hb] at h; simp at h
  | true =>
    have hOf : (raw.get? "reasoning_effort").isSome = true := by
      cases hx : (raw.get? "reasoning_effort").isSome
      · rw [hx] at hb; simp at hb
      · rfl
    rw [hb] at h
    simp only [if_true] at h
    obtain ⟨tcv, htc⟩ := Option.isSome_iff_exists.mp h
    simp [hb, hOf, htc]

/-- **C3 (amended)** — Reasoning precedence: whenever `reasoning_effort` is
present (for any of its values, on any model), the vendor extension
`extra_body.google.thinking_config` contributes nothing to the output; and
whenever the official stage actually produced a thinking config, the
Anthropic-style `thinking` object contributes nothing either.  (When the
official field is present but yields no config — e.g. `reasoning_effort:
"none"` on a Gemini-3 model — the Anthropic `thinking` object can still
populate `generationConfig.thinkingConfig`.) -/
theorem reasoning_effort_precedence (hooks : UtilHooks) (gen : Nat → String)
    (modelName : String) (raw : Json) :
    ((raw.get? "reasoning_effort").isSome = true →
      convertOpenAIRequestToAntigravity hooks gen modelName (raw.oset "extra_body" .null) =
        convertOpenAIRequestToAntigravity hooks gen modelName raw) ∧
    ((if (raw.get? "reasoning_effort").isSome && hooks.modelSupportsThinking modelName
        then applyOfficialThinking hooks modelName (raw.get? "reasoning_effort") none
        else none).isSome = true →
      convertOpenAIRequestToAntigravity hooks gen modelName (raw.oset "thinking" .null) =
        convertOpenAIRequestToAntigravity hooks gen modelName raw) := by
  constructor
  · intro h
    unfold convertOpenAIRequestToAntigravity
    simp only [convertGenConfig_oset_ne hooks modelName raw Json.null "extra_body"
        (by decide) (by decide) (by decide) (by decide) (by decide) (by decide)
        (convertThinking_oset_extra_body hooks modelName raw h),
      convertMessages_oset_ne hooks _ gen raw Json.null "extra_body" (by decide),
      convertTools_oset_ne raw Json.null "extra_body" (by decide),
      convertToolChoice_oset_ne raw Json.null "extra_body" (by decide)]
  · intro h
    unfold convertOpenAIRequestToAntigravity
    simp only [convertGenConfig_oset_ne hooks modelName raw Json.null "thinking"
        (by decide) (by decide) (by decide) (by decide) (by decide) (by decide)
        (convertThinking_oset_thinking hooks modelName raw h),
      convertMessages_oset_ne hooks _ gen raw Json.null "thinking" (by decide),
      convertTools_oset_ne raw Json.null "thinking" (by decide),
      convertToolChoice_oset_ne raw Json.null "thinking" (by decide)]

/-- Witness for C3 (amended): `reasoning_effort:"high"` on a budget-family
model with both lower-precedence sources present — nulling the extension (or
the thinking object) leaves the output unchanged, and the emitted budget is
the high-mapped 24576, not 256 or 99. -/
theorem reasoning_effort_precedence_witness :
    ((reqEffortHighBoth.get? "reasoning_effort").isSome = true) ∧
    convertOpenAIRequestToAntigravity hooksBudget gen0 "gemini-2.5-pro"
        (reqEffortHighBoth.oset "extra_body" .null) =
      convertOpenAIRequestToAntigravity hooksBudget gen0 "gemini-2.5-pro"
        reqEffortHighBoth ∧
    convertOpenAIRequestToAntigravity hooksBudget gen0 "gemini-2.5-pro"
        (reqEffortHighBoth.oset "thinking" .null) =
      convertOpenAIRequestToAntigravity hooksBudget gen0 "gemini-2.5-pro"
        reqEffortHighBoth ∧
    (convertOpenAIRequestToAntigravity hooksBudget gen0 "gemini-2.5-pro"
        reqEffortHighBoth).request.generationConfig.thinkingConfig =
      some { thinkingBudget := some 24576 } := by
  have h := reasoning_effort_precedence hooksBudget gen0 "gemini-2.5-pro" reqEffortHighBoth
  exact ⟨by decide, h.1 (by decide), h.2 (by decide), by decide⟩

/-- Counterexample for C3 as stated: `reasoning_effort:"none"` on a
(Gemini-3, thinking-capable) model together with an Anthropic
`thinking:{type:"enabled", budget_tokens:512}`.  The official field is
present but deletes the thinking config, and then the lower-precedence
`thinking` object *does* contribute: the emitted `thinkingConfig` carries its
budget 512, while without the `thinking` object no config is emitted. -/
theorem reasoning_effort_precedence_counterexample :
    (reqEffortNoneThinking.get? "reasoning_effort").isSome = true ∧
    (convertOpenAIRequestToAntigravity hooksGemini3 gen0 "gemini-3-pro"
        reqEffortNoneThinking).request.generationConfig.thinkingConfig =
      some { thinkingBudget := some 512, includeThoughts := some true } ∧
    (convertOpenAIRequestToAntigravity hooksGemini3 gen0 "gemini-3-pro"
        reqEffortNoneOnly).request.generationConfig.thinkingConfig = none := by
  decide

end CLIProxy

namespace CLIProxy

theorem splitFirst_append_sep (sep : Char) (xs ys : List Char) (h : sep ∉ xs) :
    splitFirst sep (xs ++ sep :: ys) = (xs, some ys) := by
  induction xs with
  | nil => simp [splitFirst]
  | cons c cs ih =>
    have hc : ¬ c = sep := fun he => h (he ▸ List.mem_cons_self c cs)
    have htl : sep ∉ cs := fun hm => h (List.mem_cons_of_mem c hm)
    simp [splitFirst, hc, ih htl]

theorem splitFirst_no_sep (sep : Char) (cs : List Char) (h : sep ∉ cs) :
    splitFirst sep cs = (cs, none) := by
  induction cs with
  | nil => simp [splitFirst]
  | cons c cs ih =>
    have hc : ¬ c = sep := fun he => h (he ▸ List.mem_cons_self c cs)
    have htl : sep ∉ cs := fun hm => h (List.mem_cons_of_mem c hm)
    simp [splitFirst, hc, ih htl]

/-- **C4 (amended)** — Image URL handling: the URL is processed positionally,
with the `data:` scheme never validated.  A well-formed data URL
`data:<mime>;base64,<data>` with a semicolon-free mime type and non-empty
payload becomes an `inlineData` part carrying that mime type and payload; a
URL of at most five characters, or without `;` after position 5, or with at
most seven characters after the first such `;`, produces no part; but any
other URL — data-scheme or not — matching the positional shape also produces
a part made of its fragments.  User-message `image_url` items feed exactly
this computation. -/
theorem image_url_positional_handling :
    (∀ mime payload : String, ';' ∉ mime.data → payload ≠ "" →
      imageUrlToInline ("data:" ++ mime ++ ";base64," ++ payload) =
        some (mime, payload)) ∧
    (∀ u : String, u.length ≤ 5 → imageUrlToInline u = none) ∧
    (∀ u : String, ';' ∉ u.data.drop 5 → imageUrlToInline u = none) ∧
    (∀ (hooks : UtilHooks) (inc : Bool) (tcMap : List (String × String)) (u : String),
      processUserItem hooks inc tcMap
          (jobj [("type", .str "image_url"), ("image_url", jobj [("url", .str u)])]) =
        (imageUrlToInline u).map fun md => AgPart.inlineData md.1 md.2) := by
  refine ⟨?_, ?_, ?_, ?_⟩
  · intro mime payload hm hp
    have hdata : ("data:" ++ mime ++ ";base64," ++ payload).data =
        "data:".data ++ (mime.data ++ (';' :: ("base64," ++ payload).data)) := by
      simp [String.data_append]
    have hlen : ("data:" ++ mime ++ ";base64," ++ payload).length =
        5 + (mime.data.length + (1 + (7 + payload.data.length))) := by
      rw [show ("data:" ++ mime ++ ";base64," ++ payload).length =
        ("data:" ++ mime ++ ";base64," ++ payload).data.length from rfl, hdata]
      simp [String.data_append]
      omega
    have hplen : payload.data ≠ [] := by
      intro he
      exact hp (show payload = "" from congrArg String.mk he)
    rw [imageUrlToInline, if_pos (by rw [hlen]; omega), hdata]
    rw [show ("data:".data ++ (mime.data ++ (';' :: ("base64," ++ payload).data))).drop 5 =
        mime.data ++ (';' :: ("base64," ++ payload).data) from
      List.drop_left' (by decide)]
    rw [splitFirst_append_sep ';' mime.data _ hm]
    have h7 : ("base64," ++ payload).data.length > 7 := by
      rw [show ("base64," ++ payload).data = "base64,".data ++ payload.data from by
        simp [String.data_append]]
      rw [List.length_append]
      cases hc : payload.data with
      | nil => exact absurd hc hplen
      | cons a as => simp
    have hdrop : ("base64," ++ payload).data.drop 7 = payload.data := by
      rw [show ("base64," ++ payload).data = "base64,".data ++ payload.data from by
        simp [String.data_append]]
      exact List.drop_left' (by decide)
    show (if ("base64," ++ payload).data.length > 7 then
        some ((⟨mime.data⟩ : String), (⟨(("base64," ++ payload).data).drop 7⟩ : String))
      else none) = some (mime, payload)
    rw [if_pos h7, hdrop]
  · intro u hu
    rw [imageUrlToInline, if_neg (by omega)]
  · intro u hu
    rw [imageUrlToInline]
    by_cases h5 : u.length > 5
    · rw [if_pos h5, splitFirst_no_sep ';' _ hu]
    · rw [if_neg h5]
  · intro hooks inc tcMap u
    rfl

/-- Witness for C4 (amended): a genuine data URL becomes the expected
`inlineData` part, and a short URL is dropped. -/
theorem image_url_positional_handling_witness :
    (';' ∉ "image/png".data) ∧
    imageUrlToInline ("data:" ++ "image/png" ++ ";base64," ++ "AAAA") =
      some ("image/png", "AAAA") ∧
    imageUrlToInline "data:" = none := by
  refine ⟨by decide, image_url_positional_handling.1 "image/png" "AAAA" (by decide) (by decide),
    image_url_positional_handling.2.1 "data:" (by decide)⟩

/-- Counterexample for C4 as stated: the non-data URL
`https://x.co/a;bcdefghij` is *not* dropped — the translator emits an
`inlineData` part whose mime type is `://x.co/a` and whose payload is `ij`,
because the `data:` prefix is never checked. -/
theorem image_url_counterexample :
    (convertOpenAIRequestToAntigravity hooksPlain gen0 "gemini-2.5-pro"
        reqHttpImage).request.contents =
      [⟨"user", [.inlineData "://x.co/a" "ij"]⟩] := by
  decide

end CLIProxy

namespace CLIProxy

theorem buildFunctionResponses_foldl (inc : Bool) (tcMap : List (String × String))
    (resps : List (String × Option Json)) :
    ∀ (fIDs : List String) (acc : List AgPart),
      fIDs.foldl
        (fun parts fid =>
          match lookupAssoc tcMap fid with
          | some name =>
            parts ++ [.functionResponse name (if inc then some fid else none)
              (match lookupAssoc resps fid with
               | none => some (.obj .nil)
               | some none => some (.obj .nil)
               | some (some .null) => none
               | some (some (.obj es)) => some (.obj es)
               | some (some (.arr xs)) => some (.arr xs)
               | some (some v) => some (.str (Json.render v)))]
          | none => parts)
        acc =
      acc ++ fIDs.filterMap fun fid =>
        (lookupAssoc tcMap fid).map fun name =>
          AgPart.functionResponse name (if inc then some fid else none)
            (respResultSpec (lookupAssoc resps fid))
  | [], acc => by simp
  | fid :: fIDs, acc => by
    cases hl : lookupAssoc tcMap fid with
    | none =>
      simp only [List.foldl_cons, List.filterMap_cons, hl, Option.map_none']
      exact buildFunctionResponses_foldl inc tcMap resps fIDs acc
    | some name =>
      simp only [List.foldl_cons, List.filterMap_cons, hl, Option.map_some']
      rw [buildFunctionResponses_foldl inc tcMap resps fIDs]
      simp [respResultSpec]

/-- **C5 (amended)** — Function response flattening: an assistant message
with a `tool_calls` array yields one `model` content, followed by a synthetic
`function` content exactly when at least one response could be built.  That
content holds one `functionResponse` per collected call id whose name is
known (a call whose id is empty after synthesis, or whose name is unknown,
yields none), populated from the raw content of the `tool` message with the
matching `tool_call_id` — or `{}` when there is none: a raw JSON `null` omits
`response.result`; a raw object or array is stored as-is; any other raw
content, *including a JSON string that itself holds valid JSON*, is stored as
a string of its raw rendering. -/
theorem function_response_flattening :
    (∀ (inc : Bool) (tcMap : List (String × String))
        (resps : List (String × Option Json)) (fIDs : List String),
      buildFunctionResponses inc tcMap resps fIDs =
        fIDs.filterMap fun fid =>
          (lookupAssoc tcMap fid).map fun name =>
            AgPart.functionResponse name (if inc then some fid else none)
              (respResultSpec (lookupAssoc resps fid))) ∧
    (∀ (inc : Bool) (gen : Nat → String) (resps : List (String × Option Json))
        (tcMap : List (String × String)) (k : Nat) (m : Json) (tcs : JsonList),
      m.get? "tool_calls" = some (.arr tcs) →
      (processAssistantMsg inc gen resps tcMap k m).1.map AgContent.role = ["model"] ∨
      (processAssistantMsg inc gen resps tcMap k m).1.map AgContent.role =
        ["model", "function"]) := by
  constructor
  · intro inc tcMap resps fIDs
    exact buildFunctionResponses_foldl inc tcMap resps fIDs []
  · intro inc gen resps tcMap k m tcs h
    rw [processAssistantMsg, h]
    by_cases hn :
      (buildFunctionResponses inc
        (tcs.toList.foldl (processToolCall inc gen)
          ⟨(match m.get? "content" with
            | some (.str s) => (⟨[.text s], k⟩ : AsstAcc)
            | some (.arr items) =>
              items.toList.foldl (processAssistantContentItem inc gen) ⟨[], k⟩
            | _ => ⟨[], k⟩).parts, tcMap, [], (match m.get? "content" with
            | some (.str s) => (⟨[.text s], k⟩ : AsstAcc)
            | some (.arr items) =>
              items.toList.foldl (processAssistantContentItem inc gen) ⟨[], k⟩
            | _ => ⟨[], k⟩).k⟩).map
        resps
        (tcs.toList.foldl (processToolCall inc gen)
          ⟨(match m.get? "content" with
            | some (.str s) => (⟨[.text s], k⟩ : AsstAcc)
            | some (.arr items) =>
              items.toList.foldl (processAssistantContentItem inc gen) ⟨[], k⟩
            | _ => ⟨[], k⟩).parts, tcMap, [], (match m.get? "content" with
            | some (.str s) => (⟨[.text s], k⟩ : AsstAcc)
            | some (.arr items) =>
              items.toList.foldl (processAssistantContentItem inc gen) ⟨[], k⟩
            | _ => ⟨[], k⟩).k⟩).fIDs).length > 0
    · right
      simp [hn]
    · left
      simp [hn]

end CLIProxy

namespace CLIProxy

/-- Witness for C5 (amended): a known call id with a string-typed tool
content yields the quoted-string result, and a `tool_calls` assistant message
emits the model content with or without the synthetic function content. -/
theorem function_response_flattening_witness :
    buildFunctionResponses true [("call_1", "add")]
        [("call_1", some (.str "\x7b\"r\":2\x7d"))] ["call_1"] =
      [.functionResponse "add" (some "call_1")
        (some (.str "\"\x7b\\\"r\\\":2\x7d\""))] ∧
    asstToolMsg.get? "tool_calls" = some (.arr asstToolCalls) ∧
    ((processAssistantMsg true gen0 [] [] 0 asstToolMsg).1.map AgContent.role = ["model"] ∨
     (processAssistantMsg true gen0 [] [] 0 asstToolMsg).1.map AgContent.role =
       ["model", "function"]) := by
  refine ⟨?_, by decide,
    function_response_flattening.2 true gen0 [] [] 0 asstToolMsg asstToolCalls (by decide)⟩
  rw [function_response_flattening.1 true [("call_1", "add")]
    [("call_1", some (.str "\x7b\"r\":2\x7d"))] ["call_1"]]
  decide

/-- Counterexample for C5 as stated: the tool message's content is the string
`{"r":2}` — valid JSON delivered as a JSON string, as OpenAI tool messages
always are.  The claim's "valid JSON is stored raw" would give
`response.result = {"r":2}`; the code instead stores the raw bytes of the
string (quotes and escapes included) as a string. -/
theorem function_response_flattening_counterexample :
    (convertOpenAIRequestToAntigravity hooksPlain gen0 "claude-3-opus"
        reqToolRoundTrip).request.contents =
      [⟨"model", [.functionCall "add" (some "call_1") (.raw "\x7b\"a\":1\x7d")]⟩,
       ⟨"function", [.functionResponse "add" (some "call_1")
         (some (.str "\"\x7b\\\"r\\\":2\x7d\""))]⟩] ∧
    (convertOpenAIRequestToAntigravity hooksPlain gen0 "claude-3-opus"
        reqToolRoundTrip).request.contents ≠
      [⟨"model", [.functionCall "add" (some "call_1") (.raw "\x7b\"a\":1\x7d")]⟩,
       ⟨"function", [.functionResponse "add" (some "call_1")
         (some (jobj [("r", .num 2)]))]⟩] := by
  decide

end CLIProxy

namespace CLIProxy

theorem processAssistantContentItem_nonclaude (gen1 gen2 : Nat → String) :
    processAssistantContentItem false gen1 = processAssistantContentItem false gen2 := by
  funext acc item
  unfold processAssistantContentItem
  simp only [Bool.false_and, Bool.false_eq_true, if_false]

theorem processToolCall_nonclaude (gen1 gen2 : Nat → String) :
    processToolCall false gen1 = processToolCall false gen2 := by
  funext acc tc
  unfold processToolCall
  simp only [Bool.false_and, Bool.false_eq_true, if_false]

theorem processAssistantMsg_nonclaude (gen1 gen2 : Nat → String) :
    processAssistantMsg false gen1 = processAssistantMsg false gen2 := by
  funext resps tcMap k m
  unfold processAssistantMsg
  rw [processAssistantContentItem_nonclaude gen1 gen2,
    processToolCall_nonclaude gen1 gen2]

theorem processMessage_nonclaude (hooks : UtilHooks) (gen1 gen2 : Nat → String) :
    processMessage hooks false gen1 = processMessage hooks false gen2 := by
  funext resps msgCount st m
  unfold processMessage
  rw [processAssistantMsg_nonclaude gen1 gen2]

theorem convertMessages_nonclaude (hooks : UtilHooks) (gen1 gen2 : Nat → String)
    (raw : Json) :
    convertMessages hooks false gen1 raw = convertMessages hooks false gen2 raw := by
  unfold convertMessages
  rw [processMessage_nonclaude hooks gen1 gen2]

/-- **C9** — Determinism for non-Claude models: when the model name does not
contain `claude` (case-insensitively), the translation is a pure function of
`(modelName, rawJSON)` — the crypto/rand id generator is never consulted, so
two executions with arbitrary different random streams produce identical
output. -/
theorem convert_deterministic_nonclaude (hooks : UtilHooks) (modelName : String)
    (raw : Json) (h : claudeLike modelName = false) (gen1 gen2 : Nat → String) :
    convertOpenAIRequestToAntigravity hooks gen1 modelName raw =
      convertOpenAIRequestToAntigravity hooks gen2 modelName raw := by
  unfold convertOpenAIRequestToAntigravity
  rw [h]
  simp only [convertMessages_nonclaude hooks gen1 gen2]

/-- Witness for C9: `gpt-4` is not Claude-like, and a run with the all-`a`
stream's generator equals a run with a constant dummy generator on a request
whose assistant message carries an id-less tool call. -/
theorem convert_deterministic_nonclaude_witness :
    claudeLike "gpt-4" = false ∧
    convertOpenAIRequestToAntigravity hooksPlain (genToolCallID rngA) "gpt-4"
        (jobj [("messages", jarr [jobj [("role", .str "assistant"),
          ("tool_calls", jarr [jobj [("type", .str "function"),
            ("function", jobj [("name", .str "add")])]])]])]) =
      convertOpenAIRequestToAntigravity hooksPlain (fun _ => "dummy") "gpt-4"
        (jobj [("messages", jarr [jobj [("role", .str "assistant"),
          ("tool_calls", jarr [jobj [("type", .str "function"),
            ("function", jobj [("name", .str "add")])]])]])]) := by
  exact ⟨by decide, convert_deterministic_nonclaude hooksPlain "gpt-4" _ (by decide) _ _⟩

end CLIProxy

namespace CLIProxy

theorem mem_keysOf_updateAssoc {α : Type} (m : List (String × α)) (k : String)
    (v : α) (a : String) :
    a ∈ keysOf (updateAssoc m k v) ↔ a ∈ keysOf m ∨ a = k := by
  induction m with
  | nil => simp [updateAssoc, keysOf]
  | cons e tl ih =>
    obtain ⟨k', v'⟩ := e
    by_cases h : k' = k
    · subst h
      simp [updateAssoc, keysOf]
      tauto
    · simp [updateAssoc, h, keysOf] at ih ⊢
      tauto

theorem lookupAssoc_mem_keysOf {α : Type} (m : List (String × α)) (k : String)
    (v : α) (h : lookupAssoc m k = some v) : k ∈ keysOf m := by
  induction m with
  | nil => simp [lookupAssoc] at h
  | cons e tl ih =>
    obtain ⟨k', v'⟩ := e
    by_cases hk : k' = k
    · subst hk; simp [keysOf]
    · rw [lookupAssoc, if_neg hk] at h
      simp [keysOf] at ih ⊢
      exact Or.inr (by simpa [keysOf] using ih h)

theorem keysOf_mono_updateAssoc {α : Type} (m : List (String × α)) (k : String)
    (v : α) (a : String) (h : a ∈ keysOf m) : a ∈ keysOf (updateAssoc m k v) := by
  rw [mem_keysOf_updateAssoc]
  exact Or.inl h

theorem keyChar_id : keyChar (fun acc => acc) := by
  intro acc a
  simp [keysOf]

theorem keyChar_updateAssoc (k v : String) :
    keyChar (fun acc => updateAssoc acc k v) := by
  intro acc a
  rw [mem_keysOf_updateAssoc, mem_keysOf_updateAssoc]
  simp [keysOf]

theorem keyChar_comp (f g : List (String × String) → List (String × String))
    (hf : keyChar f) (hg : keyChar g) : keyChar (fun acc => g (f acc)) := by
  intro acc a
  rw [hg (f acc) a, hf acc a, hg (f []) a]
  tauto

theorem keyChar_foldl {β : Type} (step : List (String × String) → β →
    List (String × String)) (h : ∀ x, keyChar (fun acc => step acc x)) :
    ∀ l : List β, keyChar (fun acc => l.foldl step acc) := by
  intro l
  induction l with
  | nil => simpa using keyChar_id
  | cons x xs ih =>
    intro acc a
    have hx := h x
    have h1 := ih (step acc x) a
    have h2 := ih (step [] x) a
    have h3 := hx acc a
    have h4 := hx [] a
    simp only [List.foldl_cons] at *
    constructor
    · intro hm
      rcases h1.mp hm with hm1 | hm1
      · rcases h3.mp hm1 with hm2 | hm2
        · exact Or.inl hm2
        · exact Or.inr (h2.mpr (Or.inl hm2))
      · exact Or.inr (h2.mpr (Or.inr hm1))
    · intro hm
      rcases hm with hm | hm
      · exact h1.mpr (Or.inl (h3.mpr (Or.inl hm)))
      · rcases h2.mp hm with hm1 | hm1
        · exact h1.mpr (Or.inl (h3.mpr (Or.inr hm1)))
        · exact h1.mpr (Or.inr hm1)

end CLIProxy

namespace CLIProxy

theorem keyChar_condUpdate2 (c1 c2 : Bool) (k v : String) :
    keyChar (fun acc => if c1 then (if c2 then updateAssoc acc k v else acc) else acc) := by
  cases c1
  · simpa using keyChar_id
  · cases c2
    · simpa using keyChar_id
    · simpa using keyChar_updateAssoc k v

theorem keyChar_condUpdate2P (p : Prop) [Decidable p] (c2 : Bool) (k v : String) :
    keyChar (fun acc => if p then (if c2 then updateAssoc acc k v else acc) else acc) := by
  by_cases hp : p
  · cases c2
    · simpa [hp] using keyChar_id
    · simpa [hp] using keyChar_updateAssoc k v
  · simpa [hp] using keyChar_id

theorem keyChar_firstPassMsg (m : Json) : keyChar (fun acc => firstPassMsg acc m) := by
  unfold firstPassMsg
  by_cases hrole : Json.goString (m.get? "role") = "assistant"
  · simp only [hrole, if_true, if_pos]
    have hstep1 : ∀ tc : Json, keyChar (fun acc =>
        let tcType := Json.goString (tc.get? "type")
        if tcType = "function" || tcType = "" then
          let id := Json.goString (tc.get? "id")
          let name := Json.goString (getPath2 tc "function" "name")
          if id ≠ "" && name ≠ "" then updateAssoc acc id name else acc
        else acc) := fun tc =>
      keyChar_condUpdate2 _ _ _ _
    have hstep2 : ∀ item : Json, keyChar (fun acc =>
        if Json.goString (item.get? "type") = "tool_use" then
          let id := Json.goString (item.get? "id")
          let name := Json.goString (item.get? "name")
          if id ≠ "" && name ≠ "" then updateAssoc acc id name else acc
        else acc) := fun item =>
      keyChar_condUpdate2P _ _ _ _
    rcases htc : m.get? "tool_calls" with _ | jtc
    · rcases hc : m.get? "content" with _ | jc
      · simpa [htc, hc] using keyChar_id
      · cases jc <;> simp only [htc, hc] <;>
          first
          | exact keyChar_foldl _ hstep2 _
          | simpa using keyChar_id
    · cases jtc <;>
        · rcases hc : m.get? "content" with _ | jc
          · simp only [htc, hc]
            first
            | exact keyChar_foldl _ hstep1 _
            | simpa using keyChar_id
          · cases jc <;> simp only [htc, hc] <;>
              first
              | exact keyChar_comp _ _ (keyChar_foldl _ hstep1 _) (keyChar_foldl _ hstep2 _)
              | exact keyChar_foldl _ hstep1 _
              | exact keyChar_foldl _ hstep2 _
              | simpa using keyChar_id
  · simpa [hrole] using keyChar_id

theorem keyChar_firstPass_foldl (msgs : List Json) :
    keyChar (fun acc => msgs.foldl firstPassMsg acc) :=
  keyChar_foldl firstPassMsg keyChar_firstPassMsg msgs

end CLIProxy

namespace CLIProxy

theorem keyChar_subset (f : List (String × String) → List (String × String))
    (hf : keyChar f) (m1 m2 : List (String × String))
    (hsub : ∀ a, a ∈ keysOf m1 → a ∈ keysOf m2) :
    ∀ a, a ∈ keysOf (f m1) → a ∈ keysOf (f m2) := by
  intro a ha
  rcases (hf m1 a).mp ha with h | h
  · exact (hf m2 a).mpr (Or.inl (hsub a h))
  · exact (hf m2 a).mpr (Or.inr h)

theorem empty_notin_foldl {β : Type} (step : List (String × String) → β →
    List (String × String))
    (hstep : ∀ acc x, "" ∉ keysOf acc → "" ∉ keysOf (step acc x)) (l : List β) :
    ∀ acc, "" ∉ keysOf acc → "" ∉ keysOf (l.foldl step acc) := by
  induction l with
  | nil => intro acc h; simpa using h
  | cons x xs ih => intro acc h; exact ih _ (hstep acc x h)

theorem empty_notin_condUpdate (c1 : Prop) [Decidable c1] (id name : String)
    (acc : List (String × String)) (h : "" ∉ keysOf acc) :
    "" ∉ keysOf (if c1 then
      (if id ≠ "" && name ≠ "" then updateAssoc acc id name else acc) else acc) := by
  by_cases h1 : c1
  · by_cases h2 : (id ≠ "" && name ≠ "") = true
    · have hid : id ≠ "" := by
        simp only [Bool.and_eq_true, decide_eq_true_eq, ne_eq] at h2
        exact h2.1
      simp only [h1, if_true, h2, if_pos]
      intro hmem
      rw [mem_keysOf_updateAssoc] at hmem
      rcases hmem with hm | hm
      · exact h hm
      · exact hid hm.symm
    · rw [if_pos h1, if_neg h2]; exact h
  · rw [if_neg h1]; exact h

theorem empty_notin_firstPassMsg (m : Json) (acc : List (String × String))
    (h : "" ∉ keysOf acc) : "" ∉ keysOf (firstPassMsg acc m) := by
  unfold firstPassMsg
  by_cases hrole : Json.goString (m.get? "role") = "assistant"
  · simp only [hrole, if_true, if_pos]
    have hstep1 : ∀ (acc : List (String × String)) (tc : Json),
        "" ∉ keysOf acc → "" ∉ keysOf
        ((fun acc tc =>
          let tcType := Json.goString (tc.get? "type")
          if tcType = "function" || tcType = "" then
            let id := Json.goString (tc.get? "id")
            let name := Json.goString (getPath2 tc "function" "name")
            if id ≠ "" && name ≠ "" then updateAssoc acc id name else acc
          else acc) acc tc) := fun acc tc hh =>
      empty_notin_condUpdate _ _ _ acc hh
    have hstep2 : ∀ (acc : List (String × String)) (item : Json),
        "" ∉ keysOf acc → "" ∉ keysOf
        ((fun acc item =>
          if Json.goString (item.get? "type") = "tool_use" then
            let id := Json.goString (item.get? "id")
            let name := Json.goString (item.get? "name")
            if id ≠ "" && name ≠ "" then updateAssoc acc id name else acc
          else acc) acc item) := fun acc item hh =>
      empty_notin_condUpdate _ _ _ acc hh
    rcases htc : m.get? "tool_calls" with _ | jtc
    · rcases hc : m.get? "content" with _ | jc
      · simpa [htc, hc] using h
      · cases jc <;> simp only [htc, hc] <;>
          first
          | exact empty_notin_foldl _ hstep2 _ acc h
          | simpa using h
    · cases jtc <;>
        · rcases hc : m.get? "content" with _ | jc
          · simp only [htc, hc]
            first
            | exact empty_notin_foldl _ hstep1 _ acc h
            | simpa using h
          · cases jc <;> simp only [htc, hc] <;>
              first
              | exact empty_notin_foldl _ hstep2 _ _
                  (empty_notin_foldl _ hstep1 _ acc h)
              | exact empty_notin_foldl _ hstep1 _ acc h
              | exact empty_notin_foldl _ hstep2 _ acc h
              | simpa using h
  · simpa [hrole] using h

theorem empty_notin_firstPass (msgs : List Json) :
    "" ∉ keysOf (msgs.foldl firstPassMsg []) :=
  empty_notin_foldl firstPassMsg
    (fun acc m hh => empty_notin_firstPassMsg m acc hh) msgs []
    (by simp [keysOf])

end CLIProxy

namespace CLIProxy

theorem partsOfContents_append (cs ds : List AgContent) :
    partsOfContents (cs ++ ds) = partsOfContents cs ++ partsOfContents ds := by
  induction cs with
  | nil => rfl
  | cons c cs ih =>
    show c.parts ++ partsOfContents (cs ++ ds) = (c.parts ++ partsOfContents cs) ++ _
    rw [ih, List.append_assoc]

theorem callIds_of_call_mem (cs : List AgContent) (n a : String) (args : Json)
    (h : AgPart.functionCall n (some a) args ∈ partsOfContents cs) :
    a ∈ callIdsOfContents cs := by
  unfold callIdsOfContents
  exact List.mem_filterMap.mpr ⟨_, h, rfl⟩

theorem callIds_append_left (cs ds : List AgContent) (a : String)
    (h : a ∈ callIdsOfContents cs) : a ∈ callIdsOfContents (cs ++ ds) := by
  unfold callIdsOfContents at *
  rw [partsOfContents_append, List.filterMap_append]
  exact List.mem_append_left _ h

theorem callIds_append_right (cs ds : List AgContent) (a : String)
    (h : a ∈ callIdsOfContents ds) : a ∈ callIdsOfContents (cs ++ ds) := by
  unfold callIdsOfContents at *
  rw [partsOfContents_append, List.filterMap_append]
  exact List.mem_append_right _ h

theorem getD_mem_or {α : Type} (l : List α) (v : Nat) (d : α) :
    l.getD v d ∈ l ∨ l.getD v d = d := by
  induction l generalizing v with
  | nil => right; rfl
  | cons x xs ih =>
    cases v with
    | zero => left; exact List.mem_cons_self x xs
    | succ v =>
      have hstep : (x :: xs).getD (v + 1) d = xs.getD v d := rfl
      rw [hstep]
      rcases ih v with h | h
      · exact Or.inl (List.mem_cons_of_mem _ h)
      · exact Or.inr h

theorem tooluShaped_genToolCallID (r : Nat → Fin 62) (k : Nat) :
    tooluShaped (genToolCallID r k) := by
  refine ⟨(List.range 24).map fun i => idLetters.getD (r (24 * k + i)).val 'a',
    rfl, by simp, ?_⟩
  intro c hc
  simp only [List.mem_map, List.mem_range] at hc
  obtain ⟨i, _, rfl⟩ := hc
  rcases getD_mem_or idLetters (r (24 * k + i)).val 'a' with h | h
  · exact h
  · rw [h]; decide

theorem genToolCallID_ne_empty (r : Nat → Fin 62) (k : Nat) :
    genToolCallID r k ≠ "" := by
  intro h
  obtain ⟨cs, hdata, hlen, _⟩ := tooluShaped_genToolCallID r k
  rw [h] at hdata
  have hl := congrArg List.length hdata
  rw [List.length_append, hlen] at hl
  have h1 : List.length (String.data "") = 0 := rfl
  have h2 : List.length (String.data "toolu_") = 6 := rfl
  rw [h1, h2] at hl
  exact absurd hl (by decide)

theorem mem_foldr_clientIds (l : List Json) (m : Json) (hm : m ∈ l) (a : String)
    (ha : a ∈ clientCallIdsOfMsg m) :
    a ∈ l.foldr (fun m acc => clientCallIdsOfMsg m ++ acc) [] := by
  induction l with
  | nil => cases hm
  | cons x xs ih =>
    simp only [List.foldr_cons]
    rcases List.mem_cons.mp hm with rfl | hm
    · exact List.mem_append_left _ ha
    · exact List.mem_append_right _ (ih hm)

theorem tc_id_mem_clientIdsOfMsg (m : Json) (tcs : JsonList)
    (h : m.get? "tool_calls" = some (.arr tcs)) (tc : Json) (htc : tc ∈ tcs.toList) :
    Json.goString (tc.get? "id") ∈ clientCallIdsOfMsg m := by
  unfold clientCallIdsOfMsg
  rw [h]
  exact List.mem_append_left _ (List.mem_map.mpr ⟨tc, htc, rfl⟩)

theorem item_id_mem_clientIdsOfMsg (m : Json) (items : JsonList)
    (h : m.get? "content" = some (.arr items)) (item : Json) (hi : item ∈ items.toList) :
    Json.goString (item.get? "id") ∈ clientCallIdsOfMsg m := by
  unfold clientCallIdsOfMsg
  rw [h]
  exact List.mem_append_right _ (List.mem_map.mpr ⟨item, hi, rfl⟩)

end CLIProxy

namespace CLIProxy

theorem processUserItem_claude (hooks : UtilHooks) (cIds : List String)
    (gen : Nat → String) (tcMap : List (String × String)) (item : Json)
    (hmap : "" ∉ keysOf tcMap) (p : AgPart)
    (heq : processUserItem hooks true tcMap item = some p) :
    callPartOk cIds gen p ∧ respPartIn (keysOf tcMap) p := by
  unfold processUserItem at heq
  by_cases h1 : Json.goString (item.get? "type") = "text"
  · rw [h1] at heq
    simp only [Option.some.injEq] at heq
    subst heq
    exact ⟨trivial, trivial⟩
  by_cases h2 : Json.goString (item.get? "type") = "image_url"
  · rw [h2] at heq
    rcases himg : imageUrlToInline (Json.goString (getPath2 item "image_url" "url"))
      with _ | md
    · rw [himg] at heq; cases heq
    · rw [himg] at heq
      simp only [Option.map_some', Option.some.injEq] at heq
      subst heq
      exact ⟨trivial, trivial⟩
  by_cases h3 : Json.goString (item.get? "type") = "file"
  · rw [h3] at heq
    simp only [h1, h2] at heq
    rcases hmt : hooks.mimeTypes (fileExt (Json.goString (getPath2 item "file" "filename")))
      with _ | mt
    · rw [hmt] at heq; cases heq
    · rw [hmt] at heq
      simp only [Option.some.injEq] at heq
      subst heq
      exact ⟨trivial, trivial⟩
  by_cases h4 : Json.goString (item.get? "type") = "tool_result"
  · rw [h4] at heq
    simp only [h1, h2, h3] at heq
    rcases hl : lookupAssoc tcMap (Json.goString (item.get? "tool_use_id")) with _ | name
    · rw [hl] at heq; cases heq
    · rw [hl] at heq
      simp only [Option.some.injEq] at heq
      have hid : Json.goString (item.get? "tool_use_id") ∈ keysOf tcMap :=
        lookupAssoc_mem_keysOf tcMap _ name hl
      have hne : Json.goString (item.get? "tool_use_id") ≠ "" := by
        intro h0; rw [h0] at hid; exact hmap hid
      rw [if_pos (by simp [hne])] at heq
      subst heq
      exact ⟨trivial, ⟨_, rfl, hid⟩⟩
  · simp only [h1, h2, h3, h4] at heq
    exact absurd heq (by simp)

theorem processUserParts_claude (hooks : UtilHooks) (cIds : List String)
    (gen : Nat → String) (tcMap : List (String × String)) (content : Option Json)
    (hmap : "" ∉ keysOf tcMap) :
    ∀ p ∈ processUserParts hooks true tcMap content,
      callPartOk cIds gen p ∧ respPartIn (keysOf tcMap) p := by
  intro p hp
  rcases content with _ | j
  · simp [processUserParts] at hp
  · cases j with
    | str s =>
      simp only [processUserParts, List.mem_singleton] at hp
      subst hp
      exact ⟨trivial, trivial⟩
    | arr items =>
      simp only [processUserParts] at hp
      obtain ⟨item, _, heq⟩ := List.mem_filterMap.mp hp
      exact processUserItem_claude hooks cIds gen tcMap item hmap p heq
    | null => simp [processUserParts] at hp
    | bool b => simp [processUserParts] at hp
    | num n => simp [processUserParts] at hp
    | obj es => simp [processUserParts] at hp
    | raw s => simp [processUserParts] at hp

theorem processUserItem_nonclaude (hooks : UtilHooks)
    (tcMap : List (String × String)) (item : Json) (p : AgPart)
    (heq : processUserItem hooks false tcMap item = some p) : partIdFree p := by
  unfold processUserItem at heq
  by_cases h1 : Json.goString (item.get? "type") = "text"
  · rw [h1] at heq
    simp only [Option.some.injEq] at heq
    subst heq; trivial
  by_cases h2 : Json.goString (item.get? "type") = "image_url"
  · rw [h2] at heq
    rcases himg : imageUrlToInline (Json.goString (getPath2 item "image_url" "url"))
      with _ | md
    · rw [himg] at heq; cases heq
    · rw [himg] at heq
      simp only [Option.map_some', Option.some.injEq] at heq
      subst heq; trivial
  by_cases h3 : Json.goString (item.get? "type") = "file"
  · rw [h3] at heq
    simp only [h1, h2] at heq
    rcases hmt : hooks.mimeTypes (fileExt (Json.goString (getPath2 item "file" "filename")))
      with _ | mt
    · rw [hmt] at heq; cases heq
    · rw [hmt] at heq
      simp only [Option.some.injEq] at heq
      subst heq; trivial
  by_cases h4 : Json.goString (item.get? "type") = "tool_result"
  · rw [h4] at heq
    simp only [h1, h2, h3] at heq
    rcases hl : lookupAssoc tcMap (Json.goString (item.get? "tool_use_id")) with _ | name
    · rw [hl] at heq; cases heq
    · rw [hl] at heq
      simp only [Option.some.injEq] at heq
      rw [if_neg (by simp)] at heq
      subst heq
      show (none : Option String) = none
      rfl
  · simp only [h1, h2, h3, h4] at heq
    exact absurd heq (by simp)

theorem processUserParts_nonclaude (hooks : UtilHooks)
    (tcMap : List (String × String)) (content : Option Json) :
    ∀ p ∈ processUserParts hooks false tcMap content, partIdFree p := by
  intro p hp
  rcases content with _ | j
  · simp [processUserParts] at hp
  · cases j with
    | str s =>
      simp only [processUserParts, List.mem_singleton] at hp
      subst hp; trivial
    | arr items =>
      simp only [processUserParts] at hp
      obtain ⟨item, _, heq⟩ := List.mem_filterMap.mp hp
      exact processUserItem_nonclaude hooks tcMap item p heq
    | null => simp [processUserParts] at hp
    | bool b => simp [processUserParts] at hp
    | num n => simp [processUserParts] at hp
    | obj es => simp [processUserParts] at hp
    | raw s => simp [processUserParts] at hp

end CLIProxy

namespace CLIProxy

theorem pACI_parts_mono (inc : Bool) (gen : Nat → String) (acc : AsstAcc)
    (item : Json) (p : AgPart) (hp : p ∈ acc.parts) :
    p ∈ (processAssistantContentItem inc gen acc item).parts := by
  unfold processAssistantContentItem
  by_cases h1 : Json.goString (item.get? "type") = "text"
  · rw [h1]; exact List.mem_append_left _ hp
  by_cases h2 : Json.goString (item.get? "type") = "image_url"
  · rw [h2]
    rcases himg : imageUrlToInline (Json.goString (getPath2 item "image_url" "url"))
      with _ | md
    · exact hp
    · exact List.mem_append_left _ hp
  by_cases h3 : Json.goString (item.get? "type") = "tool_use"
  · rw [h3]; exact List.mem_append_left _ hp
  · simp only [h1, h2, h3]
    exact hp

theorem asstFold_parts_mono (inc : Bool) (gen : Nat → String) (items : List Json) :
    ∀ (acc : AsstAcc) (p : AgPart), p ∈ acc.parts →
      p ∈ (items.foldl (processAssistantContentItem inc gen) acc).parts := by
  induction items with
  | nil => intro acc p hp; exact hp
  | cons item items ih =>
    intro acc p hp
    exact ih _ p (pACI_parts_mono inc gen acc item p hp)

theorem pACI_claude_ok (cIds S : List String) (gen : Nat → String)
    (hgen : ∀ k, gen k ≠ "") (acc : AsstAcc) (item : Json)
    (hitem : Json.goString (item.get? "id") ∈ cIds)
    (hacc : ∀ p ∈ acc.parts, callPartOk cIds gen p ∧ respPartIn S p) :
    ∀ p ∈ (processAssistantContentItem true gen acc item).parts,
      callPartOk cIds gen p ∧ respPartIn S p := by
  intro p hp
  unfold processAssistantContentItem at hp
  by_cases h1 : Json.goString (item.get? "type") = "text"
  · rw [h1] at hp
    rcases List.mem_append.mp hp with h | h
    · exact hacc p h
    · rw [List.mem_singleton] at h; subst h; exact ⟨trivial, trivial⟩
  by_cases h2 : Json.goString (item.get? "type") = "image_url"
  · rw [h2] at hp
    rcases himg : imageUrlToInline (Json.goString (getPath2 item "image_url" "url"))
      with _ | md
    · rw [himg] at hp; exact hacc p hp
    · rw [himg] at hp
      rcases List.mem_append.mp hp with h | h
      · exact hacc p h
      · rw [List.mem_singleton] at h; subst h; exact ⟨trivial, trivial⟩
  by_cases h3 : Json.goString (item.get? "type") = "tool_use"
  · rw [h3] at hp
    by_cases hid : Json.goString (item.get? "id") = ""
    · simp only [hid, List.mem_append, List.mem_singleton] at hp
      rcases hp with h | h
      · exact hacc p h
      · subst h
        refine ⟨?_, trivial⟩
        rw [if_pos (by simp [hgen acc.k])]
        exact ⟨gen acc.k, rfl, hgen acc.k, Or.inr ⟨acc.k, rfl⟩⟩
    · simp only [hid, List.mem_append, List.mem_singleton] at hp
      rcases hp with h | h
      · exact hacc p h
      · subst h
        refine ⟨?_, trivial⟩
        rw [if_pos (by simp [hid])]
        exact ⟨_, rfl, hid, Or.inl hitem⟩
  · simp only [h1, h2, h3] at hp
    exact hacc p hp

theorem asstFold_claude_ok (cIds S : List String) (gen : Nat → String)
    (hgen : ∀ k, gen k ≠ "") (items : List Json)
    (hids : ∀ item ∈ items, Json.goString (item.get? "id") ∈ cIds) :
    ∀ acc, (∀ p ∈ acc.parts, callPartOk cIds gen p ∧ respPartIn S p) →
    ∀ p ∈ (items.foldl (processAssistantContentItem true gen) acc).parts,
      callPartOk cIds gen p ∧ respPartIn S p := by
  induction items with
  | nil => intro acc hacc p hp; exact hacc p hp
  | cons item items ih =>
    intro acc hacc p hp
    exact ih (fun it hit => hids it (List.mem_cons_of_mem _ hit)) _
      (pACI_claude_ok cIds S gen hgen acc item
        (hids item (List.mem_cons_self _ _)) hacc) p hp

theorem pACI_nonclaude_idFree (gen : Nat → String) (acc : AsstAcc) (item : Json)
    (hacc : ∀ p ∈ acc.parts, partIdFree p) :
    ∀ p ∈ (processAssistantContentItem false gen acc item).parts, partIdFree p := by
  intro p hp
  unfold processAssistantContentItem at hp
  by_cases h1 : Json.goString (item.get? "type") = "text"
  · rw [h1] at hp
    rcases List.mem_append.mp hp with h | h
    · exact hacc p h
    · rw [List.mem_singleton] at h; subst h; trivial
  by_cases h2 : Json.goString (item.get? "type") = "image_url"
  · rw [h2] at hp
    rcases himg : imageUrlToInline (Json.goString (getPath2 item "image_url" "url"))
      with _ | md
    · rw [himg] at hp; exact hacc p hp
    · rw [himg] at hp
      rcases List.mem_append.mp hp with h | h
      · exact hacc p h
      · rw [List.mem_singleton] at h; subst h; trivial
  by_cases h3 : Json.goString (item.get? "type") = "tool_use"
  · rw [h3] at hp
    simp only [Bool.false_and, List.mem_append, List.mem_singleton] at hp
    rcases hp with h | h
    · exact hacc p h
    · subst h
      show (none : Option String) = none
      rfl
  · simp only [h1, h2, h3] at hp
    exact hacc p hp

theorem asstFold_nonclaude_idFree (gen : Nat → String) (items : List Json) :
    ∀ acc, (∀ p ∈ acc.parts, partIdFree p) →
    ∀ p ∈ (items.foldl (processAssistantContentItem false gen) acc).parts,
      partIdFree p := by
  induction items with
  | nil => intro acc hacc p hp; exact hacc p hp
  | cons item items ih =>
    intro acc hacc p hp
    exact ih _ (pACI_nonclaude_idFree gen acc item hacc) p hp

end CLIProxy

namespace CLIProxy

theorem pTC_skip (inc : Bool) (gen : Nat → String) (acc : CallsAcc) (tc : Json)
    (hty : (Json.goString (tc.get? "type") ≠ "function" &&
      Json.goString (tc.get? "type") ≠ "") = true) :
    processToolCall inc gen acc tc = acc := by
  unfold processToolCall
  simp only [hty, if_true]

theorem pTC_emit (inc : Bool) (gen : Nat → String) (acc : CallsAcc) (tc : Json)
    (hty : (Json.goString (tc.get? "type") ≠ "function" &&
      Json.goString (tc.get? "type") ≠ "") = false) :
    processToolCall inc gen acc tc =
      (let fid0 := Json.goString (tc.get? "id")
       let fname := Json.goString (getPath2 tc "function" "name")
       let fargs := Json.goString (getPath2 tc "function" "arguments")
       let fidk : String × Nat :=
         if inc && fid0 = "" then (gen acc.k, acc.k + 1) else (fid0, acc.k)
       let fid := fidk.1
       { parts := acc.parts ++ [.functionCall fname
           (if inc && fid ≠ "" then some fid else none)
           (if jsonValid fargs then .raw fargs
            else .obj (.cons "params" (.raw fargs) .nil))],
         map := if inc && fid ≠ "" && fname ≠ "" then updateAssoc acc.map fid fname
           else acc.map,
         fIDs := acc.fIDs ++ (if fid ≠ "" then [fid] else []),
         k := fidk.2 }) := by
  unfold processToolCall
  simp only [hty, Bool.false_eq_true, if_false]

end CLIProxy

namespace CLIProxy

theorem pTC_parts_mono (inc : Bool) (gen : Nat → String) (acc : CallsAcc)
    (tc : Json) (p : AgPart) (hp : p ∈ acc.parts) :
    p ∈ (processToolCall inc gen acc tc).parts := by
  by_cases hty : (Json.goString (tc.get? "type") ≠ "function" &&
      Json.goString (tc.get? "type") ≠ "") = true
  · rw [pTC_skip inc gen acc tc hty]; exact hp
  · rw [Bool.not_eq_true] at hty
    rw [pTC_emit inc gen acc tc hty]
    exact List.mem_append_left _ hp

theorem tcsFold_parts_mono (inc : Bool) (gen : Nat → String) (tcs : List Json) :
    ∀ (acc : CallsAcc) (p : AgPart), p ∈ acc.parts →
      p ∈ (tcs.foldl (processToolCall inc gen) acc).parts := by
  induction tcs with
  | nil => intro acc p hp; exact hp
  | cons tc tcs ih =>
    intro acc p hp
    exact ih _ p (pTC_parts_mono inc gen acc tc p hp)

theorem no_empty_keys_propUpdate {α : Type} (c : Prop) [Decidable c]
    (m : List (String × α)) (k : String) (v : α)
    (h : "" ∉ keysOf m) (hk : c → k ≠ "") :
    "" ∉ keysOf (if c then updateAssoc m k v else m) := by
  by_cases hc : c
  · rw [if_pos hc]
    intro hmem
    rcases (mem_keysOf_updateAssoc m k v "").mp hmem with hm | hm
    · exact h hm
    · exact hk hc hm.symm
  · rwa [if_neg hc]

theorem pTC_map_no_empty (gen : Nat → String) (acc : CallsAcc) (tc : Json)
    (h : "" ∉ keysOf acc.map) :
    "" ∉ keysOf (processToolCall true gen acc tc).map := by
  by_cases hty : (Json.goString (tc.get? "type") ≠ "function" &&
      Json.goString (tc.get? "type") ≠ "") = true
  · rw [pTC_skip true gen acc tc hty]; exact h
  · rw [Bool.not_eq_true] at hty
    rw [pTC_emit true gen acc tc hty]
    by_cases hid : Json.goString (tc.get? "id") = ""
    · simp only [hid]
      simp
      refine no_empty_keys_propUpdate _ acc.map _ _ h ?_
      intro hc
      exact hc.1
    · simp [hid]
      by_cases hn : Json.goString (getPath2 tc "function" "name") = ""
      · rwa [if_pos hn]
      · rw [if_neg hn]
        intro hmem
        rcases (mem_keysOf_updateAssoc acc.map _ _ "").mp hmem with hm | hm
        · exact h hm
        · exact hid hm.symm

theorem tcsFold_map_no_empty (gen : Nat → String) (tcs : List Json) :
    ∀ acc : CallsAcc, "" ∉ keysOf acc.map →
      "" ∉ keysOf (tcs.foldl (processToolCall true gen) acc).map := by
  induction tcs with
  | nil => intro acc h; exact h
  | cons tc tcs ih =>
    intro acc h
    exact ih _ (pTC_map_no_empty gen acc tc h)

end CLIProxy

namespace CLIProxy

theorem pTC_map_keys (gen : Nat → String) (acc : CallsAcc) (tc : Json) (a : String)
    (ha : a ∈ keysOf (processToolCall true gen acc tc).map) :
    a ∈ keysOf acc.map ∨
      ∃ n args, AgPart.functionCall n (some a) args ∈ (processToolCall true gen acc tc).parts := by
  by_cases hty : (Json.goString (tc.get? "type") ≠ "function" &&
      Json.goString (tc.get? "type") ≠ "") = true
  · rw [pTC_skip true gen acc tc hty] at ha
    exact Or.inl ha
  · rw [Bool.not_eq_true] at hty
    rw [pTC_emit true gen acc tc hty] at ha ⊢
    by_cases hid : Json.goString (tc.get? "id") = ""
    · simp [hid] at ha ⊢
      by_cases hc : ¬gen acc.k = "" ∧ ¬Json.goString (getPath2 tc "function" "name") = ""
      · rw [if_pos hc] at ha
        rcases (mem_keysOf_updateAssoc _ _ _ a).mp ha with hm | hm
        · exact Or.inl hm
        · exact Or.inr ⟨_, _, Or.inr ⟨rfl, ⟨hc.1, hm⟩, rfl⟩⟩
      · rw [if_neg hc] at ha
        exact Or.inl ha
    · simp [hid] at ha ⊢
      by_cases hn : Json.goString (getPath2 tc "function" "name") = ""
      · rw [if_pos hn] at ha
        exact Or.inl ha
      · rw [if_neg hn] at ha
        rcases (mem_keysOf_updateAssoc _ _ _ a).mp ha with hm | hm
        · exact Or.inl hm
        · exact Or.inr ⟨_, _, Or.inr ⟨rfl, hm, rfl⟩⟩

end CLIProxy

namespace CLIProxy

theorem tcsFold_map_keys (gen : Nat → String) (tcs : List Json) :
    ∀ (acc : CallsAcc) (a : String),
      a ∈ keysOf (tcs.foldl (processToolCall true gen) acc).map →
      a ∈ keysOf acc.map ∨
        ∃ n args, AgPart.functionCall n (some a) args ∈
          (tcs.foldl (processToolCall true gen) acc).parts := by
  induction tcs with
  | nil => intro acc a ha; exact Or.inl ha
  | cons tc tcs ih =>
    intro acc a ha
    simp only [List.foldl_cons] at ha ⊢
    rcases ih (processToolCall true gen acc tc) a ha with h | h
    · rcases pTC_map_keys gen acc tc a h with h2 | ⟨n, args, h2⟩
      · exact Or.inl h2
      · exact Or.inr ⟨n, args, tcsFold_parts_mono true gen tcs _ _ h2⟩
    · exact Or.inr h

theorem pTC_fIDs (gen : Nat → String) (acc : CallsAcc) (tc : Json) (f : String)
    (hf : f ∈ (processToolCall true gen acc tc).fIDs) :
    f ∈ acc.fIDs ∨
      ∃ n args, AgPart.functionCall n (some f) args ∈ (processToolCall true gen acc tc).parts := by
  by_cases hty : (Json.goString (tc.get? "type") ≠ "function" &&
      Json.goString (tc.get? "type") ≠ "") = true
  · rw [pTC_skip true gen acc tc hty] at hf
    exact Or.inl hf
  · rw [Bool.not_eq_true] at hty
    rw [pTC_emit true gen acc tc hty] at hf ⊢
    by_cases hid : Json.goString (tc.get? "id") = ""
    · simp [hid] at hf ⊢
      rcases hf with h | ⟨hne, rfl⟩
      · exact Or.inl h
      · exact Or.inr ⟨_, _, Or.inr ⟨rfl, ⟨hne, rfl⟩, rfl⟩⟩
    · simp [hid] at hf ⊢
      rcases hf with h | rfl
      · exact Or.inl h
      · exact Or.inr ⟨_, _, Or.inr ⟨rfl, rfl, rfl⟩⟩

theorem tcsFold_fIDs (gen : Nat → String) (tcs : List Json) :
    ∀ (acc : CallsAcc) (f : String),
      f ∈ (tcs.foldl (processToolCall true gen) acc).fIDs →
      f ∈ acc.fIDs ∨
        ∃ n args, AgPart.functionCall n (some f) args ∈
          (tcs.foldl (processToolCall true gen) acc).parts := by
  induction tcs with
  | nil => intro acc f hf; exact Or.inl hf
  | cons tc tcs ih =>
    intro acc f hf
    simp only [List.foldl_cons] at hf ⊢
    rcases ih (processToolCall true gen acc tc) f hf with h | h
    · rcases pTC_fIDs gen acc tc f h with h2 | ⟨n, args, h2⟩
      · exact Or.inl h2
      · exact Or.inr ⟨n, args, tcsFold_parts_mono true gen tcs _ _ h2⟩
    · exact Or.inr h

end CLIProxy

namespace CLIProxy

theorem pTC_claude_ok (cIds S : List String) (gen : Nat → String)
    (hgen : ∀ k, gen k ≠ "") (acc : CallsAcc) (tc : Json)
    (hidc : Json.goString (tc.get? "id") ∈ cIds)
    (hacc : ∀ p ∈ acc.parts, callPartOk cIds gen p ∧ respPartIn S p) :
    ∀ p ∈ (processToolCall true gen acc tc).parts,
      callPartOk cIds gen p ∧ respPartIn S p := by
  intro p hp
  by_cases hty : (Json.goString (tc.get? "type") ≠ "function" &&
      Json.goString (tc.get? "type") ≠ "") = true
  · rw [pTC_skip true gen acc tc hty] at hp
    exact hacc p hp
  · rw [Bool.not_eq_true] at hty
    rw [pTC_emit true gen acc tc hty] at hp
    by_cases hid : Json.goString (tc.get? "id") = ""
    · simp [hid] at hp
      rcases hp with h | rfl
      · exact hacc p h
      · rw [if_neg (hgen acc.k)]
        exact ⟨⟨gen acc.k, rfl, hgen acc.k, Or.inr ⟨acc.k, rfl⟩⟩, trivial⟩
    · simp [hid] at hp
      rcases hp with h | rfl
      · exact hacc p h
      · exact ⟨⟨_, rfl, hid, Or.inl hidc⟩, trivial⟩

theorem tcsFold_claude_ok (cIds S : List String) (gen : Nat → String)
    (hgen : ∀ k, gen k ≠ "") (tcs : List Json)
    (hids : ∀ tc ∈ tcs, Json.goString (tc.get? "id") ∈ cIds) :
    ∀ acc, (∀ p ∈ acc.parts, callPartOk cIds gen p ∧ respPartIn S p) →
    ∀ p ∈ (tcs.foldl (processToolCall true gen) acc).parts,
      callPartOk cIds gen p ∧ respPartIn S p := by
  induction tcs with
  | nil => intro acc hacc p hp; exact hacc p hp
  | cons tc tcs ih =>
    intro acc hacc p hp
    exact ih (fun t ht => hids t (List.mem_cons_of_mem _ ht)) _
      (pTC_claude_ok cIds S gen hgen acc tc (hids tc (List.mem_cons_self _ _)) hacc) p hp

theorem pTC_nonclaude_idFree (gen : Nat → String) (acc : CallsAcc) (tc : Json)
    (hacc : ∀ p ∈ acc.parts, partIdFree p) :
    ∀ p ∈ (processToolCall false gen acc tc).parts, partIdFree p := by
  intro p hp
  by_cases hty : (Json.goString (tc.get? "type") ≠ "function" &&
      Json.goString (tc.get? "type") ≠ "") = true
  · rw [pTC_skip false gen acc tc hty] at hp
    exact hacc p hp
  · rw [Bool.not_eq_true] at hty
    rw [pTC_emit false gen acc tc hty] at hp
    simp at hp
    rcases hp with h | rfl
    · exact hacc p h
    · show (none : Option String) = none
      rfl

theorem tcsFold_nonclaude_idFree (gen : Nat → String) (tcs : List Json) :
    ∀ acc, (∀ p ∈ acc.parts, partIdFree p) →
    ∀ p ∈ (tcs.foldl (processToolCall false gen) acc).parts, partIdFree p := by
  induction tcs with
  | nil => intro acc hacc p hp; exact hacc p hp
  | cons tc tcs ih =>
    intro acc hacc p hp
    exact ih _ (pTC_nonclaude_idFree gen acc tc hacc) p hp

end CLIProxy

namespace CLIProxy

theorem buildFR_aux (inc : Bool) (tcMap : List (String × String))
    (resps : List (String × Option Json)) (fIDs : List String) :
    ∀ (parts0 : List AgPart) (p : AgPart),
      p ∈ fIDs.foldl
        (fun parts fid =>
          match lookupAssoc tcMap fid with
          | some name =>
            let result : Option Json :=
              match lookupAssoc resps fid with
              | none => some (.obj .nil)
              | some none => some (.obj .nil)
              | some (some .null) => none
              | some (some (.obj es)) => some (.obj es)
              | some (some (.arr xs)) => some (.arr xs)
              | some (some v) => some (.str (Json.render v))
            parts ++ [.functionResponse name (if inc then some fid else none) result]
          | none => parts) parts0 →
      p ∈ parts0 ∨ ∃ fid ∈ fIDs, ∃ n res,
        p = AgPart.functionResponse n (if inc then some fid else none) res := by
  induction fIDs with
  | nil => intro parts0 p hp; exact Or.inl hp
  | cons fid fIDs ih =>
    intro parts0 p hp
    simp only [List.foldl_cons] at hp
    rcases hl : lookupAssoc tcMap fid with _ | name
    · rw [hl] at hp
      rcases ih _ p hp with h | ⟨f, hfm, n, res, hres⟩
      · exact Or.inl h
      · exact Or.inr ⟨f, List.mem_cons_of_mem _ hfm, n, res, hres⟩
    · rw [hl] at hp
      rcases ih _ p hp with h | ⟨f, hfm, n, res, hres⟩
      · rcases List.mem_append.mp h with h2 | h2
        · exact Or.inl h2
        · rw [List.mem_singleton] at h2
          subst h2
          exact Or.inr ⟨fid, List.mem_cons_self _ _, name, _, rfl⟩
      · exact Or.inr ⟨f, List.mem_cons_of_mem _ hfm, n, res, hres⟩

theorem buildFR_claude_ok (cIds S : List String) (gen : Nat → String)
    (tcMap : List (String × String)) (resps : List (String × Option Json))
    (fIDs : List String) (hf : ∀ f ∈ fIDs, f ∈ S) :
    ∀ p ∈ buildFunctionResponses true tcMap resps fIDs,
      callPartOk cIds gen p ∧ respPartIn S p := by
  intro p hp
  unfold buildFunctionResponses at hp
  rcases buildFR_aux true tcMap resps fIDs [] p hp with h | ⟨f, hfm, n, res, hres⟩
  · exact absurd h (List.not_mem_nil p)
  · subst hres
    exact ⟨trivial, f, rfl, hf f hfm⟩

theorem buildFR_nonclaude_idFree (tcMap : List (String × String))
    (resps : List (String × Option Json)) (fIDs : List String) :
    ∀ p ∈ buildFunctionResponses false tcMap resps fIDs, partIdFree p := by
  intro p hp
  unfold buildFunctionResponses at hp
  rcases buildFR_aux false tcMap resps fIDs [] p hp with h | ⟨f, hfm, n, res, hres⟩
  · exact absurd h (List.not_mem_nil p)
  · subst hres
    show (none : Option String) = none
    rfl

end CLIProxy

namespace CLIProxy

theorem fpStep1_emission (gen : Nat → String) (facc : List (String × String))
    (cacc : CallsAcc) (tc : Json)
    (h : ∀ a ∈ keysOf facc, ∃ n args, AgPart.functionCall n (some a) args ∈ cacc.parts)
    (a : String)
    (ha : a ∈ keysOf (
      let tcType := Json.goString (tc.get? "type")
      if tcType = "function" || tcType = "" then
        let id := Json.goString (tc.get? "id")
        let name := Json.goString (getPath2 tc "function" "name")
        if id ≠ "" && name ≠ "" then updateAssoc facc id name else facc
      else facc)) :
    ∃ n args, AgPart.functionCall n (some a) args ∈ (processToolCall true gen cacc tc).parts := by
  by_cases hty2 : (Json.goString (tc.get? "type") = "function" ||
      Json.goString (tc.get? "type") = "") = true
  · simp only [hty2, if_true] at ha
    by_cases hc2 : (Json.goString (tc.get? "id") ≠ "" &&
        Json.goString (getPath2 tc "function" "name") ≠ "") = true
    · simp only [hc2, if_true] at ha
      rw [mem_keysOf_updateAssoc] at ha
      rcases ha with ha | ha
      · obtain ⟨n, args, hm⟩ := h a ha
        exact ⟨n, args, pTC_parts_mono true gen cacc tc _ hm⟩
      · have hty' : (Json.goString (tc.get? "type") ≠ "function" &&
            Json.goString (tc.get? "type") ≠ "") = false := by
          simp only [Bool.or_eq_true, decide_eq_true_eq] at hty2
          rcases hty2 with h2 | h2 <;> simp [h2]
        rw [pTC_emit true gen cacc tc hty']
        simp only [Bool.and_eq_true, decide_eq_true_eq, ne_eq] at hc2
        have hid : ¬(Json.goString (tc.get? "id") = "") := hc2.1
        subst ha
        simp [hid]
        exact ⟨_, _, Or.inr ⟨rfl, rfl⟩⟩
    · simp only [hc2, if_false] at ha
      obtain ⟨n, args, hm⟩ := h a ha
      exact ⟨n, args, pTC_parts_mono true gen cacc tc _ hm⟩
  · simp only [hty2, if_false] at ha
    obtain ⟨n, args, hm⟩ := h a ha
    exact ⟨n, args, pTC_parts_mono true gen cacc tc _ hm⟩

end CLIProxy

namespace CLIProxy

theorem fp1Fold_emission (gen : Nat → String) (tcs : List Json) :
    ∀ (facc : List (String × String)) (cacc : CallsAcc),
      (∀ a ∈ keysOf facc, ∃ n args, AgPart.functionCall n (some a) args ∈ cacc.parts) →
      ∀ a ∈ keysOf (tcs.foldl
        (fun acc tc =>
          let tcType := Json.goString (tc.get? "type")
          if tcType = "function" || tcType = "" then
            let id := Json.goString (tc.get? "id")
            let name := Json.goString (getPath2 tc "function" "name")
            if id ≠ "" && name ≠ "" then updateAssoc acc id name else acc
          else acc) facc),
      ∃ n args, AgPart.functionCall n (some a) args ∈
        (tcs.foldl (processToolCall true gen) cacc).parts := by
  induction tcs with
  | nil => intro facc cacc h a ha; exact h a ha
  | cons tc tcs ih =>
    intro facc cacc h a ha
    simp only [List.foldl_cons] at ha ⊢
    refine ih _ _ ?_ a ha
    intro b hb
    exact fpStep1_emission gen facc cacc tc h b hb

theorem fpStep2_emission (gen : Nat → String) (facc : List (String × String))
    (aacc : AsstAcc) (item : Json)
    (h : ∀ a ∈ keysOf facc, ∃ n args, AgPart.functionCall n (some a) args ∈ aacc.parts)
    (a : String)
    (ha : a ∈ keysOf (
      if Json.goString (item.get? "type") = "tool_use" then
        let id := Json.goString (item.get? "id")
        let name := Json.goString (item.get? "name")
        if id ≠ "" && name ≠ "" then updateAssoc facc id name else facc
      else facc)) :
    ∃ n args, AgPart.functionCall n (some a) args ∈
      (processAssistantContentItem true gen aacc item).parts := by
  by_cases h3 : Json.goString (item.get? "type") = "tool_use"
  · rw [if_pos h3] at ha
    by_cases hc2 : (Json.goString (item.get? "id") ≠ "" &&
        Json.goString (item.get? "name") ≠ "") = true
    · simp only [hc2, if_true] at ha
      rw [mem_keysOf_updateAssoc] at ha
      rcases ha with ha | ha
      · obtain ⟨n, args, hm⟩ := h a ha
        exact ⟨n, args, pACI_parts_mono true gen aacc item _ hm⟩
      · simp only [Bool.and_eq_true, decide_eq_true_eq, ne_eq] at hc2
        have hid : ¬(Json.goString (item.get? "id") = "") := hc2.1
        subst ha
        unfold processAssistantContentItem
        rw [h3]
        simp [hid]
        exact ⟨_, _, Or.inr ⟨rfl, rfl⟩⟩
    · simp only [hc2, if_false] at ha
      obtain ⟨n, args, hm⟩ := h a ha
      exact ⟨n, args, pACI_parts_mono true gen aacc item _ hm⟩
  · rw [if_neg h3] at ha
    obtain ⟨n, args, hm⟩ := h a ha
    exact ⟨n, args, pACI_parts_mono true gen aacc item _ hm⟩

theorem fp2Fold_emission (gen : Nat → String) (items : List Json) :
    ∀ (facc : List (String × String)) (aacc : AsstAcc),
      (∀ a ∈ keysOf facc, ∃ n args, AgPart.functionCall n (some a) args ∈ aacc.parts) →
      ∀ a ∈ keysOf (items.foldl
        (fun acc item =>
          if Json.goString (item.get? "type") = "tool_use" then
            let id := Json.goString (item.get? "id")
            let name := Json.goString (item.get? "name")
            if id ≠ "" && name ≠ "" then updateAssoc acc id name else acc
          else acc) facc),
      ∃ n args, AgPart.functionCall n (some a) args ∈
        (items.foldl (processAssistantContentItem true gen) aacc).parts := by
  induction items with
  | nil => intro facc aacc h a ha; exact h a ha
  | cons item items ih =>
    intro facc aacc h a ha
    simp only [List.foldl_cons] at ha ⊢
    refine ih _ _ ?_ a ha
    intro b hb
    exact fpStep2_emission gen facc aacc item h b hb

end CLIProxy

namespace CLIProxy

theorem firstPassMsg_emission (gen : Nat → String) (resps : List (String × Option Json))
    (tcMap : List (String × String)) (k : Nat) (m : Json)
    (hrole : Json.goString (m.get? "role") = "assistant") :
    ∀ a ∈ keysOf (firstPassMsg [] m),
      ∃ n args, AgPart.functionCall n (some a) args ∈
        partsOfContents (processAssistantMsg true gen resps tcMap k m).1 := by
  intro a ha
  have hstep2 : ∀ item : Json, keyChar (fun acc =>
      if Json.goString (item.get? "type") = "tool_use" then
        let id := Json.goString (item.get? "id")
        let name := Json.goString (item.get? "name")
        if id ≠ "" && name ≠ "" then updateAssoc acc id name else acc
      else acc) := fun item => keyChar_condUpdate2P _ _ _ _
  have hg : keyChar (fun acc =>
      match m.get? "content" with
      | some (.arr items) =>
        items.toList.foldl
          (fun acc item =>
            if Json.goString (item.get? "type") = "tool_use" then
              let id := Json.goString (item.get? "id")
              let name := Json.goString (item.get? "name")
              if id ≠ "" && name ≠ "" then updateAssoc acc id name else acc
            else acc)
          acc
      | _ => acc) := by
    rcases hc : m.get? "content" with _ | jc
    · simp only [hc]
      exact keyChar_id
    · cases jc <;> simp only [hc] <;>
        first
        | exact keyChar_foldl _ hstep2 _
        | exact keyChar_id
  unfold firstPassMsg at ha
  rw [if_pos hrole] at ha
  have hdec := (hg _ a).mp ha
  clear ha
  rcases hdec with h | h
  · -- keys contributed by the tool_calls first-pass fold
    rcases htc : m.get? "tool_calls" with _ | jtc
    · rw [htc] at h
      simp [keysOf] at h
    · cases jtc with
      | arr tcs =>
        rw [htc] at h
        unfold processAssistantMsg
        rw [htc]
        obtain ⟨n, args, hm⟩ :=
          fp1Fold_emission gen tcs.toList []
            ⟨(match m.get? "content" with
               | some (.str s) => (⟨[.text s], k⟩ : AsstAcc)
               | some (.arr items) =>
                 items.toList.foldl (processAssistantContentItem true gen) ⟨[], k⟩
               | _ => ⟨[], k⟩).parts, tcMap, [],
              (match m.get? "content" with
               | some (.str s) => (⟨[.text s], k⟩ : AsstAcc)
               | some (.arr items) =>
                 items.toList.foldl (processAssistantContentItem true gen) ⟨[], k⟩
               | _ => ⟨[], k⟩).k⟩
            (by intro b hb; simp [keysOf] at hb) a h
        exact ⟨n, args, List.mem_append_left _ hm⟩
      | null => rw [htc] at h; simp [keysOf] at h
      | bool b => rw [htc] at h; simp [keysOf] at h
      | num n => rw [htc] at h; simp [keysOf] at h
      | str s => rw [htc] at h; simp [keysOf] at h
      | obj es => rw [htc] at h; simp [keysOf] at h
      | raw s => rw [htc] at h; simp [keysOf] at h
  · rcases hc : m.get? "content" with _ | jc
    · rw [hc] at h
      simp [keysOf] at h
    · cases jc with
      | arr items =>
        rw [hc] at h
        obtain ⟨n, args, hm⟩ := fp2Fold_emission gen items.toList [] ⟨[], k⟩
          (by intro b hb; simp [keysOf] at hb) a h
        unfold processAssistantMsg
        rw [hc]
        rcases htc : m.get? "tool_calls" with _ | jtc
        · exact ⟨n, args, List.mem_append_left _ hm⟩
        · cases jtc with
          | arr tcs =>
            exact ⟨n, args, List.mem_append_left _
              (tcsFold_parts_mono true gen tcs.toList
                ⟨(items.toList.foldl (processAssistantContentItem true gen)
                    ⟨[], k⟩).parts, tcMap, [],
                  (items.toList.foldl (processAssistantContentItem true gen)
                    ⟨[], k⟩).k⟩ _ hm)⟩
          | null => exact ⟨n, args, List.mem_append_left _ hm⟩
          | bool b => exact ⟨n, args, List.mem_append_left _ hm⟩
          | num nn => exact ⟨n, args, List.mem_append_left _ hm⟩
          | str s => exact ⟨n, args, List.mem_append_left _ hm⟩
          | obj es => exact ⟨n, args, List.mem_append_left _ hm⟩
          | raw s => exact ⟨n, args, List.mem_append_left _ hm⟩
      | null => rw [hc] at h; simp [keysOf] at h
      | bool b => rw [hc] at h; simp [keysOf] at h
      | num nn => rw [hc] at h; simp [keysOf] at h
      | str s => rw [hc] at h; simp [keysOf] at h
      | obj es => rw [hc] at h; simp [keysOf] at h
      | raw s => rw [hc] at h; simp [keysOf] at h

end CLIProxy

namespace CLIProxy

theorem respPartIn_mono (S T : List String) (hsub : ∀ a ∈ S, a ∈ T) (p : AgPart)
    (h : respPartIn S p) : respPartIn T p := by
  cases p with
  | functionResponse n id res =>
    obtain ⟨s, hs, hmem⟩ := h
    exact ⟨s, hs, hsub s hmem⟩
  | text s => trivial
  | inlineData mt d => trivial
  | functionCall n id args => trivial

theorem pAM_acc1_ok (cIds S : List String) (gen : Nat → String)
    (hgen : ∀ k, gen k ≠ "") (m : Json) (k : Nat)
    (hids : ∀ a ∈ clientCallIdsOfMsg m, a ∈ cIds) :
    ∀ p ∈ (match m.get? "content" with
            | some (.str s) => (⟨[.text s], k⟩ : AsstAcc)
            | some (.arr items) =>
              items.toList.foldl (processAssistantContentItem true gen) ⟨[], k⟩
            | _ => (⟨[], k⟩ : AsstAcc)).parts,
      callPartOk cIds gen p ∧ respPartIn S p := by
  rcases hc : m.get? "content" with _ | jc
  · intro p hp
    exact absurd hp (List.not_mem_nil p)
  · cases jc with
    | str s =>
      intro p hp
      rw [List.mem_singleton] at hp
      subst hp
      exact ⟨trivial, trivial⟩
    | arr items =>
      exact asstFold_claude_ok cIds S gen hgen items.toList
        (fun item hit => hids _ (item_id_mem_clientIdsOfMsg m items hc item hit))
        ⟨[], k⟩ (fun p hp => absurd hp (List.not_mem_nil p))
    | null => intro p hp; exact absurd hp (List.not_mem_nil p)
    | bool b => intro p hp; exact absurd hp (List.not_mem_nil p)
    | num nn => intro p hp; exact absurd hp (List.not_mem_nil p)
    | obj es => intro p hp; exact absurd hp (List.not_mem_nil p)
    | raw s => intro p hp; exact absurd hp (List.not_mem_nil p)

theorem pAM_acc1_nonclaude (gen : Nat → String) (m : Json) (k : Nat) :
    ∀ p ∈ (match m.get? "content" with
            | some (.str s) => (⟨[.text s], k⟩ : AsstAcc)
            | some (.arr items) =>
              items.toList.foldl (processAssistantContentItem false gen) ⟨[], k⟩
            | _ => (⟨[], k⟩ : AsstAcc)).parts,
      partIdFree p := by
  rcases hc : m.get? "content" with _ | jc
  · intro p hp
    exact absurd hp (List.not_mem_nil p)
  · cases jc with
    | str s =>
      intro p hp
      rw [List.mem_singleton] at hp
      subst hp
      trivial
    | arr items =>
      exact asstFold_nonclaude_idFree gen items.toList ⟨[], k⟩
        (fun p hp => absurd hp (List.not_mem_nil p))
    | null => intro p hp; exact absurd hp (List.not_mem_nil p)
    | bool b => intro p hp; exact absurd hp (List.not_mem_nil p)
    | num nn => intro p hp; exact absurd hp (List.not_mem_nil p)
    | obj es => intro p hp; exact absurd hp (List.not_mem_nil p)
    | raw s => intro p hp; exact absurd hp (List.not_mem_nil p)

end CLIProxy

namespace CLIProxy

theorem mem_partsOf_iteFunction (c : Prop) [Decidable c] (fp : List AgPart) (p : AgPart)
    (h : p ∈ partsOfContents (if c then [(⟨"function", fp⟩ : AgContent)] else [])) :
    p ∈ fp := by
  by_cases hc : c
  · rw [if_pos hc] at h
    rcases List.mem_append.mp h with h2 | h2
    · exact h2
    · exact absurd h2 (List.not_mem_nil p)
  · rw [if_neg hc] at h
    exact absurd h (List.not_mem_nil p)

theorem pAM_claude (cIds : List String) (gen : Nat → String) (hgen : ∀ k, gen k ≠ "")
    (resps : List (String × Option Json)) (tcMap : List (String × String)) (k : Nat)
    (m : Json) (hm_tc : ∀ a ∈ clientCallIdsOfMsg m, a ∈ cIds)
    (hmap0 : "" ∉ keysOf tcMap) :
    ("" ∉ keysOf (processAssistantMsg true gen resps tcMap k m).2.1) ∧
    (∀ p ∈ partsOfContents (processAssistantMsg true gen resps tcMap k m).1,
      callPartOk cIds gen p ∧
      respPartIn (callIdsOfContents (processAssistantMsg true gen resps tcMap k m).1) p) ∧
    (∀ a ∈ keysOf (processAssistantMsg true gen resps tcMap k m).2.1,
      a ∈ keysOf tcMap ∨ ∃ n args, AgPart.functionCall n (some a) args ∈
        partsOfContents (processAssistantMsg true gen resps tcMap k m).1) := by
  have hseedOK : ∀ S : List String, ∀ p ∈ (match m.get? "content" with
        | some (.str s) => (⟨[.text s], k⟩ : AsstAcc)
        | some (.arr items) =>
          items.toList.foldl (processAssistantContentItem true gen) ⟨[], k⟩
        | _ => (⟨[], k⟩ : AsstAcc)).parts,
      callPartOk cIds gen p ∧ respPartIn S p :=
    fun S => pAM_acc1_ok cIds S gen hgen m k hm_tc
  unfold processAssistantMsg
  rcases htc : m.get? "tool_calls" with _ | jtc
  · refine ⟨hmap0, ?_, ?_⟩
    · intro p hp
      rcases List.mem_append.mp hp with h | h
      · exact hseedOK _ p h
      · exact absurd h (List.not_mem_nil p)
    · intro a ha
      exact Or.inl ha
  · cases jtc with
    | arr tcs =>
      have hids2 : ∀ tc ∈ tcs.toList, Json.goString (tc.get? "id") ∈ cIds :=
        fun tc htcm => hm_tc _ (tc_id_mem_clientIdsOfMsg m tcs htc tc htcm)
      refine ⟨?_, ?_, ?_⟩
      · exact tcsFold_map_no_empty gen tcs.toList _ hmap0
      · intro p hp
        rcases List.mem_append.mp hp with h | h
        · exact tcsFold_claude_ok cIds _ gen hgen tcs.toList hids2 _ (hseedOK _) p h
        · have h2 := mem_partsOf_iteFunction _ _ p h
          refine buildFR_claude_ok cIds _ gen _ resps _ ?_ p h2
          intro f hf
          rcases tcsFold_fIDs gen tcs.toList _ f hf with h0 | ⟨n, args, hcall⟩
          · exact absurd h0 (List.not_mem_nil f)
          · exact callIds_of_call_mem _ n f args (List.mem_append_left _ hcall)
      · intro a ha
        rcases tcsFold_map_keys gen tcs.toList _ a ha with h0 | ⟨n, args, hcall⟩
        · exact Or.inl h0
        · exact Or.inr ⟨n, args, List.mem_append_left _ hcall⟩
    | null =>
      refine ⟨hmap0, ?_, fun a ha => Or.inl ha⟩
      intro p hp
      rcases List.mem_append.mp hp with h | h
      · exact hseedOK _ p h
      · exact absurd h (List.not_mem_nil p)
    | bool b =>
      refine ⟨hmap0, ?_, fun a ha => Or.inl ha⟩
      intro p hp
      rcases List.mem_append.mp hp with h | h
      · exact hseedOK _ p h
      · exact absurd h (List.not_mem_nil p)
    | num nn =>
      refine ⟨hmap0, ?_, fun a ha => Or.inl ha⟩
      intro p hp
      rcases List.mem_append.mp hp with h | h
      · exact hseedOK _ p h
      · exact absurd h (List.not_mem_nil p)
    | str s =>
      refine ⟨hmap0, ?_, fun a ha => Or.inl ha⟩
      intro p hp
      rcases List.mem_append.mp hp with h | h
      · exact hseedOK _ p h
      · exact absurd h (List.not_mem_nil p)
    | obj es =>
      refine ⟨hmap0, ?_, fun a ha => Or.inl ha⟩
      intro p hp
      rcases List.mem_append.mp hp with h | h
      · exact hseedOK _ p h
      · exact absurd h (List.not_mem_nil p)
    | raw s =>
      refine ⟨hmap0, ?_, fun a ha => Or.inl ha⟩
      intro p hp
      rcases List.mem_append.mp hp with h | h
      · exact hseedOK _ p h
      · exact absurd h (List.not_mem_nil p)

end CLIProxy

namespace CLIProxy

theorem pAM_nonclaude (gen : Nat → String) (resps : List (String × Option Json))
    (tcMap : List (String × String)) (k : Nat) (m : Json) :
    ∀ p ∈ partsOfContents (processAssistantMsg false gen resps tcMap k m).1,
      partIdFree p := by
  unfold processAssistantMsg
  rcases htc : m.get? "tool_calls" with _ | jtc
  · intro p hp
    rcases List.mem_append.mp hp with h | h
    · exact pAM_acc1_nonclaude gen m k p h
    · exact absurd h (List.not_mem_nil p)
  · cases jtc with
    | arr tcs =>
      intro p hp
      rcases List.mem_append.mp hp with h | h
      · exact tcsFold_nonclaude_idFree gen tcs.toList _ (pAM_acc1_nonclaude gen m k) p h
      · exact buildFR_nonclaude_idFree _ resps _ p (mem_partsOf_iteFunction _ _ p h)
    | null =>
      intro p hp
      rcases List.mem_append.mp hp with h | h
      · exact pAM_acc1_nonclaude gen m k p h
      · exact absurd h (List.not_mem_nil p)
    | bool b =>
      intro p hp
      rcases List.mem_append.mp hp with h | h
      · exact pAM_acc1_nonclaude gen m k p h
      · exact absurd h (List.not_mem_nil p)
    | num nn =>
      intro p hp
      rcases List.mem_append.mp hp with h | h
      · exact pAM_acc1_nonclaude gen m k p h
      · exact absurd h (List.not_mem_nil p)
    | str s =>
      intro p hp
      rcases List.mem_append.mp hp with h | h
      · exact pAM_acc1_nonclaude gen m k p h
      · exact absurd h (List.not_mem_nil p)
    | obj es =>
      intro p hp
      rcases List.mem_append.mp hp with h | h
      · exact pAM_acc1_nonclaude gen m k p h
      · exact absurd h (List.not_mem_nil p)
    | raw s =>
      intro p hp
      rcases List.mem_append.mp hp with h | h
      · exact pAM_acc1_nonclaude gen m k p h
      · exact absurd h (List.not_mem_nil p)

theorem firstPassMsg_nil_of_role (m : Json)
    (h : ¬(Json.goString (m.get? "role") = "assistant")) : firstPassMsg [] m = [] := by
  unfold firstPassMsg
  rw [if_neg h]

end CLIProxy

namespace CLIProxy

theorem pMsg_step_claude (hooks : UtilHooks) (cIds R : List String)
    (gen : Nat → String) (hgen : ∀ k, gen k ≠ "")
    (resps : List (String × Option Json)) (n : Nat) (st : ConvState) (m : Json)
    (Hm : ∀ a ∈ clientCallIdsOfMsg m, a ∈ cIds)
    (H0 : "" ∉ keysOf st.map)
    (H1 : ∀ p ∈ partsOfContents st.contents,
      callPartOk cIds gen p ∧
      respPartIn (callIdsOfContents st.contents ++
        (keysOf (firstPassMsg [] m) ++ R)) p)
    (H2 : ∀ a ∈ keysOf st.map,
      a ∈ callIdsOfContents st.contents ∨ a ∈ keysOf (firstPassMsg [] m) ∨ a ∈ R) :
    ("" ∉ keysOf (processMessage hooks true gen resps n st m).map) ∧
    (∀ p ∈ partsOfContents (processMessage hooks true gen resps n st m).contents,
      callPartOk cIds gen p ∧
      respPartIn (callIdsOfContents
        (processMessage hooks true gen resps n st m).contents ++ R) p) ∧
    (∀ a ∈ keysOf (processMessage hooks true gen resps n st m).map,
      a ∈ callIdsOfContents (processMessage hooks true gen resps n st m).contents ∨
        a ∈ R) := by
  unfold processMessage
  by_cases hc1 : (Json.goString (m.get? "role") = "system" && n > 1) = true
  · simp only [hc1, if_true]
    have hc1' := hc1
    simp only [Bool.and_eq_true, decide_eq_true_eq] at hc1'
    have hrole : ¬(Json.goString (m.get? "role") = "assistant") :=
      fun hcon => absurd (hc1'.1.symm.trans hcon) (by decide)
    have hfp := firstPassMsg_nil_of_role m hrole
    refine ⟨H0, ?_, ?_⟩
    · intro p hp
      refine ⟨(H1 p hp).1, respPartIn_mono _ _ ?_ p (H1 p hp).2⟩
      intro a ha
      rcases List.mem_append.mp ha with h | h
      · exact List.mem_append_left _ h
      · rcases List.mem_append.mp h with h2 | h2
        · rw [hfp] at h2; simp [keysOf] at h2
        · exact List.mem_append_right _ h2
    · intro a ha
      rcases H2 a ha with h | h | h
      · exact Or.inl h
      · rw [hfp] at h; simp [keysOf] at h
      · exact Or.inr h
  · rw [Bool.not_eq_true] at hc1
    simp only [hc1, Bool.false_eq_true, if_false]
    by_cases hc2 : (Json.goString (m.get? "role") = "user" ||
        (Json.goString (m.get? "role") = "system" && n = 1)) = true
    · simp only [hc2, if_true]
      have hc2' := hc2
      simp only [Bool.or_eq_true, Bool.and_eq_true, decide_eq_true_eq] at hc2'
      have hrole : ¬(Json.goString (m.get? "role") = "assistant") := by
        intro hcon
        rcases hc2' with h | ⟨h, _⟩
        · exact absurd (h.symm.trans hcon) (by decide)
        · exact absurd (h.symm.trans hcon) (by decide)
      have hfp := firstPassMsg_nil_of_role m hrole
      have hsub : ∀ a ∈ keysOf st.map,
          a ∈ callIdsOfContents (st.contents ++
            [⟨"user", processUserParts hooks true st.map (m.get? "content")⟩]) ∨
            a ∈ R := by
        intro a ha
        rcases H2 a ha with h | h | h
        · exact Or.inl (callIds_append_left _ _ a h)
        · rw [hfp] at h; simp [keysOf] at h
        · exact Or.inr h
      refine ⟨H0, ?_, ?_⟩
      · intro p hp
        have hp' : p ∈ partsOfContents st.contents ++
            partsOfContents [(⟨"user",
              processUserParts hooks true st.map (m.get? "content")⟩ : AgContent)] := by
          rw [← partsOfContents_append]
          exact hp
        rcases List.mem_append.mp hp' with h | h
        · refine ⟨(H1 p h).1, respPartIn_mono _ _ ?_ p (H1 p h).2⟩
          intro a ha
          rcases List.mem_append.mp ha with h2 | h2
          · exact List.mem_append_left _ (callIds_append_left _ _ a h2)
          · rcases List.mem_append.mp h2 with h3 | h3
            · rw [hfp] at h3; simp [keysOf] at h3
            · exact List.mem_append_right _ h3
        · rcases List.mem_append.mp h with h2 | h2
          · obtain ⟨hcall, hresp⟩ :=
              processUserParts_claude hooks cIds gen st.map (m.get? "content") H0 p h2
            refine ⟨hcall, respPartIn_mono _ _ ?_ p hresp⟩
            intro a ha
            rcases hsub a ha with h3 | h3
            · exact List.mem_append_left _ h3
            · exact List.mem_append_right _ h3
          · exact absurd h2 (List.not_mem_nil p)
      · exact hsub
    · rw [Bool.not_eq_true] at hc2
      simp only [hc2, Bool.false_eq_true, if_false]
      by_cases hc3 : Json.goString (m.get? "role") = "tool"
      · rw [if_pos hc3]
        have hrole : ¬(Json.goString (m.get? "role") = "assistant") :=
          fun hcon => absurd (hc3.symm.trans hcon) (by decide)
        have hfp := firstPassMsg_nil_of_role m hrole
        refine ⟨H0, ?_, ?_⟩
        · intro p hp
          refine ⟨(H1 p hp).1, respPartIn_mono _ _ ?_ p (H1 p hp).2⟩
          intro a ha
          rcases List.mem_append.mp ha with h | h
          · exact List.mem_append_left _ h
          · rcases List.mem_append.mp h with h2 | h2
            · rw [hfp] at h2; simp [keysOf] at h2
            · exact List.mem_append_right _ h2
        · intro a ha
          rcases H2 a ha with h | h | h
          · exact Or.inl h
          · rw [hfp] at h; simp [keysOf] at h
          · exact Or.inr h
      · rw [if_neg hc3]
        by_cases hc4 : Json.goString (m.get? "role") = "assistant"
        · rw [if_pos hc4]
          obtain ⟨P0, P12, P3⟩ := pAM_claude cIds gen hgen resps st.map st.k m Hm H0
          have hemit := firstPassMsg_emission gen resps st.map st.k m hc4
          refine ⟨P0, ?_, ?_⟩
          · intro p hp
            have hp' : p ∈ partsOfContents st.contents ++
                partsOfContents (processAssistantMsg true gen resps st.map st.k m).1 := by
              rw [← partsOfContents_append]
              exact hp
            rcases List.mem_append.mp hp' with h | h
            · refine ⟨(H1 p h).1, respPartIn_mono _ _ ?_ p (H1 p h).2⟩
              intro a ha
              rcases List.mem_append.mp ha with h2 | h2
              · exact List.mem_append_left _ (callIds_append_left _ _ a h2)
              · rcases List.mem_append.mp h2 with h3 | h3
                · obtain ⟨nn, args, hcall⟩ := hemit a h3
                  exact List.mem_append_left _ (callIds_append_right _ _ a
                    (callIds_of_call_mem _ nn a args hcall))
                · exact List.mem_append_right _ h3
            · obtain ⟨hcall, hresp⟩ := P12 p h
              refine ⟨hcall, respPartIn_mono _ _ ?_ p hresp⟩
              intro a ha
              exact List.mem_append_left _ (callIds_append_right _ _ a ha)
          · intro a ha
            rcases P3 a ha with h | ⟨nn, args, hcall⟩
            · rcases H2 a h with h2 | h2 | h2
              · exact Or.inl (callIds_append_left _ _ a h2)
              · obtain ⟨nn, args, hcall⟩ := hemit a h2
                exact Or.inl (callIds_append_right _ _ a
                  (callIds_of_call_mem _ nn a args hcall))
              · exact Or.inr h2
            · exact Or.inl (callIds_append_right _ _ a
                (callIds_of_call_mem _ nn a args hcall))
        · rw [if_neg hc4]
          have hfp := firstPassMsg_nil_of_role m hc4
          refine ⟨H0, ?_, ?_⟩
          · intro p hp
            refine ⟨(H1 p hp).1, respPartIn_mono _ _ ?_ p (H1 p hp).2⟩
            intro a ha
            rcases List.mem_append.mp ha with h | h
            · exact List.mem_append_left _ h
            · rcases List.mem_append.mp h with h2 | h2
              · rw [hfp] at h2; simp [keysOf] at h2
              · exact List.mem_append_right _ h2
          · intro a ha
            rcases H2 a ha with h | h | h
            · exact Or.inl h
            · rw [hfp] at h; simp [keysOf] at h
            · exact Or.inr h

end CLIProxy

namespace CLIProxy

theorem convFold_claude (hooks : UtilHooks) (cIds : List String) (gen : Nat → String)
    (hgen : ∀ k, gen k ≠ "") (resps : List (String × Option Json)) (n : Nat)
    (rest : List Json) :
    ∀ st : ConvState,
      (∀ m ∈ rest, ∀ a ∈ clientCallIdsOfMsg m, a ∈ cIds) →
      ("" ∉ keysOf st.map) →
      (∀ p ∈ partsOfContents st.contents,
        callPartOk cIds gen p ∧
        respPartIn (callIdsOfContents st.contents ++
          keysOf (rest.foldl firstPassMsg [])) p) →
      (∀ a ∈ keysOf st.map,
        a ∈ callIdsOfContents st.contents ∨ a ∈ keysOf (rest.foldl firstPassMsg [])) →
      ∀ p ∈ partsOfContents (rest.foldl (processMessage hooks true gen resps n) st).contents,
        callPartOk cIds gen p ∧
        respPartIn (callIdsOfContents
          (rest.foldl (processMessage hooks true gen resps n) st).contents) p := by
  induction rest with
  | nil =>
    intro st _ _ H1 _ p hp
    obtain ⟨hcall, hresp⟩ := H1 p hp
    refine ⟨hcall, respPartIn_mono _ _ ?_ p hresp⟩
    intro a ha
    rcases List.mem_append.mp ha with h | h
    · exact h
    · simp [keysOf] at h
  | cons m rest ih =>
    intro st Hm H0 H1 H2
    simp only [List.foldl_cons]
    have hdecomp : ∀ a : String, a ∈ keysOf ((m :: rest).foldl firstPassMsg []) ↔
        a ∈ keysOf (firstPassMsg [] m) ∨ a ∈ keysOf (rest.foldl firstPassMsg []) := by
      intro a
      have hkc := keyChar_firstPass_foldl rest (firstPassMsg [] m) a
      simpa [List.foldl_cons] using hkc
    have H1' : ∀ p ∈ partsOfContents st.contents,
        callPartOk cIds gen p ∧
        respPartIn (callIdsOfContents st.contents ++
          (keysOf (firstPassMsg [] m) ++ keysOf (rest.foldl firstPassMsg []))) p := by
      intro p hp
      refine ⟨(H1 p hp).1, respPartIn_mono _ _ ?_ p (H1 p hp).2⟩
      intro a ha
      rcases List.mem_append.mp ha with h | h
      · exact List.mem_append_left _ h
      · exact List.mem_append_right _ (List.mem_append.mpr ((hdecomp a).mp h))
    have H2' : ∀ a ∈ keysOf st.map,
        a ∈ callIdsOfContents st.contents ∨
          a ∈ keysOf (firstPassMsg [] m) ∨ a ∈ keysOf (rest.foldl firstPassMsg []) := by
      intro a ha
      rcases H2 a ha with h | h
      · exact Or.inl h
      · exact Or.inr ((hdecomp a).mp h)
    obtain ⟨G0, G1, G2⟩ := pMsg_step_claude hooks cIds
      (keysOf (rest.foldl firstPassMsg [])) gen hgen resps n st m
      (Hm m (List.mem_cons_self _ _)) H0 H1' H2'
    exact ih (processMessage hooks true gen resps n st m)
      (fun mm hmm => Hm mm (List.mem_cons_of_mem _ hmm)) G0 G1 G2

theorem convFold_nonclaude (hooks : UtilHooks) (gen : Nat → String)
    (resps : List (String × Option Json)) (n : Nat) (rest : List Json) :
    ∀ st : ConvState,
      (∀ p ∈ partsOfContents st.contents, partIdFree p) →
      ∀ p ∈ partsOfContents (rest.foldl (processMessage hooks false gen resps n) st).contents,
        partIdFree p := by
  induction rest with
  | nil => intro st Hc p hp; exact Hc p hp
  | cons m rest ih =>
    intro st Hc
    simp only [List.foldl_cons]
    refine ih (processMessage hooks false gen resps n st m) ?_
    unfold processMessage
    by_cases hc1 : (Json.goString (m.get? "role") = "system" && n > 1) = true
    · simp only [hc1, if_true]
      exact Hc
    · rw [Bool.not_eq_true] at hc1
      simp only [hc1, Bool.false_eq_true, if_false]
      by_cases hc2 : (Json.goString (m.get? "role") = "user" ||
          (Json.goString (m.get? "role") = "system" && n = 1)) = true
      · simp only [hc2, if_true]
        intro p hp
        have hp' : p ∈ partsOfContents st.contents ++
            partsOfContents [(⟨"user",
              processUserParts hooks false st.map (m.get? "content")⟩ : AgContent)] := by
          rw [← partsOfContents_append]
          exact hp
        rcases List.mem_append.mp hp' with h | h
        · exact Hc p h
        · rcases List.mem_append.mp h with h2 | h2
          · exact processUserParts_nonclaude hooks st.map (m.get? "content") p h2
          · exact absurd h2 (List.not_mem_nil p)
      · rw [Bool.not_eq_true] at hc2
        simp only [hc2, Bool.false_eq_true, if_false]
        by_cases hc3 : Json.goString (m.get? "role") = "tool"
        · rw [if_pos hc3]
          exact Hc
        · rw [if_neg hc3]
          by_cases hc4 : Json.goString (m.get? "role") = "assistant"
          · rw [if_pos hc4]
            intro p hp
            have hp' : p ∈ partsOfContents st.contents ++
                partsOfContents (processAssistantMsg false gen resps st.map st.k m).1 := by
              rw [← partsOfContents_append]
              exact hp
            rcases List.mem_append.mp hp' with h | h
            · exact Hc p h
            · exact pAM_nonclaude gen resps st.map st.k m p h
          · rw [if_neg hc4]
            exact Hc

end CLIProxy

namespace CLIProxy

/-- **C2** (tool-call id policy): in every translated request, when the model
name contains `claude` case-insensitively, every emitted `functionCall` part
carries a non-empty id — a client-supplied tool-call id when present,
otherwise a synthesized id of the form `toolu_` followed by exactly 24
characters of the generator alphabet — and every emitted `functionResponse`
part carries an id that occurs among the `functionCall` ids of the emitted
contents; when the model name does not contain `claude`, no emitted
`functionCall` or `functionResponse` part carries an id. -/
theorem tool_call_id_policy (hooks : UtilHooks) (r : Nat → Fin 62)
    (modelName : String) (raw : Json) :
    (claudeLike modelName = true →
      ∀ p ∈ partsOfContents
          (convertOpenAIRequestToAntigravity hooks (genToolCallID r) modelName
            raw).request.contents,
        (∀ name id args, p = AgPart.functionCall name id args →
          ∃ s, id = some s ∧ s ≠ "" ∧ (s ∈ clientCallIds raw ∨ tooluShaped s)) ∧
        (∀ name id res, p = AgPart.functionResponse name id res →
          ∃ s, id = some s ∧ s ∈ callIdsOfContents
            (convertOpenAIRequestToAntigravity hooks (genToolCallID r) modelName
              raw).request.contents)) ∧
    (claudeLike modelName = false →
      ∀ p ∈ partsOfContents
          (convertOpenAIRequestToAntigravity hooks (genToolCallID r) modelName
            raw).request.contents,
        partIdFree p) := by
  constructor
  · intro hclaude
    unfold convertOpenAIRequestToAntigravity convertMessages
    simp only [hclaude]
    rcases hmsgs : raw.get? "messages" with _ | j
    · intro p hp
      exact absurd hp (List.not_mem_nil p)
    · cases j with
      | arr ms =>
        intro p hp
        have hci : ∀ mm ∈ ms.toList, ∀ a ∈ clientCallIdsOfMsg mm,
            a ∈ clientCallIds raw := by
          intro mm hm a ha
          unfold clientCallIds
          rw [hmsgs]
          exact mem_foldr_clientIds ms.toList mm hm a ha
        obtain ⟨hcall, hresp⟩ := convFold_claude hooks (clientCallIds raw)
          (genToolCallID r) (genToolCallID_ne_empty r)
          (toolResponsesOfMsgs ms.toList) ms.toList.length ms.toList
          { map := ms.toList.foldl firstPassMsg [] }
          hci (empty_notin_firstPass ms.toList)
          (fun q hq => absurd hq (List.not_mem_nil q))
          (fun a ha => Or.inr ha)
          p hp
        constructor
        · intro name id args hpeq
          subst hpeq
          obtain ⟨s, hs, hne, hsrc⟩ := hcall
          refine ⟨s, hs, hne, ?_⟩
          rcases hsrc with h | ⟨kk, hk⟩
          · exact Or.inl h
          · exact Or.inr (hk ▸ tooluShaped_genToolCallID r kk)
        · intro name id res hpeq
          subst hpeq
          obtain ⟨s, hs, hmem⟩ := hresp
          exact ⟨s, hs, hmem⟩
      | null => intro p hp; exact absurd hp (List.not_mem_nil p)
      | bool b => intro p hp; exact absurd hp (List.not_mem_nil p)
      | num nn => intro p hp; exact absurd hp (List.not_mem_nil p)
      | str s => intro p hp; exact absurd hp (List.not_mem_nil p)
      | obj es => intro p hp; exact absurd hp (List.not_mem_nil p)
      | raw s => intro p hp; exact absurd hp (List.not_mem_nil p)
  · intro hnon
    unfold convertOpenAIRequestToAntigravity convertMessages
    simp only [hnon]
    rcases hmsgs : raw.get? "messages" with _ | j
    · intro p hp
      exact absurd hp (List.not_mem_nil p)
    · cases j with
      | arr ms =>
        exact convFold_nonclaude hooks (genToolCallID r)
          (toolResponsesOfMsgs ms.toList) ms.toList.length ms.toList
          { map := ms.toList.foldl firstPassMsg [] }
          (fun q hq => absurd hq (List.not_mem_nil q))
      | null => intro p hp; exact absurd hp (List.not_mem_nil p)
      | bool b => intro p hp; exact absurd hp (List.not_mem_nil p)
      | num nn => intro p hp; exact absurd hp (List.not_mem_nil p)
      | str s => intro p hp; exact absurd hp (List.not_mem_nil p)
      | obj es => intro p hp; exact absurd hp (List.not_mem_nil p)
      | raw s => intro p hp; exact absurd hp (List.not_mem_nil p)

/-- Witness: on the non-Claude model `gpt-4` the translated tool round-trip
request carries an id-free `functionCall` part. -/
theorem tool_call_id_policy_witness :
    claudeLike "gpt-4" = false ∧
      partIdFree (AgPart.functionCall "add" none (Json.raw "\x7b\"a\":1\x7d")) :=
  ⟨by decide,
    (tool_call_id_policy hooksPlain rngA "gpt-4" reqToolRoundTrip).2 (by decide)
      (AgPart.functionCall "add" none (Json.raw "\x7b\"a\":1\x7d")) (by decide)⟩

end CLIProxy
